import Mathlib

/-!
Verification of the markdown transformation core of damo-land/cogito:
the markdown parser and serializer in
`src/services/editor/SimpleMarkdownService.ts` and the live input rules in
`src/services/editor/InputRulesService.ts` (`InputRulesService`).

The embedding works on `List Char` cores wrapped in `String`-level
functions, because the TypeScript source manipulates JavaScript strings
character-wise through regular expressions.  Each definition carries a
comment naming the source construct it translates.  The document schema
is translated from `src/services/editor/SimpleEditorSchema.ts` (in the
snapshot at `src/unnamed/part_002`): its node and mark vocabulary,
content expressions and `parseDOM` rules.  The engines consuming that
schema — DOMPurify, the host `DOMParser`, and prosemirror-model's
`DOMParser.fromSchema`/`createAndFill` — are external npm dependencies
and are modelled from their documented behavior where noted, as is the
prosemirror-inputrules dispatcher.
-/

set_option maxRecDepth 40000

namespace Cogito

/-! ## JavaScript string primitives

Models of the JavaScript string operations the service uses:
`trim`, `trimEnd`, `split('\n')`, `join('\n')`, `startsWith`. -/

/-- Whitespace as matched by JavaScript `\s` / `trim` (ASCII part). -/
def jsIsWs (c : Char) : Bool :=
  c = ' ' || c = '\t' || c = '\n' || c = '\r' || c = '\x0b' || c = '\x0c'

/-- Drop leading JS whitespace from a character list. -/
def trimStartChars (l : List Char) : List Char := l.dropWhile jsIsWs

/-- Drop trailing JS whitespace from a character list. -/
def trimEndChars (l : List Char) : List Char :=
  (l.reverse.dropWhile jsIsWs).reverse

/-- Model of JavaScript `String.prototype.trim`. -/
def jsTrim (s : String) : String := ⟨trimEndChars (trimStartChars s.data)⟩

/-- Model of JavaScript `String.prototype.trimEnd`. -/
def jsTrimEnd (s : String) : String := ⟨trimEndChars s.data⟩

/-- Split a character list at newline characters; JS `split('\n')`. -/
def splitNLChars : List Char → List (List Char)
  | [] => [[]]
  | c :: rest =>
    if c = '\n' then [] :: splitNLChars rest
    else
      match splitNLChars rest with
      | l :: ls => (c :: l) :: ls
      | [] => [[c]]

/-- Model of JavaScript `markdown.split('\n')`. -/
def splitNL (s : String) : List String := (splitNLChars s.data).map String.mk

/-- Model of JavaScript `array.join('\n')`. -/
def joinNL : List String → String
  | [] => ""
  | [x] => x
  | x :: xs => x ++ "\n" ++ joinNL xs

/-- Prefix test on character lists: `isPrefixChars p s` holds when `p` is a prefix of `s`. -/
def isPrefixChars : List Char → List Char → Bool
  | [], _ => true
  | _ :: _, [] => false
  | p :: ps, c :: cs => p = c && isPrefixChars ps cs

/-- Model of JavaScript `s.startsWith(p)`. -/
def jsStartsWith (s p : String) : Bool := isPrefixChars p.data s.data

/-! ## Document model

Translated from `SimpleEditorSchema.ts` (`new Schema({nodes, marks})`):
block types doc, paragraph, heading (attrs `level`, default 1),
blockquote, code_block (attrs `language`, default null), bullet_list,
ordered_list (the prosemirror-schema-list `order` attr, default 1),
list_item, task_list, task_list_item (attrs `checked`, default false),
horizontal_rule; leaf text carrying a set of marks {strong, em, code,
link (attrs `href` required, `title` default null)}.  `hard_break` is
also declared there but its `br` tag is outside the sanitizer allow-list,
so the parser never produces it; the `other` constructor stands for any
node type outside this vocabulary (the serializer's `default` switch
branch).  `code_block.language` uses `""` for the null language, matching
the serializer's `language ? language : ''`. -/

/-- A formatting mark attached to a run of text (spec section 3). -/
inductive PMark where
  | strong
  | em
  | code
  | link (href : String) (title : Option String)
deriving DecidableEq, Repr

/-- Rank used by the mark-set ordering (declaration order of spec section 3). -/
def markRank : PMark → Nat
  | .strong => 0
  | .em => 1
  | .code => 2
  | .link _ _ => 3

/-- A node of the document tree (spec section 3 vocabulary). -/
inductive PMNode where
  | text (s : String) (marks : List PMark)
  | doc (children : List PMNode)
  | paragraph (children : List PMNode)
  | heading (level : Nat) (children : List PMNode)
  | blockquote (children : List PMNode)
  | code_block (language : String) (children : List PMNode)
  | bullet_list (children : List PMNode)
  | ordered_list (order : Nat) (children : List PMNode)
  | list_item (children : List PMNode)
  | task_list (children : List PMNode)
  | task_list_item (checked : Bool) (children : List PMNode)
  | horizontal_rule
  | other (name : String) (children : List PMNode)
deriving Repr

/-- The children a `node.forEach` iteration visits. -/
def childrenOf : PMNode → List PMNode
  | .text _ _ => []
  | .doc cs => cs
  | .paragraph cs => cs
  | .heading _ cs => cs
  | .blockquote cs => cs
  | .code_block _ cs => cs
  | .bullet_list cs => cs
  | .ordered_list _ cs => cs
  | .list_item cs => cs
  | .task_list cs => cs
  | .task_list_item _ cs => cs
  | .horizontal_rule => []
  | .other _ cs => cs

/-- `schema.nodes.doc.createAndFill()`.  The schema's doc node
(`SimpleEditorSchema.ts`, `doc: nodes.doc`) has content expression
`block+`, so `createAndFill` (prosemirror-model, an external dependency,
modelled from its documented fill behavior) inserts the minimal required
content: one empty paragraph. -/
def emptyFilledDoc : PMNode := .doc [.paragraph []]

/-! ## Serializer

Faithful translation of `SimpleMarkdownService.serializeToMarkdown`,
`serializeList`, `serializeTaskList` and `nodeToText`
(`SimpleMarkdownService.ts` lines 134-315). -/

/-- Mark test used by `nodeToText`: `mark.type.name === 'link'`. -/
def isLinkMark : PMark → Bool
  | .link _ _ => true
  | _ => false

/-- One step of the `otherMarks.forEach` switch of `nodeToText` (source
lines 286-298): strong, em and code wrap the accumulated text; any other
mark type leaves it unchanged. -/
def wrapMark (acc : String) (m : PMark) : String :=
  match m with
  | .strong => "**" ++ acc ++ "**"
  | .em => "*" ++ acc ++ "*"
  | .code => "`" ++ acc ++ "`"
  | .link _ _ => acc

/-- `nodeToText`'s treatment of one text child: non-link marks wrap the
literal text first in mark-array order, then the link mark (if any) wraps
last as `[formatted-text](href)` (source lines 281-304). -/
def applyMarks (s : String) (marks : List PMark) : String :=
  let linkMark := marks.find? isLinkMark
  let otherMarks := marks.filter (fun m => !(isLinkMark m))
  let t := otherMarks.foldl wrapMark s
  match linkMark with
  | some (.link href _) => "[" ++ t ++ "](" ++ href ++ ")"
  | _ => t

mutual

/-- `nodeToText(node)` (source lines 274-315): fold over the node's
children, rendering text children through their marks and recursing into
everything else.  A node without children (in particular a bare text
node, which `forEach` never visits) yields the empty string. -/
def nodeToText : PMNode → String
  | .text _ _ => ""
  | .doc cs => childrenText cs
  | .paragraph cs => childrenText cs
  | .heading _ cs => childrenText cs
  | .blockquote cs => childrenText cs
  | .code_block _ cs => childrenText cs
  | .bullet_list cs => childrenText cs
  | .ordered_list _ cs => childrenText cs
  | .list_item cs => childrenText cs
  | .task_list cs => childrenText cs
  | .task_list_item _ cs => childrenText cs
  | .horizontal_rule => ""
  | .other _ cs => childrenText cs

/-- The `node.forEach` loop body of `nodeToText`. -/
def childrenText : List PMNode → String
  | [] => ""
  | c :: cs =>
    (match c with
     | .text s marks => applyMarks s marks
     | n => nodeToText n) ++ childrenText cs

/-- `node.textContent`: concatenation of all descendant text, mark-free. -/
def textContent : PMNode → String
  | .text s _ => s
  | .doc cs => listTextContent cs
  | .paragraph cs => listTextContent cs
  | .heading _ cs => listTextContent cs
  | .blockquote cs => listTextContent cs
  | .code_block _ cs => listTextContent cs
  | .bullet_list cs => listTextContent cs
  | .ordered_list _ cs => listTextContent cs
  | .list_item cs => listTextContent cs
  | .task_list cp => listTextContent cp
  | .task_list_item _ cs => listTextContent cs
  | .horizontal_rule => ""
  | .other _ cs => listTextContent cs

/-- Children part of `textContent`. -/
def listTextContent : List PMNode → String
  | [] => ""
  | c :: cs => textContent c ++ listTextContent cs

end

/-- `'  ' + line` indentation of every line, i.e.
`nestedList.split('\n').map(line => '  ' + line).join('\n')`
(source line 232). -/
def indentTwo (s : String) : String :=
  joinNL ((splitNL s).map (fun l => "  " ++ l))

/-- `listItem.type.name === 'list_item'`. -/
def isListItem : PMNode → Bool
  | .list_item _ => true
  | _ => false

mutual

/-- The `listNode.forEach` loop of `serializeList` (source lines 221-242),
with the running `currentNum` made explicit.  Children that are not
`list_item` are skipped; an item whose accumulated text trims to empty is
omitted and does not advance the counter. -/
def serializeListItems (marker : String) (num : Nat) : List PMNode → String
  | [] => ""
  | item :: rest =>
    if isListItem item then
      let itemText := listItemText item
      if jsTrim itemText ≠ "" then
        let currentMarker := if marker = "1." then toString num ++ "." else marker
        currentMarker ++ " " ++ jsTrim itemText ++ "\n" ++
          serializeListItems marker (if marker = "1." then num + 1 else num) rest
      else serializeListItems marker num rest
    else serializeListItems marker num rest

/-- The accumulated `itemText` of one `list_item`. -/
def listItemText : PMNode → String
  | .list_item cs => itemChildrenText cs
  | _ => ""

/-- The `listItem.forEach` loop of `serializeList` (source lines 225-234). -/
def itemChildrenText : List PMNode → String
  | [] => ""
  | c :: cs => itemChildText c ++ itemChildrenText cs

/-- One `itemChild`'s contribution (source lines 225-234): paragraph
children contribute their inline text, nested lists contribute a newline
plus the recursively serialized, two-space indented sublist (started
without an explicit `startNum`). -/
def itemChildText : PMNode → String
  | .paragraph cs => nodeToText (.paragraph cs)
  | .bullet_list inner =>
    "\n" ++ indentTwo (jsTrimEnd (serializeListItems "-" 1 inner))
  | .ordered_list _ inner =>
    "\n" ++ indentTwo (jsTrimEnd (serializeListItems "1." 1 inner))
  | _ => ""

end

/-- `serializeList(listNode, marker, startNum?)` (source lines 217-245):
`currentNum = startNum || 1`, then the item loop, then `trimEnd`.
`startNum = none` is a call without the optional argument. -/
def serializeList (children : List PMNode) (marker : String)
    (startNum : Option Nat) : String :=
  let firstNum := match startNum with
    | none => 1
    | some n => if n = 0 then 1 else n
  jsTrimEnd (serializeListItems marker firstNum children)

/-- Paragraph-only text accumulation of `serializeTaskList`'s
`taskItem.forEach` (source lines 259-263). -/
def taskItemChildrenText : List PMNode → String
  | [] => ""
  | c :: cs =>
    (match c with
     | .paragraph _ => nodeToText c
     | _ => "") ++ taskItemChildrenText cs

/-- The `taskListNode.forEach` loop of `serializeTaskList`
(source lines 253-269). -/
def serializeTaskListItems : List PMNode → String
  | [] => ""
  | item :: rest =>
    match item with
    | .task_list_item checked cs =>
      let checkboxSymbol := if checked then "[x]" else "[ ]"
      let itemText := taskItemChildrenText cs
      if jsTrim itemText ≠ "" then
        "- " ++ checkboxSymbol ++ " " ++ jsTrim itemText ++ "\n" ++
          serializeTaskListItems rest
      else serializeTaskListItems rest
    | _ => serializeTaskListItems rest

/-- `serializeTaskList(taskListNode)` (source lines 250-272). -/
def serializeTaskList (children : List PMNode) : String :=
  jsTrimEnd (serializeTaskListItems children)

/-- `'#'.repeat(level)`. -/
def hashes (n : Nat) : String := ⟨List.replicate n '#'⟩

/-- The `switch (node.type.name)` of `serializeToMarkdown`
(source lines 148-189), producing one node's `nodeMarkdown`. -/
def serializeNode (n : PMNode) : String :=
  match n with
  | .paragraph _ => nodeToText n
  | .heading level _ => hashes level ++ " " ++ nodeToText n
  | .blockquote _ => "> " ++ nodeToText n
  | .code_block language _ =>
    "```" ++ language ++ "\n" ++ textContent n ++ "\n```"
  | .bullet_list cs => serializeList cs "-" none
  | .ordered_list order cs =>
    serializeList cs "1." (some (if order = 0 then 1 else order))
  | .task_list cs => serializeTaskList cs
  | .task_list_item _ _ => ""
  | .list_item _ => ""
  | .horizontal_rule => "---"
  | _ =>
    let t := nodeToText n
    if jsTrim t ≠ "" then t else ""

/-- `node.type.name === 'paragraph'`. -/
def isParagraphNode : PMNode → Bool
  | .paragraph _ => true
  | _ => false

/-- The `doc.forEach` loop of `serializeToMarkdown` (source lines 145-201):
a separating newline before every node but the first, then the node's
markdown whenever it is non-empty or the node is a paragraph. -/
def serializeChildren : List PMNode → Bool → String
  | [], _ => ""
  | n :: rest, isFirst =>
    let nodeMarkdown := serializeNode n
    (if isFirst then "" else "\n") ++
      (if nodeMarkdown ≠ "" || isParagraphNode n then nodeMarkdown else "") ++
      serializeChildren rest false

/-- `serializeToMarkdown(doc)` (source lines 134-212). -/
def serializeToMarkdown (d : PMNode) : String :=
  serializeChildren (childrenOf d) true

/-! ## Inline substitutions

Models of the global regex replaces of `processInlineMarkdown`
(source lines 320-333), in their source order: links, `**`-strong,
`*`-emphasis (with the `(?<!\*)`/`(?!\*)` guards), `__`-strong,
`_`-emphasis, inline code.  Each pass scans left to right over the
character list exactly as the JavaScript regex engine does: on a match
the replacement is emitted and scanning resumes after the match; on a
failed match attempt the scanner advances one character.  The `Nat`
argument is fuel; every recursive call consumes at least one input
character, so fuel `length + 1` never runs out. -/

/-- The backtick character (code point 96). -/
def btick : Char := Char.ofNat 96

/-- Split at the first occurrence of `d`:
returns the characters before it and those after it. -/
def findCharClose (d : Char) : List Char → Option (List Char × List Char)
  | [] => none
  | c :: rest =>
    if c = d then some ([], rest)
    else (findCharClose d rest).map (fun p => (c :: p.1, p.2))

/-- Split at the first adjacent pair `d d` (the lazy `(.*?)` closing
search of `\*\*(.*?)\*\*` and `__(.*?)__`). -/
def findDoubleClose (d : Char) : List Char → Option (List Char × List Char)
  | c1 :: c2 :: rest =>
    if c1 = d && c2 = d then some ([], rest)
    else (findDoubleClose d (c2 :: rest)).map (fun p => (c1 :: p.1, p.2))
  | _ => none

/-- One global-replace pass of `text.replace(/\[([^\]]+)\]\(([^)]+)\)/g,
'<a href="$2">$1</a>')`. -/
def linkPass : Nat → List Char → List Char
  | 0, s => s
  | _ + 1, [] => []
  | f + 1, c :: rest =>
    if c = '[' then
      match findCharClose ']' rest with
      | some (txt, '(' :: rest2) =>
        if txt = [] then c :: linkPass f rest
        else
          match findCharClose ')' rest2 with
          | some (url, rest3) =>
            if url = [] then c :: linkPass f rest
            else
              "<a href=\"".data ++ url ++ "\">".data ++ txt ++ "</a>".data ++
                linkPass f rest3
          | none => c :: linkPass f rest
      | _ => c :: linkPass f rest
    else c :: linkPass f rest

/-- One global-replace pass of the double-delimiter strong patterns
`\*\*(.*?)\*\*` and `__(.*?)__` (replacement `<strong>$1</strong>`). -/
def doublePass (d : Char) : Nat → List Char → List Char
  | 0, s => s
  | _ + 1, [] => []
  | _ + 1, [c] => [c]
  | f + 1, c1 :: c2 :: rest =>
    if c1 = d && c2 = d then
      match findDoubleClose d rest with
      | some (content, rest2) =>
        "<strong>".data ++ content ++ "</strong>".data ++ doublePass d f rest2
      | none => c1 :: doublePass d f (c2 :: rest)
    else c1 :: doublePass d f (c2 :: rest)

/-- Longest delimiter-free run: `([^*]+)` / `([^_]+)`. -/
def takeRunNot (d : Char) (l : List Char) : List Char × List Char :=
  (l.takeWhile (fun c => c ≠ d), l.dropWhile (fun c => c ≠ d))

/-- One global-replace pass of the single-delimiter emphasis patterns
`(?<!\*)\*([^*]+)\*(?!\*)` and `(?<!_)_([^_]+)_(?!_)` (replacement
`<em>$1</em>`).  `prev` is the character before the scan position in the
original string, consulted by the lookbehind. -/
def singlePass (d : Char) : Nat → Option Char → List Char → List Char
  | 0, _, s => s
  | _ + 1, _, [] => []
  | f + 1, prev, c :: rest =>
    if c = d && prev ≠ some d then
      match takeRunNot d rest with
      | (run, c2 :: rest2) =>
        if run ≠ [] && rest2.head? ≠ some d then
          "<em>".data ++ run ++ "</em>".data ++ singlePass d f (some c2) rest2
        else c :: singlePass d f (some c) rest
      | (_, []) => c :: singlePass d f (some c) rest
    else c :: singlePass d f (some c) rest

/-- One global-replace pass of `` `(.*?)` `` (replacement
`<code>$1</code>`); the lazy content may be empty. -/
def codePass : Nat → List Char → List Char
  | 0, s => s
  | _ + 1, [] => []
  | f + 1, c :: rest =>
    if c = btick then
      match findCharClose btick rest with
      | some (content, rest2) =>
        "<code>".data ++ content ++ "</code>".data ++ codePass f rest2
      | none => c :: codePass f rest
    else c :: codePass f rest

/-- `processInlineMarkdown(text)` (source lines 320-333): the six
replacement passes in source order. -/
def processInlineMarkdown (s : String) : String :=
  let l0 := s.data
  let l1 := linkPass (l0.length + 1) l0
  let l2 := doublePass '*' (l1.length + 1) l1
  let l3 := singlePass '*' (l2.length + 1) none l2
  let l4 := doublePass '_' (l3.length + 1) l3
  let l5 := singlePass '_' (l4.length + 1) none l4
  ⟨codePass (l5.length + 1) l5⟩

/-! ## Line classification

Models of the line-classifying regexes of `parseMarkdown`'s scan loop
(source lines 54-105).  All operate on the trimmed line except the final
paragraph case, which uses the raw line. -/

/-- Count of leading `#` characters. -/
def countHashes (l : List Char) : Nat := (l.takeWhile (fun c => c = '#')).length

/-- Test of `/^#{1,6}\s+/` on a trimmed line: one to six hashes followed
by whitespace (seven or more hashes cannot match, since backtracking
still faces a `#` where `\s` is required). -/
def isHeadingLine (l : List Char) : Bool :=
  let k := countHashes l
  1 ≤ k && k ≤ 6 &&
    (match l.drop k with
     | c :: _ => jsIsWs c
     | [] => false)

/-- `trimmedLine.replace(/^#{1,6}\s+/, '')`: drop the hashes and the
greedy whitespace run after them. -/
def headingText (l : List Char) : List Char :=
  (l.drop (countHashes l)).dropWhile jsIsWs

/-- Match of `/^-\s*\[\s*\]\s+/` (unchecked task item): on success the
remainder after the matched prefix. -/
def taskUncheckedStrip (l : List Char) : Option (List Char) :=
  match l with
  | '-' :: r1 =>
    match r1.dropWhile jsIsWs with
    | '[' :: r2 =>
      match r2.dropWhile jsIsWs with
      | ']' :: r3 =>
        match r3 with
        | c :: _ => if jsIsWs c then some (r3.dropWhile jsIsWs) else none
        | [] => none
      | _ => none
    | _ => none
  | _ => none

/-- Match of `/^-\s*\[x\]\s+/i` (checked task item): on success the
remainder after the matched prefix. -/
def taskCheckedStrip (l : List Char) : Option (List Char) :=
  match l with
  | '-' :: r1 =>
    match r1.dropWhile jsIsWs with
    | '[' :: x :: ']' :: r3 =>
      if x = 'x' || x = 'X' then
        match r3 with
        | c :: _ => if jsIsWs c then some (r3.dropWhile jsIsWs) else none
        | [] => none
      else none
    | _ => none
  | _ => none

/-- Match of `/^\s*\d+\.\s+/` (ordered item): on success the remainder. -/
def orderedStrip (l : List Char) : Option (List Char) :=
  let r0 := l.dropWhile jsIsWs
  let ds := r0.takeWhile Char.isDigit
  if ds = [] then none
  else
    match r0.dropWhile Char.isDigit with
    | '.' :: r1 =>
      match r1 with
      | c :: _ => if jsIsWs c then some (r1.dropWhile jsIsWs) else none
      | [] => none
    | _ => none

/-- Match of `/^\s*[-*+]\s+/` (unordered item): on success the remainder. -/
def bulletStrip (l : List Char) : Option (List Char) :=
  match l.dropWhile jsIsWs with
  | m :: r1 =>
    if m = '-' || m = '*' || m = '+' then
      match r1 with
      | c :: _ => if jsIsWs c then some (r1.dropWhile jsIsWs) else none
      | [] => none
    else none
  | [] => none

/-- Match of `/^>\s+/` (blockquote): on success the remainder. -/
def blockquoteStrip (l : List Char) : Option (List Char) :=
  match l with
  | '>' :: r1 =>
    match r1 with
    | c :: _ => if jsIsWs c then some (r1.dropWhile jsIsWs) else none
    | [] => none
  | _ => none

/-- Test of `/^---+$/` (horizontal rule): three or more dashes and
nothing else. -/
def isHrLine (l : List Char) : Bool :=
  3 ≤ l.length && l.all (fun c => c = '-')

/-- Nat decimal rendering used for `<h${level}>`. -/
def natStr (n : Nat) : String := toString n

/-- The html for a heading line (source lines 61-66). -/
def headingHtml (t : List Char) : String :=
  let level := min (countHashes t) 6
  "<h" ++ natStr level ++ ">" ++ processInlineMarkdown ⟨headingText t⟩ ++
    "</h" ++ natStr level ++ ">"

/-- The html for a fenced code block (source lines 67-77). -/
def fenceHtml (lang : String) (codeLines : List String) : String :=
  let langAttr := if lang ≠ "" then " data-language=\"" ++ lang ++ "\"" else ""
  "<pre" ++ langAttr ++ "><code>" ++ joinNL codeLines ++ "</code></pre>"

/-- The html for an unchecked task line (source lines 78-81). -/
def taskUncheckedHtml (text : List Char) : String :=
  "<ul data-type=\"taskList\"><li data-type=\"taskItem\" data-checked=\"false\"" ++
    " class=\"task-item-unchecked\">" ++ processInlineMarkdown ⟨text⟩ ++ "</li></ul>"

/-- The html for a checked task line (source lines 82-85). -/
def taskCheckedHtml (text : List Char) : String :=
  "<ul data-type=\"taskList\"><li data-type=\"taskItem\" data-checked=\"true\"" ++
    " class=\"task-item-checked\">" ++ processInlineMarkdown ⟨text⟩ ++ "</li></ul>"

mutual

/-- The line-scanning loop of `parseMarkdown` (source lines 54-105),
accumulating the intermediate html string.  The branch order is the
source's `if`/`else if` chain; a fence opener hands the remaining lines
to `fenceScan`. -/
def buildHtmlLines : List String → String
  | [] => ""
  | line :: rest =>
    let t := jsTrim line
    if t = "" then "<p></p>" ++ buildHtmlLines rest
    else if isHeadingLine t.data then headingHtml t.data ++ buildHtmlLines rest
    else if jsStartsWith t "```" then
      fenceScan ⟨t.data.drop 3⟩ [] rest
    else if (taskUncheckedStrip t.data).isSome then
      taskUncheckedHtml ((taskUncheckedStrip t.data).getD []) ++ buildHtmlLines rest
    else if (taskCheckedStrip t.data).isSome then
      taskCheckedHtml ((taskCheckedStrip t.data).getD []) ++ buildHtmlLines rest
    else if (orderedStrip t.data).isSome then
      "<ol><li>" ++ processInlineMarkdown ⟨(orderedStrip t.data).getD []⟩ ++
        "</li></ol>" ++ buildHtmlLines rest
    else if (bulletStrip t.data).isSome then
      "<ul><li>" ++ processInlineMarkdown ⟨(bulletStrip t.data).getD []⟩ ++
        "</li></ul>" ++ buildHtmlLines rest
    else if (blockquoteStrip t.data).isSome then
      "<blockquote>" ++ processInlineMarkdown ⟨(blockquoteStrip t.data).getD []⟩ ++
        "</blockquote>" ++ buildHtmlLines rest
    else if isHrLine t.data then "<hr>" ++ buildHtmlLines rest
    else "<p>" ++ processInlineMarkdown line ++ "</p>" ++ buildHtmlLines rest

/-- The fence-consuming inner `while` (source lines 70-75): collect
verbatim lines until a line whose trim starts with three backticks (that
closing line is then consumed by the outer loop's `i++`) or until
end of input. -/

def fenceScan (lang : String) (acc : List String) : List String → String
  | [] => fenceHtml lang acc
  | l :: rest =>
    if jsStartsWith (jsTrim l) "```" then fenceHtml lang acc ++ buildHtmlLines rest
    else fenceScan lang (acc ++ [l]) rest

end

/-! ## Sanitization

The `DOMPurify.sanitize` call of `parseMarkdown` (source lines 108-112)
runs with `ALLOWED_TAGS`, `ALLOWED_ATTR` and `ALLOW_DATA_ATTR: true`.
The constants below are the source's configuration; `sanitizeForest` is a
model of DOMPurify's documented behaviour for that configuration over an
element tree: elements with disallowed tags are removed with their
children kept (spliced in place), except for the tags whose contents
DOMPurify always discards (`script`, `style`, ...); attributes survive
when listed in `ALLOWED_ATTR` or, because `ALLOW_DATA_ATTR` is set, when
their lowercased name is a `data-*` name.  URI filtering of `href`
values is not modelled (no claim depends on it). -/

/-- `ALLOWED_TAGS` (source line 109). -/
def allowedTags : List String :=
  ["h1", "h2", "h3", "h4", "h5", "h6", "p", "strong", "em", "code", "pre",
   "ul", "ol", "li", "blockquote", "a", "hr"]

/-- `ALLOWED_ATTR` (source line 110). -/
def allowedAttrs : List String :=
  ["href", "data-language", "data-type", "data-checked", "class"]

/-- `ALLOW_DATA_ATTR: true` (source line 111). -/
def allowDataAttr : Bool := true

/-- Attribute filter: in `ALLOWED_ATTR`, or any `data-*` name when
`ALLOW_DATA_ATTR` is set (DOMPurify's `DATA_ATTR` test). -/
def attrAllowed (name : String) : Bool :=
  allowedAttrs.contains name ||
    (allowDataAttr && jsStartsWith name "data-" && 5 < name.data.length)

/-- Tags whose entire contents DOMPurify discards when the tag itself is
disallowed (its `FORBID_CONTENTS` default). -/
def forbidContents : List String :=
  ["annotation-xml", "audio", "colgroup", "desc", "foreignobject", "head",
   "iframe", "math", "mi", "mn", "mo", "ms", "mtext", "noembed", "noframes",
   "noscript", "plaintext", "script", "style", "svg", "template", "thead",
   "title", "video", "xmp"]

/-- A node of the intermediate markup: an element with tag, attributes
and children, or a text node. -/
inductive HNode where
  | el (tag : String) (attrs : List (String × String)) (children : List HNode)
  | txt (s : String)
deriving Repr

mutual

/-- Sanitization of one markup node under the source's DOMPurify
configuration (see section comment). -/
def sanitizeNode : HNode → List HNode
  | .txt s => [.txt s]
  | .el tag attrs children =>
    if allowedTags.contains tag then
      [.el tag (attrs.filter (fun a => attrAllowed a.1)) (sanitizeForest children)]
    else if forbidContents.contains tag then []
    else sanitizeForest children

/-- Sanitization of a markup forest. -/
def sanitizeForest : List HNode → List HNode
  | [] => []
  | n :: rest => sanitizeNode n ++ sanitizeForest rest

end

mutual

/-- All element tags occurring in a markup node. -/
def tagsOfNode : HNode → List String
  | .txt _ => []
  | .el tag _ children => tag :: tagsOfForest children

/-- All element tags occurring in a markup forest. -/
def tagsOfForest : List HNode → List String
  | [] => []
  | n :: rest => tagsOfNode n ++ tagsOfForest rest

end

mutual

/-- All attribute names occurring in a markup node. -/
def attrNamesOfNode : HNode → List String
  | .txt _ => []
  | .el _ attrs children => attrs.map Prod.fst ++ attrNamesOfForest children

/-- All attribute names occurring in a markup forest. -/
def attrNamesOfForest : List HNode → List String
  | [] => []
  | n :: rest => attrNamesOfNode n ++ attrNamesOfForest rest

end

/-! ## Materializer

Modelled from the spec: the "intermediate markup → tree materializer
performing the sanitization pass" (spec section 6) — in the source the
composition of `DOMPurify.sanitize`, the host DOM's `innerHTML` parse and
`DOMParser.fromSchema(schema).parse(tempDiv)` (source lines 108-115).
It is a character machine over the html string: a stack of open
elements, text accumulation, and schema-directed node construction at
each closing tag, with the sanitization allow-list applied as elements
open (dropped elements stay transparent, their children spliced;
forbidden-contents subtrees are discarded).  Whitespace is collapsed in
non-`pre` blocks and text runs with equal mark sets merge, following the
schema DOM parser's defaults.  Tag soup beyond what the generated markup
and simple raw-html input produce (comments, implicit auto-closing) is
out of the model. -/

/-- ASCII lowercasing of tag and attribute names. -/
def jsToLower (c : Char) : Char :=
  if 'A' ≤ c && c ≤ 'Z' then Char.ofNat (c.toNat + 32) else c

/-- Characters that may appear in a tag or attribute name. -/
def isNameChar (c : Char) : Bool :=
  !(jsIsWs c) && c ≠ '=' && c ≠ '/' && c ≠ '>' && c ≠ '"'

/-- Attribute list parsing inside a tag (fuelled; each step consumes at
least one character). -/
def parseAttrsF : Nat → List Char → List (String × String)
  | 0, _ => []
  | f + 1, l =>
    let l1 := l.dropWhile jsIsWs
    match l1 with
    | [] => []
    | _ =>
      let name := l1.takeWhile isNameChar
      let r1 := l1.dropWhile isNameChar
      if name = [] then parseAttrsF f (l1.drop 1)
      else
        match r1 with
        | '=' :: '"' :: r2 =>
          let v := r2.takeWhile (fun c => c ≠ '"')
          (⟨name.map jsToLower⟩, ⟨v⟩) ::
            parseAttrsF f ((r2.dropWhile (fun c => c ≠ '"')).drop 1)
        | '=' :: r2 =>
          let v := r2.takeWhile (fun c => !(jsIsWs c) && c ≠ '>')
          (⟨name.map jsToLower⟩, ⟨v⟩) ::
            parseAttrsF f (r2.dropWhile (fun c => !(jsIsWs c) && c ≠ '>'))
        | _ => (⟨name.map jsToLower⟩, "") :: parseAttrsF f r1

/-- Parsed form of the characters between `<` and `>`. -/
structure TagInfo where
  isClose : Bool
  name : String
  attrs : List (String × String)
  selfClose : Bool

/-- Parse the characters between `<` and `>`. -/
def parseTagContent (acc : List Char) : TagInfo :=
  let acc1 := acc.dropWhile jsIsWs
  match acc1 with
  | '/' :: r =>
    { isClose := true, name := ⟨(r.takeWhile isNameChar).map jsToLower⟩,
      attrs := [], selfClose := false }
  | _ =>
    let name := acc1.takeWhile isNameChar
    let rest := acc1.dropWhile isNameChar
    { isClose := false, name := ⟨name.map jsToLower⟩,
      attrs := parseAttrsF (rest.length + 1) rest,
      selfClose := acc.getLast? = some '/' }

/-- Scanner mode: accumulating text, or inside a tag after `<`. -/
inductive MMode where
  | text (acc : List Char)
  | tag (acc : List Char)

/-- An open element on the materializer stack. -/
structure MFrame where
  tag : String
  attrs : List (String × String)
  keep : Bool
  skipper : Bool
  content : List PMNode

/-- Materializer state. -/
structure MState where
  stack : List MFrame
  topNodes : List PMNode
  mode : MMode

/-- Append finished nodes to the innermost open element, or to the
top level when no element is open. -/
def appendNodes (st : MState) (ns : List PMNode) : MState :=
  match st.stack with
  | f :: fs => { st with stack := { f with content := f.content ++ ns } :: fs }
  | [] => { st with topNodes := st.topNodes ++ ns }

/-- Is a node a text run? -/
def isTextNode : PMNode → Bool
  | .text _ _ => true
  | _ => false

/-- Whitespace collapsing inside a text chunk: a whitespace run becomes
one space, or vanishes when the previous character was already
whitespace (or the block just started). -/
def collapseChars (prevWs : Bool) : List Char → List Char
  | [] => []
  | c :: rest =>
    if jsIsWs c then
      if prevWs then collapseChars true rest
      else ' ' :: collapseChars true rest
    else c :: collapseChars false rest

/-- Whitespace collapsing across the chunks of an inline run list. -/
def collapseChunks (prevWs : Bool) : List PMNode → List PMNode
  | [] => []
  | .text s marks :: rest =>
    let s' := collapseChars prevWs s.data
    let pw := match s.data.getLast? with
      | none => prevWs
      | some c => jsIsWs c
    (if s' = [] then [] else [.text ⟨s'⟩ marks]) ++ collapseChunks pw rest
  | n :: rest => n :: collapseChunks true rest

/-- Remove the single possible trailing space of the last text chunk. -/
def dropTrailingSpace : List PMNode → List PMNode
  | [] => []
  | [.text s marks] =>
    (match s.data.getLast? with
     | some ' ' =>
       let l := s.data.dropLast
       if l = [] then [] else [.text ⟨l⟩ marks]
     | _ => [.text s marks])
  | n :: rest => n :: dropTrailingSpace rest

mutual

/-- Merge helper: the run being accumulated plus the remaining chunks. -/
def mergeRunsAux (curText : String) (curMarks : List PMark) :
    List PMNode → List PMNode
  | [] => [.text curText curMarks]
  | .text b m2 :: rest =>
    if curMarks = m2 then mergeRunsAux (curText ++ b) curMarks rest
    else .text curText curMarks :: mergeRunsAux b m2 rest
  | n :: rest => .text curText curMarks :: n :: mergeRunsBase rest

/-- Merge adjacent text runs carrying equal mark sets. -/
def mergeRunsBase : List PMNode → List PMNode
  | [] => []
  | .text a m :: rest => mergeRunsAux a m rest
  | n :: rest => n :: mergeRunsBase rest

end

/-- Inline content finishing for a non-`pre` block: collapse whitespace,
drop a trailing space, merge equal-mark runs. -/
def finishRuns (runs : List PMNode) : List PMNode :=
  mergeRunsBase (dropTrailingSpace (collapseChunks true runs))

/-- Mark-set insertion ordered by `markRank`, replacing an existing mark
of the same type (the schema's `Mark.addToSet`). -/
def addMark (m : PMark) (marks : List PMark) : List PMark :=
  if marks.any (fun x => markRank x = markRank m) then
    marks.map (fun x => if markRank x = markRank m then m else x)
  else
    let rec ins : List PMark → List PMark
      | [] => [m]
      | x :: xs => if markRank m ≤ markRank x then m :: x :: xs else x :: ins xs
    ins marks

/-- Add a mark to every text run of a finished inline content list. -/
def mapAddMark (m : PMark) (ns : List PMNode) : List PMNode :=
  ns.map (fun n =>
    match n with
    | .text s marks => .text s (addMark m marks)
    | x => x)

/-- Attribute lookup. -/
def lookupAttr (attrs : List (String × String)) (name : String) :
    Option String :=
  (attrs.find? (fun a => a.1 = name)).map Prod.snd

/-- Decimal digits to a number. -/
def natOfDigits (l : List Char) : Nat :=
  l.foldl (fun acc c => 10 * acc + (c.toNat - '0'.toNat)) 0

/-- The `start` attribute of an `ol`, defaulting to 1. -/
def olOrder (attrs : List (String × String)) : Nat :=
  match lookupAttr attrs "start" with
  | some v =>
    let ds := v.data.takeWhile Char.isDigit
    if ds = [] then 1 else natOfDigits ds
  | none => 1

/-- `taskItem.type.name === 'task_list_item'`. -/
def isTaskListItem : PMNode → Bool
  | .task_list_item _ _ => true
  | _ => false

/-- Keep only list items. -/
def onlyListItems (ns : List PMNode) : List PMNode :=
  ns.filter isListItem

/-- Keep only task list items. -/
def onlyTaskItems (ns : List PMNode) : List PMNode :=
  ns.filter isTaskListItem

/-- List items astray outside a list get wrapped in a fresh list, as the
schema DOM parser's content matching synthesizes required wrappers. -/
def fixBlock : PMNode → PMNode
  | .list_item cs => .bullet_list [.list_item cs]
  | .task_list_item b cs => .task_list [.task_list_item b cs]
  | n => n

/-- `fixBlock` over hoisted block children. -/
def fixBlocks (ns : List PMNode) : List PMNode := ns.map fixBlock

mutual

/-- Wrap maximal runs of stray inline text into paragraphs, as the schema
DOM parser does at the document (and blockquote) level; whitespace-only
runs are dropped. -/
def groupTopLevel : List PMNode → List PMNode
  | [] => []
  | n :: rest =>
    match n with
    | .text s m => groupTLAux [.text s m] rest
    | _ => fixBlock n :: groupTopLevel rest

/-- Accumulating a text run for `groupTopLevel`. -/
def groupTLAux (acc : List PMNode) : List PMNode → List PMNode
  | [] =>
    (match finishRuns acc with
     | [] => []
     | r => [.paragraph r])
  | n :: rest =>
    match n with
    | .text s m => groupTLAux (acc ++ [.text s m]) rest
    | _ =>
      (match finishRuns acc with
       | [] => []
       | r => [.paragraph r]) ++ fixBlock n :: groupTopLevel rest

end

/-- Materialize one closed element into document nodes, following the
`parseDOM` rules of `SimpleEditorSchema.ts`: `h1`..`h6` with the matching
`level`, `p` and `blockquote` (prosemirror-schema-basic rules), the mark
tags `strong`/`em`/`code`, the link rule `a[href]` reading `href` and
`title` (an anchor without `href` matches no rule and is transparent),
`ul[data-type="taskList"]` versus plain `ul` (the task rule has priority
60), `ol` with its `start` attribute, `li[data-type="taskItem"]` reading
`data-checked === 'true'` versus plain `li`, `pre` with `data-language`
as a verbatim code block, and `hr`.  A dropped (not allow-listed) element
is transparent; a forbidden-contents element discards its subtree.
Block children of inline-content elements are hoisted behind the block,
and empty lists vanish, as the DOM parser's content-expression matching
(prosemirror-model, modelled from its documented behavior) does. -/
def frameToNodes (f : MFrame) : List PMNode :=
  if f.skipper then []
  else if !f.keep then f.content
  else
    match f.tag with
    | "p" =>
      let (runs, blocks) := f.content.partition isTextNode
      .paragraph (finishRuns runs) :: fixBlocks blocks
    | "h1" =>
      let (runs, blocks) := f.content.partition isTextNode
      .heading 1 (finishRuns runs) :: fixBlocks blocks
    | "h2" =>
      let (runs, blocks) := f.content.partition isTextNode
      .heading 2 (finishRuns runs) :: fixBlocks blocks
    | "h3" =>
      let (runs, blocks) := f.content.partition isTextNode
      .heading 3 (finishRuns runs) :: fixBlocks blocks
    | "h4" =>
      let (runs, blocks) := f.content.partition isTextNode
      .heading 4 (finishRuns runs) :: fixBlocks blocks
    | "h5" =>
      let (runs, blocks) := f.content.partition isTextNode
      .heading 5 (finishRuns runs) :: fixBlocks blocks
    | "h6" =>
      let (runs, blocks) := f.content.partition isTextNode
      .heading 6 (finishRuns runs) :: fixBlocks blocks
    | "blockquote" =>
      let g := groupTopLevel f.content
      [.blockquote (if g.isEmpty then [.paragraph []] else g)]
    | "strong" => mapAddMark .strong f.content
    | "em" => mapAddMark .em f.content
    | "code" => mapAddMark .code f.content
    | "a" =>
      match lookupAttr f.attrs "href" with
      | some href => mapAddMark (.link href (lookupAttr f.attrs "title")) f.content
      | none => f.content
    | "ul" =>
      if lookupAttr f.attrs "data-type" = some "taskList" then
        match onlyTaskItems f.content with
        | [] => []
        | items => [.task_list items]
      else
        match onlyListItems f.content with
        | [] => []
        | items => [.bullet_list items]
    | "ol" =>
      match onlyListItems f.content with
      | [] => []
      | items => [.ordered_list (olOrder f.attrs) items]
    | "li" =>
      let (runs, blocks) := f.content.partition isTextNode
      if lookupAttr f.attrs "data-type" = some "taskItem" then
        [.task_list_item (lookupAttr f.attrs "data-checked" = some "true")
          (.paragraph (finishRuns runs) :: fixBlocks blocks)]
      else [.list_item (.paragraph (finishRuns runs) :: fixBlocks blocks)]
    | "pre" =>
      let raw := listTextContent f.content
      [.code_block ((lookupAttr f.attrs "data-language").getD "")
        (if raw = "" then [] else [.text raw []])]
    | "hr" => [.horizontal_rule]
    | _ => f.content

/-- Close the innermost open element. -/
def closeOnce (st : MState) : MState :=
  match st.stack with
  | [] => st
  | f :: fs => appendNodes { st with stack := fs } (frameToNodes f)

/-- Close elements up to and including the first whose tag is `name`
(fuelled by stack depth). -/
def closeUpToF : Nat → String → MState → MState
  | 0, _, st => st
  | f + 1, name, st =>
    match st.stack with
    | [] => st
    | fr :: _ =>
      if fr.tag = name then closeOnce st
      else closeUpToF f name (closeOnce st)

/-- A closing tag: close up to the matching open element, ignoring the
tag when no element of that name is open. -/
def handleClose (st : MState) (name : String) : MState :=
  if st.stack.any (fun f => f.tag = name) then
    closeUpToF st.stack.length name st
  else st

/-- Void elements, which never take a closing tag. -/
def voidTags : List String :=
  ["area", "base", "br", "col", "embed", "hr", "img", "input", "link",
   "meta", "param", "source", "track", "wbr"]

/-- An opening tag: `hr` materializes immediately; other void elements
are outside the allow-list and vanish; anything else opens a frame,
allow-listed or transparent or contents-discarding. -/
def handleOpen (st : MState) (name : String) (attrs : List (String × String))
    (selfClose : Bool) : MState :=
  if name = "hr" then appendNodes st [.horizontal_rule]
  else if voidTags.contains name then st
  else
    let keep := allowedTags.contains name
    let fr : MFrame :=
      { tag := name,
        attrs := if keep then attrs.filter (fun a => attrAllowed a.1) else [],
        keep,
        skipper := !keep && forbidContents.contains name,
        content := [] }
    if selfClose then appendNodes st (frameToNodes fr)
    else { st with stack := fr :: st.stack }

/-- One character of the materializer. -/
def mStep (st : MState) (c : Char) : MState :=
  match st.mode with
  | .text acc =>
    if c = '<' then
      let st' := if acc = [] then st else appendNodes st [.text ⟨acc⟩ []]
      { st' with mode := .tag [] }
    else { st with mode := .text (acc ++ [c]) }
  | .tag acc =>
    if c = '>' then
      let ti := parseTagContent acc
      let st' := { st with mode := .text [] }
      if acc = [] then { st with mode := .text ('<' :: ['>']) }
      else if ti.isClose then handleClose st' ti.name
      else handleOpen st' ti.name ti.attrs ti.selfClose
    else if acc = [] && !(c.isAlpha || c = '/') then
      { st with mode := .text ('<' :: [c]) }
    else { st with mode := .tag (acc ++ [c]) }

/-- Close every remaining open element (fuelled by stack depth). -/
def closeAllF : Nat → MState → MState
  | 0, st => st
  | f + 1, st =>
    match st.stack with
    | [] => st
    | _ :: _ => closeAllF f (closeOnce st)

/-- Initial materializer state. -/
def mInit : MState := { stack := [], topNodes := [], mode := .text [] }

/-- Run the materializer over an html string. -/
def machineRun (html : String) : MState := html.data.foldl mStep mInit

/-- Finish: flush pending text (an unterminated tag is dropped), close
all open elements, wrap stray top-level text into paragraphs, and build
the document node.  When no block materialized at all, the doc content
expression `block+` (`SimpleEditorSchema.ts`) makes the DOM parser fill
in the one required empty paragraph, exactly as `createAndFill` does. -/
def machineFinish (st : MState) : PMNode :=
  let st1 := match st.mode with
    | .text acc => if acc = [] then st else appendNodes st [.text ⟨acc⟩ []]
    | .tag _ => st
  let st2 := closeAllF st1.stack.length st1
  let g := groupTopLevel st2.topNodes
  .doc (if g.isEmpty then [.paragraph []] else g)

/-- `parseMarkdown(markdown, schema)` (source lines 34-129): the falsy
guard returning the filled empty document, the line scan building the
intermediate html, and the sanitizing materialization.  The `catch`
branch (source lines 125-128) also returns the filled empty document;
every step of this model is total, so the result is always a complete
document and never a partial tree. -/
def parseMarkdown (s : String) : PMNode :=
  if s = "" then emptyFilledDoc
  else machineFinish (machineRun (buildHtmlLines (splitNL s)))

/-! ## Schema validity

The content expressions of `SimpleEditorSchema.ts`: doc is `block+`
(nonempty), blockquote is `block+`, bullet_list and ordered_list are
`list_item+`, task_list is `task_list_item+`, list_item and
task_list_item are `paragraph block*`, code_block is `text*` with
`marks: ''` (unmarked text only), and heading levels come from the
`h1`..`h6` parse rules, so they lie in 1..6.  Paragraphs and headings
have content `inline*`; the only inline leaf this parser produces is
text (`br` is outside the sanitizer allow-list), so inline positions are
checked as text runs. -/

/-- An unmarked text node, the only content `code_block` admits
(content `text*` with `marks: ''`). -/
def isUnmarkedText : PMNode → Bool
  | .text _ [] => true
  | _ => false

mutual

/-- Is a node valid in block position? -/
def blockValid : PMNode → Bool
  | .paragraph cs => cs.all isTextNode
  | .heading k cs => (1 ≤ k && k ≤ 6) && cs.all isTextNode
  | .blockquote cs => !cs.isEmpty && blocksValid cs
  | .code_block _ cs => cs.all isUnmarkedText
  | .bullet_list cs => !cs.isEmpty && itemsValid cs
  | .ordered_list _ cs => !cs.isEmpty && itemsValid cs
  | .task_list cs => !cs.isEmpty && taskItemsValid cs
  | .horizontal_rule => true
  | _ => false

/-- Are all nodes valid blocks? -/
def blocksValid : List PMNode → Bool
  | [] => true
  | c :: cs => blockValid c && blocksValid cs

/-- Are all nodes valid list items? -/
def itemsValid : List PMNode → Bool
  | [] => true
  | c :: cs => itemValid c && itemsValid cs

/-- Is a node a valid `list_item`? -/
def itemValid : PMNode → Bool
  | .list_item cs => itemContentValid cs
  | _ => false

/-- Item content: a paragraph followed by zero or more blocks. -/
def itemContentValid : List PMNode → Bool
  | p :: rest => paragraphValid p && blocksValid rest
  | [] => false

/-- Is a node a text-only paragraph? -/
def paragraphValid : PMNode → Bool
  | .paragraph cs => cs.all isTextNode
  | _ => false

/-- Are all nodes valid task items? -/
def taskItemsValid : List PMNode → Bool
  | [] => true
  | c :: cs => taskItemValid c && taskItemsValid cs

/-- Is a node a valid `task_list_item`? -/
def taskItemValid : PMNode → Bool
  | .task_list_item _ cs => itemContentValid cs
  | _ => false

end

/-- Is a tree a schema-valid document?  The doc content expression is
`block+`, so an empty child list is invalid. -/
def docValid : PMNode → Bool
  | .doc cs => !cs.isEmpty && blocksValid cs
  | _ => false

/-- A node acceptable inside an open materializer frame: a text run, a
block, or a (task) list item awaiting its list. -/
def contentOk (n : PMNode) : Bool :=
  isTextNode n || blockValid n || itemValid n || taskItemValid n

/-- The materializer invariant: every accumulated node, in every open
frame and at the top level, is acceptable. -/
def MInv (st : MState) : Prop :=
  (∀ f ∈ st.stack, ∀ n ∈ f.content, contentOk n = true) ∧
    (∀ n ∈ st.topNodes, contentOk n = true)

/-! ## Live input rules

Translation of `InputRulesService` (`InputRulesService.ts`).  Each rule
is its trigger pattern, modelled as a matcher over the text immediately
preceding the caret (patterns anchored with `^` see that text from the
current block's beginning, per prosemirror-inputrules), together with the
structural edit the rule's handler performs, represented by a
`RuleEffect`.  Every handler is one transaction.  The dispatcher
(`inputRules({rules})`, an external collaborator) is modelled from the
spec: the first rule whose pattern matches fires, exactly once per
keystroke. -/

/-- The structural edit an input rule performs when it fires. -/
inductive RuleEffect where
  | setHeading (level : Nat)
  | wrapBullet
  | wrapOrdered (order : Nat)
  | setCodeBlock (language : Option String)
  | wrapBlockquote
  | applyMark (m : PMark) (captured : String)
  | makeLink (text : String) (href : String)
  | autoLink (href : String)
  | insertHR
  | replaceText (replacement : String)
  | wrapTaskList
deriving DecidableEq, Repr

/-- An input rule: pattern matcher returning the effect on success. -/
structure InputRule where
  pattern : String → Option RuleEffect

/-- Leftmost-match combinator for unanchored end-anchored patterns: try
the attempt function at every position, left to right, tracking the
previous character for lookbehinds. -/
def firstSomeAux (f : Option Char → List Char → Option RuleEffect) :
    Option Char → List Char → Option RuleEffect
  | prev, [] => f prev []
  | prev, c :: rest =>
    match f prev (c :: rest) with
    | some a => some a
    | none => firstSomeAux f (some c) rest

/-- `textblockTypeInputRule(/^(#{1,6})\s$/, heading, level)` (source
lines 412-416). -/
def headingRule : InputRule :=
  ⟨fun s =>
    let k := countHashes s.data
    if 1 ≤ k && k ≤ 6 then
      match s.data.drop k with
      | [w] => if jsIsWs w then some (.setHeading k) else none
      | _ => none
    else none⟩

/-- `wrappingInputRule(/^\s*([-+*])\s$/, bullet_list)` (source
lines 429-434). -/
def bulletListRule : InputRule :=
  ⟨fun s =>
    match s.data.dropWhile jsIsWs with
    | [m, w] =>
      if (m = '-' || m = '+' || m = '*') && jsIsWs w then some .wrapBullet
      else none
    | _ => none⟩

/-- `wrappingInputRule(/^\s*(\d+)\.\s$/, ordered_list, order)` (source
lines 439-445). -/
def orderedListRule : InputRule :=
  ⟨fun s =>
    let l1 := s.data.dropWhile jsIsWs
    let ds := l1.takeWhile Char.isDigit
    if ds = [] then none
    else
      match l1.dropWhile Char.isDigit with
      | ['.', w] => if jsIsWs w then some (.wrapOrdered (natOfDigits ds)) else none
      | _ => none⟩

/-- `textblockTypeInputRule(/^```(\S*)\s$/, code_block, language)`
(source lines 457-461); `match[1] || null` makes the empty info string a
null language. -/
def codeBlockRule : InputRule :=
  ⟨fun s =>
    if isPrefixChars "```".data s.data then
      let rest := s.data.drop 3
      let lang := rest.takeWhile (fun c => !(jsIsWs c))
      match rest.dropWhile (fun c => !(jsIsWs c)) with
      | [w] =>
        if jsIsWs w then
          some (.setCodeBlock (if lang = [] then none else some ⟨lang⟩))
        else none
      | _ => none
    else none⟩

/-- `wrappingInputRule(/^\s*>\s$/, blockquote)` (source line 472). -/
def blockquoteRule : InputRule :=
  ⟨fun s =>
    match s.data.dropWhile jsIsWs with
    | ['>', w] => if jsIsWs w then some .wrapBlockquote else none
    | _ => none⟩

/-- `createMarkInputRule(/\*\*([^*]+)\*\*$/, strong)` (source line 485):
delete the matched span, re-insert the capture carrying the mark — one
transaction. -/
def strongStarRule : InputRule :=
  ⟨fun s =>
    firstSomeAux
      (fun _ l =>
        match l with
        | '*' :: '*' :: rest =>
          let (run, rest2) := takeRunNot '*' rest
          if run ≠ [] && rest2 = ['*', '*'] then
            some (.applyMark .strong ⟨run⟩)
          else none
        | _ => none)
      none s.data⟩

/-- `createMarkInputRule(/__([^_]+)__$/, strong)` (source line 486). -/
def strongUnderRule : InputRule :=
  ⟨fun s =>
    firstSomeAux
      (fun _ l =>
        match l with
        | '_' :: '_' :: rest =>
          let (run, rest2) := takeRunNot '_' rest
          if run ≠ [] && rest2 = ['_', '_'] then
            some (.applyMark .strong ⟨run⟩)
          else none
        | _ => none)
      none s.data⟩

/-- `createMarkInputRule(/(?<!\*)\*([^*]+)\*(?!\*)$/, em)` (source
line 493). -/
def emStarRule : InputRule :=
  ⟨fun s =>
    firstSomeAux
      (fun prev l =>
        match l with
        | '*' :: rest =>
          if prev ≠ some '*' then
            let (run, rest2) := takeRunNot '*' rest
            if run ≠ [] && rest2 = ['*'] then some (.applyMark .em ⟨run⟩)
            else none
          else none
        | _ => none)
      none s.data⟩

/-- `createMarkInputRule(/(?<!_)_([^_]+)_(?!_)$/, em)` (source
line 494). -/
def emUnderRule : InputRule :=
  ⟨fun s =>
    firstSomeAux
      (fun prev l =>
        match l with
        | '_' :: rest =>
          if prev ≠ some '_' then
            let (run, rest2) := takeRunNot '_' rest
            if run ≠ [] && rest2 = ['_'] then some (.applyMark .em ⟨run⟩)
            else none
          else none
        | _ => none)
      none s.data⟩

/-- `createMarkInputRule` for the inline-code pattern (source
line 501). -/
def codeMarkRule : InputRule :=
  ⟨fun s =>
    firstSomeAux
      (fun _ l =>
        match l with
        | c :: rest =>
          if c = btick then
            let (run, rest2) := takeRunNot btick rest
            if run ≠ [] && rest2 = [btick] then some (.applyMark .code ⟨run⟩)
            else none
          else none
        | _ => none)
      none s.data⟩

/-- The markdown link rule `/\[([^\]]+)\]\(([^)]+)\)$/` (source
lines 542-557): delete the span, insert the text carrying a link mark. -/
def markdownLinkRule : InputRule :=
  ⟨fun s =>
    firstSomeAux
      (fun _ l =>
        match l with
        | '[' :: rest =>
          (match findCharClose ']' rest with
           | some (txt, '(' :: r2) =>
             if txt = [] then none
             else
               match findCharClose ')' r2 with
               | some (url, []) =>
                 if url = [] then none else some (.makeLink ⟨txt⟩ ⟨url⟩)
               | _ => none
           | _ => none)
        | _ => none)
      none s.data⟩

/-- The auto-link rule `/https?:\/\/[^\s]+$/` (source lines 560-572). -/
def autoLinkRule : InputRule :=
  ⟨fun s =>
    firstSomeAux
      (fun _ l =>
        if isPrefixChars "https://".data l then
          let r := l.drop 8
          if r ≠ [] && r.all (fun c => !(jsIsWs c)) then some (.autoLink ⟨l⟩)
          else none
        else if isPrefixChars "http://".data l then
          let r := l.drop 7
          if r ≠ [] && r.all (fun c => !(jsIsWs c)) then some (.autoLink ⟨l⟩)
          else none
        else none)
      none s.data⟩

/-- `/^(---|—-)$/` (source lines 584-594): replace the block with a
horizontal rule and a fresh paragraph. -/
def hrRule : InputRule :=
  ⟨fun s => if s = "---" || s = "—-" then some .insertHR else none⟩

/-- The pattern matching `->` before the caret (source lines 619-629):
replace the match with `→`. -/
def rightArrowRule : InputRule :=
  ⟨fun s =>
    firstSomeAux
      (fun _ l => if l = "->".data then some (.replaceText "→") else none)
      none s.data⟩

/-- `/<-$/` (source lines 631-641): replace the match with `←`. -/
def leftArrowRule : InputRule :=
  ⟨fun s =>
    firstSomeAux
      (fun _ l => if l = "<-".data then some (.replaceText "←") else none)
      none s.data⟩

/-- `/banana$/` (source lines 643-653): replace the match with the
banana emoji. -/
def bananaRule : InputRule :=
  ⟨fun s =>
    firstSomeAux
      (fun _ l => if l = "banana".data then some (.replaceText "🍌") else none)
      none s.data⟩

/-- `wrappingInputRule(/^\[\]\s$/, task_list)` (source lines 606-610). -/
def taskListRule : InputRule :=
  ⟨fun s =>
    match s.data with
    | ['[', ']', w] => if jsIsWs w then some .wrapTaskList else none
    | _ => none⟩

/-- `createHeadingRules()` (source lines 411-419). -/
def createHeadingRules : List InputRule := [headingRule]

/-- `createListRules()` (source lines 424-449); the schema has both list
node types, so both guarded pushes run. -/
def createListRules : List InputRule := [bulletListRule, orderedListRule]

/-- `createCodeBlockRules()` (source lines 454-464). -/
def createCodeBlockRules : List InputRule := [codeBlockRule]

/-- `createBlockquoteRules()` (source lines 469-474). -/
def createBlockquoteRules : List InputRule := [blockquoteRule]

/-- `createMarkRules()` (source lines 479-506): bold, italic, code. -/
def createMarkRules : List InputRule :=
  [strongStarRule, strongUnderRule, emStarRule, emUnderRule, codeMarkRule]

/-- `createLinkRules()` (source lines 536-576). -/
def createLinkRules : List InputRule := [markdownLinkRule, autoLinkRule]

/-- `createHorizontalRuleRules()` (source lines 581-597). -/
def createHorizontalRuleRules : List InputRule := [hrRule]

/-- `createArrowRules()` (source lines 618-656). -/
def createArrowRules : List InputRule :=
  [rightArrowRule, leftArrowRule, bananaRule]

/-- `createTaskListRules()` (source lines 602-613). -/
def createTaskListRules : List InputRule := [taskListRule]

/-- `createInputRules()` (source lines 375-406): the registered rule
array, groups in source order. -/
def createInputRules : List InputRule :=
  createHeadingRules ++ createListRules ++ createCodeBlockRules ++
    createBlockquoteRules ++ createMarkRules ++ createLinkRules ++
    createHorizontalRuleRules ++ createArrowRules ++ createTaskListRules

/-- Modelled from the spec: the host's keystroke dispatcher
(`inputRules({rules})`) fires the first rule whose pattern matches the
text before the caret, and only that one. -/
def fireFirst : List InputRule → String → Option RuleEffect
  | [], _ => none
  | r :: rs, s =>
    match r.pattern s with
    | some e => some e
    | none => fireFirst rs s

/-! ## Helper lemmas -/

/-- Suffix test: some tail of `l` equals `w`. -/
def endsWithChars (w : List Char) : List Char → Bool
  | [] => w.isEmpty
  | c :: rest => (c :: rest == w) || endsWithChars w rest

/-- An emitted list item: a `list_item` child whose flattened text does
not trim to empty. -/
def listItemKept (it : PMNode) : Bool :=
  isListItem it && jsTrim (listItemText it) ≠ ""

/-- The accumulated `itemText` of one `task_list_item`. -/
def taskItemText : PMNode → String
  | .task_list_item _ cs => taskItemChildrenText cs
  | _ => ""

/-- An emitted task item: a `task_list_item` child whose flattened text
does not trim to empty. -/
def taskItemKept (it : PMNode) : Bool :=
  isTaskListItem it && jsTrim (taskItemText it) ≠ ""

/-- The trimmed texts of the items a list serialization emits. -/
def keptTexts (items : List PMNode) : List String :=
  items.filterMap
    (fun it => if listItemKept it then some (jsTrim (listItemText it)) else none)

/-- The numbered emission of an ordered list: consecutive numbers from a
start value, one line per kept item. -/
def numberItems : Nat → List String → String
  | _, [] => ""
  | n, t :: ts => toString n ++ "." ++ " " ++ t ++ "\n" ++ numberItems (n + 1) ts

/-! ### C4: line classification by first-matching rule -/

/-- The classification a line receives. -/
inductive LineClass where
  | blank
  | headingL (level : Nat) (text : String)
  | fenceOpen (lang : String)
  | taskU (text : String)
  | taskC (text : String)
  | orderedL (text : String)
  | bulletL (text : String)
  | bqL (text : String)
  | hrL
  | para
deriving DecidableEq, Repr

/-- The ten classification rules in the claim's fixed priority order:
each is a predicate on the trimmed line plus the class it assigns.
The missing tenth rule is `firstRuleMatch`'s fall-through to `para`. -/
def lineRules : List ((List Char → Bool) × (List Char → LineClass)) :=
  [(fun t => t = [], fun _ => .blank),
   (isHeadingLine,
    fun t => .headingL (min (countHashes t) 6) ⟨headingText t⟩),
   (fun t => isPrefixChars "```".data t, fun t => .fenceOpen ⟨t.drop 3⟩),
   (fun t => (taskUncheckedStrip t).isSome,
    fun t => .taskU ⟨(taskUncheckedStrip t).getD []⟩),
   (fun t => (taskCheckedStrip t).isSome,
    fun t => .taskC ⟨(taskCheckedStrip t).getD []⟩),
   (fun t => (orderedStrip t).isSome,
    fun t => .orderedL ⟨(orderedStrip t).getD []⟩),
   (fun t => (bulletStrip t).isSome,
    fun t => .bulletL ⟨(bulletStrip t).getD []⟩),
   (fun t => (blockquoteStrip t).isSome,
    fun t => .bqL ⟨(blockquoteStrip t).getD []⟩),
   (isHrLine, fun _ => .hrL)]

/-- First-matching-rule dispatch; no match falls through to `para`. -/
def firstRuleMatch :
    List ((List Char → Bool) × (List Char → LineClass)) → List Char → LineClass
  | [], _ => .para
  | (p, f) :: rs, t => if p t then f t else firstRuleMatch rs t

/-- A line's classification: the first matching rule, on the trimmed
line. -/
def classifyLine (line : String) : LineClass :=
  firstRuleMatch lineRules (jsTrim line).data

/-- Lines a fence consumes: up to the closing fence or end of input. -/
def fenceBody (rest : List String) : List String :=
  rest.takeWhile (fun l => !(jsStartsWith (jsTrim l) "```"))

/-- Lines the scan resumes with after a fence: past the closing fence
(nothing is left when the fence was unterminated). -/
def fenceRest (rest : List String) : List String :=
  (rest.dropWhile (fun l => !(jsStartsWith (jsTrim l) "```"))).drop 1

/-- The html a classified line contributes, with the scan continuing on
the appropriate remaining lines. -/
def renderClass (line : String) (rest : List String) : LineClass → String
  | .blank => "<p></p>" ++ buildHtmlLines rest
  | .headingL k txt =>
    "<h" ++ natStr k ++ ">" ++ processInlineMarkdown txt ++ "</h" ++
      natStr k ++ ">" ++ buildHtmlLines rest
  | .fenceOpen lang =>
    fenceHtml lang (fenceBody rest) ++ buildHtmlLines (fenceRest rest)
  | .taskU txt => taskUncheckedHtml txt.data ++ buildHtmlLines rest
  | .taskC txt => taskCheckedHtml txt.data ++ buildHtmlLines rest
  | .orderedL txt =>
    "<ol><li>" ++ processInlineMarkdown txt ++ "</li></ol>" ++
      buildHtmlLines rest
  | .bulletL txt =>
    "<ul><li>" ++ processInlineMarkdown txt ++ "</li></ul>" ++
      buildHtmlLines rest
  | .bqL txt =>
    "<blockquote>" ++ processInlineMarkdown txt ++ "</blockquote>" ++
      buildHtmlLines rest
  | .hrL => "<hr>" ++ buildHtmlLines rest
  | .para => "<p>" ++ processInlineMarkdown line ++ "</p>" ++ buildHtmlLines rest

/-- A line without inline trigger characters (link bracket, asterisk,
underscore, backtick). -/
def noInlineTrigger (s : String) : Bool :=
  s.data.all (fun c => c ≠ '[' && c ≠ '*' && c ≠ '_' && c ≠ btick)

/-! ### C1: the plain round-trip fragment -/

/-- A plain character: an ASCII letter or digit. -/
def plainChar (c : Char) : Bool :=
  (97 ≤ c.toNat && c.toNat ≤ 122) || (65 ≤ c.toNat && c.toNat ≤ 90) ||
    (48 ≤ c.toNat && c.toNat ≤ 57)

/-- Plain inline text, tail shape: no double space, no trailing space,
every character a plain character or a single interior space. -/
def plainCore : List Char → Bool
  | [] => true
  | [c] => plainChar c
  | c :: d :: rest =>
    (plainChar c || (c = ' ' && plainChar d)) && plainCore (d :: rest)

/-- Plain inline text: nonempty, starts with a plain character, single
interior spaces only. -/
def plainText (l : List Char) : Bool :=
  match l with
  | [] => false
  | c :: _ => plainChar c && plainCore l

/-- A code line acceptable inside a plain fence: no `<`, no newline, no
backtick. -/
def codeLineOk (l : String) : Bool :=
  l.data.all (fun c => c ≠ '<' && c ≠ '\n' && c ≠ btick)

/-- A markdown block of the plain fragment on which serialization
inverts parsing. -/
inductive PlainBlock where
  | blank
  | headingB (k : Nat) (w : String)
  | fenceB (lang : String) (code : List String)
  | taskU (w : String)
  | taskC (w : String)
  | orderedB (w : String)
  | bulletB (w : String)
  | quoteB (w : String)
  | hrB
  | paraB (w : String)
deriving DecidableEq, Repr

/-- The markdown source lines of a plain block. -/
def renderBlock : PlainBlock → List String
  | .blank => [""]
  | .headingB k w => [hashes k ++ " " ++ w]
  | .fenceB lang code => ("```" ++ lang) :: code ++ ["```"]
  | .taskU w => ["- [ ] " ++ w]
  | .taskC w => ["- [x] " ++ w]
  | .orderedB w => ["1. " ++ w]
  | .bulletB w => ["- " ++ w]
  | .quoteB w => ["> " ++ w]
  | .hrB => ["---"]
  | .paraB w => [w]

/-- The markdown source of a plain document. -/
def renderDoc (bs : List PlainBlock) : String :=
  joinNL (bs.flatMap renderBlock)

/-- Side conditions making a block plain. -/
def blockOk : PlainBlock → Bool
  | .blank => true
  | .headingB k w => 1 ≤ k && k ≤ 6 && plainText w.data
  | .fenceB lang code =>
    lang.data.all plainChar && !code.isEmpty && code.all codeLineOk
  | .taskU w => plainText w.data
  | .taskC w => plainText w.data
  | .orderedB w => plainText w.data
  | .bulletB w => plainText w.data
  | .quoteB w => plainText w.data
  | .hrB => true
  | .paraB w => plainText w.data

/-- The document node a plain block parses to. -/
def blockNode : PlainBlock → PMNode
  | .blank => .paragraph []
  | .headingB k w => .heading k [.text w []]
  | .fenceB lang code =>
    .code_block lang
      (if joinNL code = "" then [] else [.text (joinNL code) []])
  | .taskU w => .task_list [.task_list_item false [.paragraph [.text w []]]]
  | .taskC w => .task_list [.task_list_item true [.paragraph [.text w []]]]
  | .orderedB w => .ordered_list 1 [.list_item [.paragraph [.text w []]]]
  | .bulletB w => .bullet_list [.list_item [.paragraph [.text w []]]]
  | .quoteB w => .blockquote [.paragraph [.text w []]]
  | .hrB => .horizontal_rule
  | .paraB w => .paragraph [.text w []]

/-- The intermediate html a plain block contributes. -/
def blockHtml : PlainBlock → String
  | .blank => "<p></p>"
  | .headingB k w => "<h" ++ natStr k ++ ">" ++ w ++ "</h" ++ natStr k ++ ">"
  | .fenceB lang code => fenceHtml lang code
  | .taskU w => taskUncheckedHtml w.data
  | .taskC w => taskCheckedHtml w.data
  | .orderedB w => "<ol><li>" ++ w ++ "</li></ol>"
  | .bulletB w => "<ul><li>" ++ w ++ "</li></ul>"
  | .quoteB w => "<blockquote>" ++ w ++ "</blockquote>"
  | .hrB => "<hr>"
  | .paraB w => "<p>" ++ w ++ "</p>"

/-- A whole-tail matcher scanned by `firstSomeAux` succeeds exactly on
strings ending with the pattern word. -/
theorem firstSomeAux_const (w : List Char) (e : RuleEffect) (hw : w ≠ []) :
    ∀ (prev : Option Char) (l : List Char),
      firstSomeAux (fun _ t => if t = w then some e else none) prev l =
        if endsWithChars w l then some e else none := by
  intro prev l
  induction l generalizing prev with
  | nil =>
    simp [firstSomeAux, endsWithChars, List.isEmpty_iff, hw, Ne.symm hw]
  | cons c rest ih =>
    simp only [firstSomeAux, endsWithChars]
    by_cases h : c :: rest = w
    · simp [h]
    · simp [h, ih]

/-- The dispatcher really is "the first matching rule, once": it returns
the head of the matching-rule effects in registration order. -/
theorem fireFirst_characterization :
    ∀ (rs : List InputRule) (s : String),
      fireFirst rs s = ((rs.map (fun r => r.pattern s)).filterMap id).head? := by
  intro rs s
  induction rs with
  | nil => rfl
  | cons r rest ih =>
    simp only [fireFirst, List.map_cons, List.filterMap_cons]
    cases h : r.pattern s with
    | none => simpa [h] using ih
    | some e => simp [h]

/-! ## Claim theorems -/

/-- C9: the arrow-substitution group `createArrowRules` contains, besides
the two arrow rules, a rule that fires exactly when the text immediately
preceding the caret ends with the literal word `banana`, and whose single
transaction replaces the matched text with the banana emoji. -/
theorem C9_banana_substitution :
    createArrowRules = [rightArrowRule, leftArrowRule, bananaRule] ∧
    ∀ s : String,
      bananaRule.pattern s =
        if endsWithChars "banana".data s.data then some (.replaceText "🍌")
        else none := by
  refine ⟨rfl, fun s => ?_⟩
  show firstSomeAux _ none s.data = _
  exact firstSomeAux_const "banana".data (.replaceText "🍌") (by decide) none s.data

/-- C6: the live transformation engine registers its input rules in the
declared group order (heading, list, code fence, blockquote, marks, link,
horizontal rule, arrows, task list), the dispatcher fires the first
matching rule's effect exactly once per keystroke (it returns the head of
the matching effects in registration order), and the text `"```js "` at
the start of an empty block fires the code-fence rule with language
`js` — not the bullet- or ordered-list rules, whose patterns do not
match it. -/
theorem C6_rule_priority_and_fence_beats_list :
    createInputRules =
      [headingRule] ++ [bulletListRule, orderedListRule] ++ [codeBlockRule] ++
        [blockquoteRule] ++
        [strongStarRule, strongUnderRule, emStarRule, emUnderRule,
          codeMarkRule] ++
        [markdownLinkRule, autoLinkRule] ++ [hrRule] ++
        [rightArrowRule, leftArrowRule, bananaRule] ++ [taskListRule] ∧
    (∀ (rs : List InputRule) (s : String),
      fireFirst rs s = ((rs.map (fun r => r.pattern s)).filterMap id).head?) ∧
    fireFirst createInputRules "```js " = some (.setCodeBlock (some "js")) ∧
    bulletListRule.pattern "```js " = none ∧
    orderedListRule.pattern "```js " = none := by
  refine ⟨rfl, fireFirst_characterization, ?_, ?_, ?_⟩
  · decide
  · decide
  · decide

/-- C5: inline marks render inner-then-outer — the non-link marks wrap
the literal text first (in mark-array order, via `wrapMark`), and a link
mark, wherever it sits in the array, wraps last and outermost as
`[formatted-text](href)`; in particular a run carrying both strong and
link marks serializes as `[**text**](href)` and not
`**[text](href)**`. -/
theorem C5_link_mark_outermost :
    (∀ (s href : String) (title : Option String) (before after : List PMark),
      (∀ m ∈ before, isLinkMark m = false) →
      applyMarks s (before ++ .link href title :: after) =
        "[" ++
          ((before ++ after.filter (fun m => !(isLinkMark m))).foldl wrapMark s)
          ++ "](" ++ href ++ ")") ∧
    applyMarks "text" [.strong, .link "href" none] = "[**text**](href)" ∧
    applyMarks "text" [.strong, .link "href" none] ≠ "**[text](href)**" := by
  refine ⟨?_, by decide, by decide⟩
  intro s href title before after hb
  have hfind : (before ++ PMark.link href title :: after).find? isLinkMark =
      some (.link href title) := by
    rw [List.find?_append]
    have h1 : before.find? isLinkMark = none :=
      List.find?_eq_none.mpr (by intro x hx; simp [hb x hx])
    rw [h1, List.find?_cons_of_pos _ (by rfl)]
    rfl
  have hfilter :
      (before ++ PMark.link href title :: after).filter
          (fun m => !(isLinkMark m)) =
        before ++ after.filter (fun m => !(isLinkMark m)) := by
    rw [List.filter_append, List.filter_cons_of_neg (by simp [isLinkMark])]
    congr 1
    exact List.filter_eq_self.mpr (by intro a ha; simp [hb a ha])
  simp only [applyMarks, hfind, hfilter]

/-- C5 witness: the general statement applied at a strong-plus-link run. -/
theorem C5_link_mark_outermost_witness :
    (∀ m ∈ [PMark.strong], isLinkMark m = false) ∧
    applyMarks "text" ([PMark.strong] ++ .link "href" none :: []) =
      "[" ++
        (([PMark.strong] ++
            List.filter (fun m => !(isLinkMark m)) []).foldl wrapMark "text")
        ++ "](" ++ "href" ++ ")" :=
  ⟨by decide,
    C5_link_mark_outermost.1 "text" "href" none [.strong] [] (by decide)⟩

/-- The `if` of the serializer loop never changes the appended text: when
the markdown is empty and the node is no paragraph, appending nothing is
appending the empty markdown. -/
theorem serializeChildren_cons (n : PMNode) (rest : List PMNode) (b : Bool) :
    serializeChildren (n :: rest) b =
      (if b then "" else "\n") ++ serializeNode n ++
        serializeChildren rest false := by
  simp only [serializeChildren]
  by_cases h : serializeNode n = ""
  · simp [h]
  · simp [h]

/-- The serializer loop after the first node: one newline before every
per-node markdown. -/
theorem serializeChildren_false_eq (cs : List PMNode) :
    serializeChildren cs false =
      (cs.map serializeNode).foldr (fun x acc => "\n" ++ x ++ acc) "" := by
  induction cs with
  | nil => rfl
  | cons n rest ih =>
    rw [serializeChildren_cons, ih]
    simp [String.append_assoc]

/-- `joinNL` unfolded against the same fold. -/
theorem joinNL_eq_foldr (x : String) (xs : List String) :
    joinNL (x :: xs) = x ++ xs.foldr (fun y acc => "\n" ++ y ++ acc) "" := by
  induction xs generalizing x with
  | nil => simp [joinNL]
  | cons y ys ih =>
    show x ++ "\n" ++ joinNL (y :: ys) = _
    rw [ih y]
    simp [String.append_assoc]

/-- C8: serialization of a document separates consecutive top-level
nodes by exactly one newline character — the output is the
newline-intercalation of the per-node markdown — and appends no trailing
blank line after the last node. -/
theorem C8_single_newline_between_top_nodes :
    ∀ children : List PMNode,
      serializeToMarkdown (.doc children) =
        joinNL (children.map serializeNode) := by
  intro children
  show serializeChildren children true = _
  cases children with
  | nil => rfl
  | cons n rest =>
    rw [serializeChildren_cons, serializeChildren_false_eq, List.map_cons,
      joinNL_eq_foldr]
    simp

/-- List serialization only sees the kept items. -/
theorem serializeListItems_filter (marker : String) :
    ∀ (num : Nat) (items : List PMNode),
      serializeListItems marker num items =
        serializeListItems marker num (items.filter listItemKept) := by
  intro num items
  induction items generalizing num with
  | nil => rfl
  | cons it rest ih =>
    by_cases hit : isListItem it
    · by_cases h : jsTrim (listItemText it) = ""
      · simp [serializeListItems, listItemKept, List.filter_cons, hit, h, ih]
      · simp [serializeListItems, listItemKept, List.filter_cons, hit, h, ih]
    · simp [serializeListItems, listItemKept, List.filter_cons, hit, ih]

/-- Task-list serialization only sees the kept items. -/
theorem serializeTaskListItems_filter :
    ∀ items : List PMNode,
      serializeTaskListItems items =
        serializeTaskListItems (items.filter taskItemKept) := by
  intro items
  induction items with
  | nil => rfl
  | cons it rest ih =>
    cases it with
    | task_list_item checked cs =>
      by_cases h : jsTrim (taskItemChildrenText cs) = ""
      · simp [serializeTaskListItems, taskItemKept, isTaskListItem,
          taskItemText, List.filter_cons, h, ih]
      · simp [serializeTaskListItems, taskItemKept, isTaskListItem,
          taskItemText, List.filter_cons, h, ih]
    | _ =>
      simp_all [serializeTaskListItems, taskItemKept, isTaskListItem,
        List.filter_cons]

/-- C10: serializing a bullet, ordered or task list emits no marker line
for an item whose flattened text is empty or whitespace-only — the
output equals the output on the kept items alone — and a list all of
whose items are empty serializes to the empty string. -/
theorem C10_empty_list_items_omitted :
    (∀ (marker : String) (num : Nat) (items : List PMNode),
      serializeListItems marker num items =
        serializeListItems marker num (items.filter listItemKept)) ∧
    (∀ items : List PMNode,
      serializeTaskListItems items =
        serializeTaskListItems (items.filter taskItemKept)) ∧
    (∀ (items : List PMNode) (k : Nat),
      (∀ it ∈ items, listItemKept it = false) →
      serializeNode (.bullet_list items) = "" ∧
        serializeNode (.ordered_list k items) = "") ∧
    (∀ items : List PMNode,
      (∀ it ∈ items, taskItemKept it = false) →
      serializeNode (.task_list items) = "") := by
  refine ⟨serializeListItems_filter, serializeTaskListItems_filter, ?_, ?_⟩
  · intro items k h
    have hf : items.filter listItemKept = [] := by
      simp only [List.filter_eq_nil_iff]
      intro a ha
      simp [h a ha]
    constructor
    · show jsTrimEnd (serializeListItems "-" 1 items) = ""
      rw [serializeListItems_filter, hf]
      rfl
    · show jsTrimEnd
        (serializeListItems "1."
          (if (if k = 0 then 1 else k) = 0 then 1 else if k = 0 then 1 else k)
          items) = ""
      rw [serializeListItems_filter, hf]
      rfl
  · intro items h
    have hf : items.filter taskItemKept = [] := by
      simp only [List.filter_eq_nil_iff]
      intro a ha
      simp [h a ha]
    show jsTrimEnd (serializeTaskListItems items) = ""
    rw [serializeTaskListItems_filter, hf]
    rfl

/-- C10 witness: a bullet list with one empty item and a task list with
one whitespace-only item both serialize to the empty string. -/
theorem C10_empty_list_items_omitted_witness :
    (∀ it ∈ [PMNode.list_item [.paragraph []]], listItemKept it = false) ∧
    serializeNode (.bullet_list [.list_item [.paragraph []]]) = "" ∧
    serializeNode (.task_list
      [.task_list_item false [.paragraph [.text " " []]]]) = "" :=
  ⟨by decide,
    (C10_empty_list_items_omitted.2.2.1 [.list_item [.paragraph []]] 1
      (by decide)).1,
    C10_empty_list_items_omitted.2.2.2
      [.task_list_item false [.paragraph [.text " " []]]] (by decide)⟩

/-- C7 counterexample: a schema-valid ordered list with explicit order
attribute 5, nested inside a bullet-list item, serializes with its item
numbered `1.` — the explicit start attribute is ignored for nested
lists, so numbering does not start at the list's explicit attribute. -/
theorem C7_nested_order_ignored_counterexample :
    serializeToMarkdown
      (.doc [.bullet_list [.list_item
        [.paragraph [.text "a" []],
         .ordered_list 5 [.list_item [.paragraph [.text "b" []]]]]]]) =
      "- a\n  1. b" ∧
    ("- a\n  1. b" : String) ≠ "- a\n  5. b" := by
  exact ⟨by decide, by decide⟩

/-- Ordered serialization numbers exactly the kept items, consecutively
from the start value. -/
theorem serializeListItems_numbered :
    ∀ (num : Nat) (items : List PMNode),
      serializeListItems "1." num items = numberItems num (keptTexts items) := by
  intro num items
  induction items generalizing num with
  | nil => rfl
  | cons it rest ih =>
    by_cases hit : isListItem it
    · by_cases h : jsTrim (listItemText it) = ""
      · simp [serializeListItems, keptTexts, listItemKept, hit, h, ih,
          List.filterMap_cons]
      · simp [serializeListItems, keptTexts, listItemKept, hit, h, ih,
          List.filterMap_cons, numberItems]
    · simp [serializeListItems, keptTexts, listItemKept, hit, ih,
        List.filterMap_cons]

/-- C7 amended: a top-level ordered list is numbered by a local counter
that starts at the list's explicit order attribute (1 when the attribute
is absent or zero) and is incremented only for items producing non-empty
text; an ordered list nested inside a list item always restarts at 1,
its explicit order attribute ignored. -/
theorem C7_ordered_numbering_amended :
    (∀ (order : Nat) (items : List PMNode),
      serializeNode (.ordered_list order items) =
        jsTrimEnd
          (numberItems (if order = 0 then 1 else order) (keptTexts items))) ∧
    (∀ (order : Nat) (inner rest : List PMNode),
      itemChildrenText (.ordered_list order inner :: rest) =
        "\n" ++ indentTwo (jsTrimEnd (numberItems 1 (keptTexts inner))) ++
          itemChildrenText rest) := by
  constructor
  · intro order items
    show jsTrimEnd
        (serializeListItems "1."
          (if (if order = 0 then 1 else order) = 0 then 1
           else if order = 0 then 1 else order)
          items) = _
    rw [serializeListItems_numbered]
    congr 1
    by_cases h : order = 0 <;> simp [h]
  · intro order inner rest
    show itemChildText (.ordered_list order inner) ++ itemChildrenText rest = _
    rw [show itemChildText (.ordered_list order inner) =
        "\n" ++ indentTwo (jsTrimEnd (serializeListItems "1." 1 inner)) from rfl,
      serializeListItems_numbered]

/-- C3 counterexample: with `ALLOW_DATA_ATTR: true`, sanitization keeps
the attribute `data-evil` on an allow-listed `a` element, although
`data-evil` is not among the five allow-listed attribute names — so it
is not the case that only those five attributes survive. -/
theorem C3_data_attr_counterexample :
    attrNamesOfForest
      (sanitizeForest [.el "a" [("href", "u"), ("data-evil", "1")] [.txt "x"]]) =
      ["href", "data-evil"] ∧
    "data-evil" ∉ allowedAttrs := by
  exact ⟨by decide, by decide⟩

/-- Collected tags distribute over forest concatenation. -/
theorem tagsOfForest_append (a b : List HNode) :
    tagsOfForest (a ++ b) = tagsOfForest a ++ tagsOfForest b := by
  induction a with
  | nil => rfl
  | cons n rest ih => simp [tagsOfForest, ih]

/-- Collected attribute names distribute over forest concatenation. -/
theorem attrNamesOfForest_append (a b : List HNode) :
    attrNamesOfForest (a ++ b) = attrNamesOfForest a ++ attrNamesOfForest b := by
  induction a with
  | nil => rfl
  | cons n rest ih => simp [attrNamesOfForest, ih]

mutual

/-- Every tag surviving node sanitization is allow-listed. -/
theorem sanitizeNode_tags_allowed :
    ∀ (n : HNode) (t : String),
      t ∈ tagsOfForest (sanitizeNode n) → t ∈ allowedTags
  | .txt s => by
    intro t ht
    simp [sanitizeNode, tagsOfForest, tagsOfNode] at ht
  | .el tag attrs children => by
    intro t ht
    by_cases h : allowedTags.contains tag = true
    · simp only [sanitizeNode, if_pos h] at ht
      simp only [tagsOfForest, tagsOfNode, List.append_nil] at ht
      rcases List.mem_cons.mp ht with h1 | h2
      · subst h1; exact List.mem_of_elem_eq_true h
      · exact sanitizeForest_tags_allowed children t h2
    · by_cases h2 : forbidContents.contains tag = true
      · simp only [sanitizeNode, if_neg h, if_pos h2] at ht
        simp [tagsOfForest] at ht
      · simp only [sanitizeNode, if_neg h, if_neg h2] at ht
        exact sanitizeForest_tags_allowed children t ht

/-- Every tag surviving forest sanitization is allow-listed. -/
theorem sanitizeForest_tags_allowed :
    ∀ (ns : List HNode) (t : String),
      t ∈ tagsOfForest (sanitizeForest ns) → t ∈ allowedTags
  | [] => by intro t ht; simp [sanitizeForest, tagsOfForest] at ht
  | n :: rest => by
    intro t ht
    rw [show sanitizeForest (n :: rest) =
        sanitizeNode n ++ sanitizeForest rest from rfl,
      tagsOfForest_append] at ht
    rcases List.mem_append.mp ht with h1 | h2
    · exact sanitizeNode_tags_allowed n t h1
    · exact sanitizeForest_tags_allowed rest t h2

end

mutual

/-- Every attribute name surviving node sanitization passes the
configured filter (allow-listed, or a `data-*` name). -/
theorem sanitizeNode_attrs_allowed :
    ∀ (n : HNode) (a : String),
      a ∈ attrNamesOfForest (sanitizeNode n) → attrAllowed a = true
  | .txt s => by
    intro a ha
    simp [sanitizeNode, attrNamesOfForest, attrNamesOfNode] at ha
  | .el tag attrs children => by
    intro a ha
    by_cases h : allowedTags.contains tag = true
    · simp only [sanitizeNode, if_pos h] at ha
      simp only [attrNamesOfForest, attrNamesOfNode, List.append_nil] at ha
      rcases List.mem_append.mp ha with h1 | h2
      · obtain ⟨⟨nm, v⟩, hmem, rfl⟩ := List.mem_map.mp h1
        simpa using List.of_mem_filter hmem
      · exact sanitizeForest_attrs_allowed children a h2
    · by_cases h2 : forbidContents.contains tag = true
      · simp only [sanitizeNode, if_neg h, if_pos h2] at ha
        simp [attrNamesOfForest] at ha
      · simp only [sanitizeNode, if_neg h, if_neg h2] at ha
        exact sanitizeForest_attrs_allowed children a ha

/-- Every attribute name surviving forest sanitization passes the
configured filter. -/
theorem sanitizeForest_attrs_allowed :
    ∀ (ns : List HNode) (a : String),
      a ∈ attrNamesOfForest (sanitizeForest ns) → attrAllowed a = true
  | [] => by intro a ha; simp [sanitizeForest, attrNamesOfForest] at ha
  | n :: rest => by
    intro a ha
    rw [show sanitizeForest (n :: rest) =
        sanitizeNode n ++ sanitizeForest rest from rfl,
      attrNamesOfForest_append] at ha
    rcases List.mem_append.mp ha with h1 | h2
    · exact sanitizeNode_attrs_allowed n a h1
    · exact sanitizeForest_attrs_allowed rest a h2

end

/-- C3 amended: sanitization lets only allow-listed tags survive, and
lets an attribute survive exactly when it is among the five allow-listed
names or (because `ALLOW_DATA_ATTR` is set) is a `data-*` name; no
`script` element ever survives, and the embedded
`<script>alert(1)</script>` line parses to a document holding one empty
paragraph — no executable content — which serializes to the empty
string. -/
theorem C3_sanitization_allow_list_amended :
    (∀ (ns : List HNode) (t : String),
      t ∈ tagsOfForest (sanitizeForest ns) → t ∈ allowedTags) ∧
    (∀ (ns : List HNode) (a : String),
      a ∈ attrNamesOfForest (sanitizeForest ns) → attrAllowed a = true) ∧
    (∀ ns : List HNode, "script" ∉ tagsOfForest (sanitizeForest ns)) ∧
    parseMarkdown "<script>alert(1)</script>" = .doc [.paragraph []] ∧
    serializeToMarkdown (parseMarkdown "<script>alert(1)</script>") = "" := by
  refine ⟨sanitizeForest_tags_allowed, sanitizeForest_attrs_allowed, ?_, rfl,
    by decide⟩
  intro ns hmem
  have := sanitizeForest_tags_allowed ns "script" hmem
  simp [allowedTags] at this

/-- C3 witness: the amended statement applied at a sanitized `p`
element. -/
theorem C3_sanitization_allow_list_amended_witness :
    ("p" ∈ tagsOfForest (sanitizeForest [.el "p" [("class", "x")] []])) ∧
    "p" ∈ allowedTags :=
  ⟨by decide,
    C3_sanitization_allow_list_amended.1 [.el "p" [("class", "x")] []] "p"
      (by decide)⟩

/-- The fence loop consumes exactly `fenceBody` and resumes the scan at
`fenceRest`. -/
theorem fenceScan_split (lang : String) :
    ∀ (rest : List String) (acc : List String),
      fenceScan lang acc rest =
        fenceHtml lang (acc ++ fenceBody rest) ++
          buildHtmlLines (fenceRest rest) := by
  intro rest
  induction rest with
  | nil =>
    intro acc
    simp [fenceScan, fenceBody, fenceRest, buildHtmlLines, String.append_empty]
  | cons l rest ih =>
    intro acc
    by_cases hc : jsStartsWith (jsTrim l) "```"
    · simp [fenceScan, fenceBody, fenceRest, hc]
    · simp only [fenceScan, hc, if_neg, Bool.false_eq_true, ite_false]
      rw [ih (acc ++ [l])]
      simp [fenceBody, fenceRest, hc, List.append_assoc]

/-- `linkPass` is the identity without an opening bracket. -/
theorem linkPass_id :
    ∀ (f : Nat) (l : List Char), (∀ c ∈ l, c ≠ '[') → linkPass f l = l := by
  intro f
  induction f with
  | zero => intro l _; rfl
  | succ f ih =>
    intro l h
    cases l with
    | nil => rfl
    | cons c rest =>
      have hc : c ≠ '[' := h c (List.mem_cons_self c rest)
      simp only [linkPass, if_neg hc]
      rw [ih rest (fun x hx => h x (List.mem_cons_of_mem c hx))]

/-- `doublePass` is the identity without its delimiter. -/
theorem doublePass_id (d : Char) :
    ∀ (f : Nat) (l : List Char), (∀ c ∈ l, c ≠ d) → doublePass d f l = l := by
  intro f
  induction f with
  | zero => intro l _; rfl
  | succ f ih =>
    intro l h
    match l with
    | [] => rfl
    | [c] => rfl
    | c1 :: c2 :: rest =>
      have hc : c1 ≠ d := h c1 (by simp)
      have step : doublePass d (f + 1) (c1 :: c2 :: rest) =
          c1 :: doublePass d f (c2 :: rest) := by
        simp [doublePass, hc]
      rw [step, ih (c2 :: rest) (fun x hx => h x (List.mem_cons_of_mem c1 hx))]

/-- `singlePass` is the identity without its delimiter. -/
theorem singlePass_id (d : Char) :
    ∀ (f : Nat) (prev : Option Char) (l : List Char),
      (∀ c ∈ l, c ≠ d) → singlePass d f prev l = l := by
  intro f
  induction f with
  | zero => intro prev l _; rfl
  | succ f ih =>
    intro prev l h
    cases l with
    | nil => rfl
    | cons c rest =>
      have hc : c ≠ d := h c (List.mem_cons_self c rest)
      have step : singlePass d (f + 1) prev (c :: rest) =
          c :: singlePass d f (some c) rest := by
        simp [singlePass, hc]
      rw [step, ih (some c) rest (fun x hx => h x (List.mem_cons_of_mem c hx))]

/-- `codePass` is the identity without a backtick. -/
theorem codePass_id :
    ∀ (f : Nat) (l : List Char), (∀ c ∈ l, c ≠ btick) → codePass f l = l := by
  intro f
  induction f with
  | zero => intro l _; rfl
  | succ f ih =>
    intro l h
    cases l with
    | nil => rfl
    | cons c rest =>
      have hc : c ≠ btick := h c (List.mem_cons_self c rest)
      simp only [codePass, if_neg hc]
      rw [ih rest (fun x hx => h x (List.mem_cons_of_mem c hx))]

/-- Inline processing is the identity on lines without trigger
characters. -/
theorem processInlineMarkdown_id (s : String) (h : noInlineTrigger s = true) :
    processInlineMarkdown s = s := by
  have hall := List.all_eq_true.mp h
  have h1 : ∀ c ∈ s.data, c ≠ '[' := fun c hc => by
    have := hall c hc; simp only [Bool.and_eq_true, decide_eq_true_eq] at this
    exact this.1.1.1
  have h2 : ∀ c ∈ s.data, c ≠ '*' := fun c hc => by
    have := hall c hc; simp only [Bool.and_eq_true, decide_eq_true_eq] at this
    exact this.1.1.2
  have h3 : ∀ c ∈ s.data, c ≠ '_' := fun c hc => by
    have := hall c hc; simp only [Bool.and_eq_true, decide_eq_true_eq] at this
    exact this.1.2
  have h4 : ∀ c ∈ s.data, c ≠ btick := fun c hc => by
    have := hall c hc; simp only [Bool.and_eq_true, decide_eq_true_eq] at this
    exact this.2
  show String.mk _ = s
  rw [linkPass_id _ _ h1, doublePass_id '*' _ _ h2,
    singlePass_id '*' _ _ _ h2, doublePass_id '_' _ _ h3,
    singlePass_id '_' _ _ _ h3, codePass_id _ _ h4]

/-- C4: each line is classified by the first matching rule of the fixed
priority list — blank, ATX heading, fence opener (consuming verbatim
lines up to the closing fence or end of input), unchecked task, checked
task, ordered item, unordered item, blockquote, horizontal rule — and
otherwise becomes a paragraph built from the raw (untrimmed) line, whose
text inline processing preserves exactly whenever it contains no inline
markup trigger. -/
theorem C4_first_matching_rule_classification :
    (∀ (line : String) (rest : List String),
      buildHtmlLines (line :: rest) = renderClass line rest (classifyLine line)) ∧
    (∀ line : String,
      noInlineTrigger line = true → processInlineMarkdown line = line) := by
  refine ⟨?_, processInlineMarkdown_id⟩
  intro line rest
  simp only [classifyLine, lineRules, firstRuleMatch, buildHtmlLines]
  by_cases c1 : (jsTrim line).data = []
  · have : jsTrim line = "" := by
      cases hh : jsTrim line; simp_all
    simp [this, renderClass, c1]
  · have hns : ¬(jsTrim line = "") := by
      intro hh; rw [hh] at c1; exact c1 rfl
    simp only [if_neg hns, if_neg c1]
    by_cases c2 : isHeadingLine (jsTrim line).data
    · simp [c1, c2, renderClass, headingHtml]
    · simp only [c2, Bool.false_eq_true, if_false]
      by_cases c3 : jsStartsWith (jsTrim line) "```"
      · have c3' : isPrefixChars "```".data (jsTrim line).data = true := c3
        simp only [c3, c3', if_true, ite_true]
        rw [fenceScan_split]
        simp [c1, renderClass]
      · have c3' : ¬(isPrefixChars "```".data (jsTrim line).data = true) := c3
        simp only [c3, c3', Bool.false_eq_true, if_false, ite_false]
        by_cases c4 : (taskUncheckedStrip (jsTrim line).data).isSome
        · simp [c1, c4, renderClass]
        · simp only [c4, Bool.false_eq_true, if_false, ite_false]
          by_cases c5 : (taskCheckedStrip (jsTrim line).data).isSome
          · simp [c1, c5, renderClass]
          · simp only [c5, Bool.false_eq_true, if_false, ite_false]
            by_cases c6 : (orderedStrip (jsTrim line).data).isSome
            · simp [c1, c6, renderClass]
            · simp only [c6, Bool.false_eq_true, if_false, ite_false]
              by_cases c7 : (bulletStrip (jsTrim line).data).isSome
              · simp [c1, c7, renderClass]
              · simp only [c7, Bool.false_eq_true, if_false, ite_false]
                by_cases c8 : (blockquoteStrip (jsTrim line).data).isSome
                · simp [c1, c8, renderClass]
                · simp only [c8, Bool.false_eq_true, if_false, ite_false]
                  by_cases c9 : isHrLine (jsTrim line).data
                  · simp [c1, c9, renderClass]
                  · simp [c1, c9, renderClass]

/-- C4 witness: inline processing leaves a trigger-free paragraph line
untouched. -/
theorem C4_first_matching_rule_classification_witness :
    noInlineTrigger "hello  world" = true ∧
    processInlineMarkdown "hello  world" = "hello  world" :=
  ⟨by decide,
    C4_first_matching_rule_classification.2 "hello  world" (by decide)⟩

/-! ### C2: the parser always yields a complete schema-valid document -/

/-- `blocksValid` elementwise. -/
theorem blocksValid_iff (l : List PMNode) :
    blocksValid l = true ↔ ∀ n ∈ l, blockValid n = true := by
  induction l with
  | nil => simp [blocksValid]
  | cons c cs ih => simp [blocksValid, ih]

/-- `itemsValid` elementwise. -/
theorem itemsValid_iff (l : List PMNode) :
    itemsValid l = true ↔ ∀ n ∈ l, itemValid n = true := by
  induction l with
  | nil => simp [itemsValid]
  | cons c cs ih => simp [itemsValid, ih]

/-- `taskItemsValid` elementwise. -/
theorem taskItemsValid_iff (l : List PMNode) :
    taskItemsValid l = true ↔ ∀ n ∈ l, taskItemValid n = true := by
  induction l with
  | nil => simp [taskItemsValid]
  | cons c cs ih => simp [taskItemsValid, ih]

/-- Whitespace collapsing keeps inline content textual. -/
theorem collapseChunks_text :
    ∀ (b : Bool) (runs : List PMNode),
      (∀ n ∈ runs, isTextNode n = true) →
      ∀ n ∈ collapseChunks b runs, isTextNode n = true := by
  intro b runs
  induction runs generalizing b with
  | nil => intro _ n hn; simp [collapseChunks] at hn
  | cons c cs ih =>
    intro h n hn
    match c with
    | .text s marks =>
      simp only [collapseChunks] at hn
      rcases List.mem_append.mp hn with h1 | h2
      · split at h1 <;> simp_all [isTextNode]
      · exact ih _ (fun x hx => h x (List.mem_cons_of_mem _ hx)) n h2
    | .doc cs' | .paragraph cs' | .heading _ cs' | .blockquote cs'
    | .code_block _ cs' | .bullet_list cs' | .ordered_list _ cs'
    | .list_item cs' | .task_list cs' | .task_list_item _ cs'
    | .horizontal_rule | .other _ cs' =>
      simp only [collapseChunks] at hn
      rcases List.mem_cons.mp hn with h1 | h2
      · subst h1; exact h _ (List.mem_cons_self _ _)
      · exact ih _ (fun x hx => h x (List.mem_cons_of_mem _ hx)) n h2

/-- Trailing-space removal keeps inline content textual. -/
theorem dropTrailingSpace_text :
    ∀ runs : List PMNode,
      (∀ n ∈ runs, isTextNode n = true) →
      ∀ n ∈ dropTrailingSpace runs, isTextNode n = true := by
  intro runs
  induction runs with
  | nil => intro _ n hn; simp [dropTrailingSpace] at hn
  | cons c cs ih =>
    intro h n hn
    match c, cs with
    | .text s marks, [] =>
      simp only [dropTrailingSpace] at hn
      split at hn
      · split at hn
        · simp at hn
        · rcases List.mem_singleton.mp hn with rfl; rfl
      · rcases List.mem_singleton.mp hn with rfl; rfl
    | .text s marks, d :: ds =>
      rcases List.mem_cons.mp hn with h1 | h2
      · subst h1; exact h _ (List.mem_cons_self _ _)
      · exact ih (fun x hx => h x (List.mem_cons_of_mem _ hx)) n h2
    | .doc cs', _ | .paragraph cs', _ | .heading _ cs', _ | .blockquote cs', _
    | .code_block _ cs', _ | .bullet_list cs', _ | .ordered_list _ cs', _
    | .list_item cs', _ | .task_list cs', _ | .task_list_item _ cs', _
    | .horizontal_rule, _ | .other _ cs', _ =>
      rcases List.mem_cons.mp hn with h1 | h2
      · subst h1; exact h _ (List.mem_cons_self _ _)
      · exact ih (fun x hx => h x (List.mem_cons_of_mem _ hx)) n h2

/-- Run merging keeps inline content textual (accumulator form). -/
theorem mergeRunsAux_text :
    ∀ (rest : List PMNode) (a : String) (m : List PMark),
      (∀ n ∈ rest, isTextNode n = true) →
      ∀ n ∈ mergeRunsAux a m rest, isTextNode n = true := by
  intro rest
  induction rest with
  | nil =>
    intro a m _ n hn
    simp only [mergeRunsAux] at hn
    rcases List.mem_singleton.mp hn with h1
    subst h1; rfl
  | cons c cs ih =>
    intro a m h n hn
    match c with
    | .text b m2 =>
      simp only [mergeRunsAux] at hn
      split at hn
      · exact ih _ _ (fun x hx => h x (List.mem_cons_of_mem _ hx)) n hn
      · rcases List.mem_cons.mp hn with h1 | h2
        · subst h1; rfl
        · exact ih _ _ (fun x hx => h x (List.mem_cons_of_mem _ hx)) n h2
    | .doc cs' | .paragraph cs' | .heading _ cs' | .blockquote cs'
    | .code_block _ cs' | .bullet_list cs' | .ordered_list _ cs'
    | .list_item cs' | .task_list cs' | .task_list_item _ cs'
    | .horizontal_rule | .other _ cs' =>
      exact absurd (h _ (List.mem_cons_self _ _)) (by simp [isTextNode])

/-- Run merging keeps inline content textual. -/
theorem mergeRunsBase_text :
    ∀ runs : List PMNode,
      (∀ n ∈ runs, isTextNode n = true) →
      ∀ n ∈ mergeRunsBase runs, isTextNode n = true := by
  intro runs h n hn
  match runs with
  | [] => simp [mergeRunsBase] at hn
  | .text a m :: cs =>
    exact mergeRunsAux_text cs a m
      (fun x hx => h x (List.mem_cons_of_mem _ hx)) n hn
  | .doc cs' :: cs | .paragraph cs' :: cs | .heading _ cs' :: cs
  | .blockquote cs' :: cs | .code_block _ cs' :: cs | .bullet_list cs' :: cs
  | .ordered_list _ cs' :: cs | .list_item cs' :: cs | .task_list cs' :: cs
  | .task_list_item _ cs' :: cs | .horizontal_rule :: cs
  | .other _ cs' :: cs =>
    exact absurd (h _ (List.mem_cons_self _ _)) (by simp [isTextNode])

/-- Finished inline content is textual. -/
theorem finishRuns_text (runs : List PMNode)
    (h : ∀ n ∈ runs, isTextNode n = true) :
    ∀ n ∈ finishRuns runs, isTextNode n = true :=
  mergeRunsBase_text _ (dropTrailingSpace_text _ (collapseChunks_text true runs h))

/-- Finished inline content satisfies the paragraph content predicate. -/
theorem finishRuns_all (runs : List PMNode)
    (h : ∀ n ∈ runs, isTextNode n = true) :
    (finishRuns runs).all isTextNode = true :=
  List.all_eq_true.mpr (finishRuns_text runs h)

/-- Wrapping a stray node makes it a valid block. -/
theorem fixBlock_valid (n : PMNode) (hok : contentOk n = true)
    (hnt : isTextNode n = false) : blockValid (fixBlock n) = true := by
  simp only [contentOk, Bool.or_eq_true] at hok
  rcases hok with ((h1 | h2) | h3) | h4
  · rw [hnt] at h1; exact absurd h1 (by simp)
  · cases n <;> simp_all [fixBlock, blockValid, itemValid, taskItemValid]
  · cases n <;> simp_all [fixBlock, blockValid, itemValid, taskItemValid,
      itemsValid]
  · cases n <;> simp_all [fixBlock, blockValid, itemValid, taskItemValid,
      taskItemsValid]

/-- Adding a mark keeps frame content acceptable. -/
theorem mapAddMark_ok (m : PMark) (ns : List PMNode)
    (h : ∀ n ∈ ns, contentOk n = true) :
    ∀ n ∈ mapAddMark m ns, contentOk n = true := by
  intro n hn
  obtain ⟨x, hx, rfl⟩ := List.mem_map.mp hn
  have := h x hx
  cases x <;> simp_all [contentOk, isTextNode]

/-- Block validity distributes over concatenation. -/
theorem blocksValid_append :
    ∀ a b : List PMNode, blocksValid (a ++ b) = (blocksValid a && blocksValid b) := by
  intro a b
  induction a with
  | nil => simp [blocksValid]
  | cons c cs ih => simp [blocksValid, ih, Bool.and_assoc]

mutual

/-- Grouped top-level content is a valid block sequence. -/
theorem groupTopLevel_valid :
    ∀ ns : List PMNode,
      (∀ n ∈ ns, contentOk n = true) →
      blocksValid (groupTopLevel ns) = true
  | [] => by intro _; rfl
  | n :: rest => by
    intro h
    match hn : n with
    | .text s m =>
      exact groupTLAux_valid [.text s m] rest
        (by intro x hx; rcases List.mem_singleton.mp hx with rfl; rfl)
        (fun x hx => h x (List.mem_cons_of_mem _ hx))
    | .doc cs' | .paragraph cs' | .heading _ cs' | .blockquote cs'
    | .code_block _ cs' | .bullet_list cs' | .ordered_list _ cs'
    | .list_item cs' | .task_list cs' | .task_list_item _ cs'
    | .horizontal_rule | .other _ cs' =>
      simp only [groupTopLevel, blocksValid, Bool.and_eq_true]
      exact ⟨fixBlock_valid _ (h _ (List.mem_cons_self _ _)) (by rfl),
        groupTopLevel_valid rest (fun x hx => h x (List.mem_cons_of_mem _ hx))⟩

/-- Grouping with a pending text run yields a valid block sequence. -/
theorem groupTLAux_valid :
    ∀ (acc rest : List PMNode),
      (∀ n ∈ acc, isTextNode n = true) →
      (∀ n ∈ rest, contentOk n = true) →
      blocksValid (groupTLAux acc rest) = true
  | acc, [] => by
    intro hacc _
    simp only [groupTLAux]
    match hfr : finishRuns acc with
    | [] => rfl
    | r :: rs =>
      simp only [blocksValid, blockValid, Bool.and_eq_true]
      refine ⟨?_, trivial⟩
      rw [← hfr]
      exact finishRuns_all acc hacc
  | acc, n :: rest => by
    intro hacc h
    match n with
    | .text s m =>
      exact groupTLAux_valid (acc ++ [.text s m]) rest
        (by
          intro x hx
          rcases List.mem_append.mp hx with h1 | h2
          · exact hacc x h1
          · rcases List.mem_singleton.mp h2 with rfl; rfl)
        (fun x hx => h x (List.mem_cons_of_mem _ hx))
    | .doc cs' | .paragraph cs' | .heading _ cs' | .blockquote cs'
    | .code_block _ cs' | .bullet_list cs' | .ordered_list _ cs'
    | .list_item cs' | .task_list cs' | .task_list_item _ cs'
    | .horizontal_rule | .other _ cs' =>
      simp only [groupTLAux]
      rw [blocksValid_append]
      simp only [Bool.and_eq_true]
      constructor
      · match hfr : finishRuns acc with
        | [] => rfl
        | r :: rs =>
          simp only [blocksValid, blockValid, Bool.and_eq_true]
          refine ⟨?_, trivial⟩
          rw [← hfr]
          exact finishRuns_all acc hacc
      · simp only [blocksValid, Bool.and_eq_true]
        exact ⟨fixBlock_valid _ (h _ (List.mem_cons_self _ _)) (by rfl),
          groupTopLevel_valid rest
            (fun x hx => h x (List.mem_cons_of_mem _ hx))⟩

end

/-- A valid block is acceptable content. -/
theorem contentOk_of_blockValid {n : PMNode} (h : blockValid n = true) :
    contentOk n = true := by
  simp [contentOk, h]

/-- A valid list item is acceptable content. -/
theorem contentOk_of_itemValid {n : PMNode} (h : itemValid n = true) :
    contentOk n = true := by
  simp [contentOk, h]

/-- A valid task item is acceptable content. -/
theorem contentOk_of_taskItemValid {n : PMNode} (h : taskItemValid n = true) :
    contentOk n = true := by
  simp [contentOk, h]

/-- A finished paragraph is acceptable content. -/
theorem paragraphOk (runs : List PMNode)
    (h : ∀ n ∈ runs, isTextNode n = true) :
    contentOk (.paragraph (finishRuns runs)) = true :=
  contentOk_of_blockValid (by
    show (finishRuns runs).all isTextNode = true
    exact finishRuns_all runs h)

/-- Fixed hoisted blocks are valid blocks. -/
theorem fixBlocks_valid (blocks : List PMNode)
    (h : ∀ n ∈ blocks, contentOk n = true ∧ isTextNode n = false) :
    blocksValid (fixBlocks blocks) = true := by
  rw [blocksValid_iff]
  intro n hn
  obtain ⟨x, hx, rfl⟩ := List.mem_map.mp hn
  exact fixBlock_valid x (h x hx).1 (h x hx).2

/-- Acceptable content that filters as a list item is a valid item. -/
theorem itemValid_of_ok {x : PMNode} (hok : contentOk x = true)
    (hli : isListItem x = true) :
    itemValid x = true := by
  match x with
  | .list_item cs =>
    have e1 : isTextNode (PMNode.list_item cs) = false := rfl
    have e2 : blockValid (PMNode.list_item cs) = false := rfl
    have e4 : taskItemValid (PMNode.list_item cs) = false := rfl
    simp only [contentOk, e1, e2, e4, Bool.false_or, Bool.or_false] at hok
    exact hok
  | .text _ _ | .doc _ | .paragraph _ | .heading _ _ | .blockquote _
  | .code_block _ _ | .bullet_list _ | .ordered_list _ _ | .task_list _
  | .task_list_item _ _ | .horizontal_rule | .other _ _ =>
    simp [isListItem] at hli

/-- Acceptable content that filters as a task item is a valid task
item. -/
theorem taskItemValid_of_ok {x : PMNode} (hok : contentOk x = true)
    (hti : isTaskListItem x = true) :
    taskItemValid x = true := by
  match x with
  | .task_list_item b cs =>
    have e1 : isTextNode (PMNode.task_list_item b cs) = false := rfl
    have e2 : blockValid (PMNode.task_list_item b cs) = false := rfl
    have e3 : itemValid (PMNode.task_list_item b cs) = false := rfl
    simp only [contentOk, e1, e2, e3, Bool.false_or, Bool.or_false] at hok
    exact hok
  | .text _ _ | .doc _ | .paragraph _ | .heading _ _ | .blockquote _
  | .code_block _ _ | .bullet_list _ | .ordered_list _ _ | .task_list _
  | .list_item _ | .horizontal_rule | .other _ _ =>
    simp [isTaskListItem] at hti

/-- Closing a frame yields only acceptable nodes. -/
theorem frameToNodes_ok (f : MFrame)
    (h : ∀ n ∈ f.content, contentOk n = true) :
    ∀ n ∈ frameToNodes f, contentOk n = true := by
  intro n hn
  have hparts := List.partition_eq_filter_filter isTextNode f.content
  have hruns : ∀ x ∈ (f.content.partition isTextNode).1, isTextNode x = true := by
    rw [hparts]
    intro x hx
    exact List.of_mem_filter hx
  have hblocks : ∀ x ∈ (f.content.partition isTextNode).2,
      contentOk x = true ∧ isTextNode x = false := by
    rw [hparts]
    intro x hx
    refine ⟨h x (List.mem_of_mem_filter hx), ?_⟩
    have := List.of_mem_filter hx
    simpa using this
  have hhead : ∀ k : Nat, (1 ≤ k && k ≤ 6) = true →
      contentOk (.heading k (finishRuns (f.content.partition isTextNode).1)) = true := by
    intro k hk
    exact contentOk_of_blockValid (by
      show ((1 ≤ k && k ≤ 6) && (finishRuns _).all isTextNode) = true
      simp only [hk, Bool.true_and]
      exact finishRuns_all _ hruns)
  have hhoist : ∀ x ∈ fixBlocks (f.content.partition isTextNode).2,
      contentOk x = true := by
    intro x hx
    obtain ⟨y, hy, rfl⟩ := List.mem_map.mp hx
    exact contentOk_of_blockValid
      (fixBlock_valid y (hblocks y hy).1 (hblocks y hy).2)
  unfold frameToNodes at hn
  split at hn
  · simp at hn
  · split at hn
    · exact h n hn
    · split at hn
      · -- p
        rcases List.mem_cons.mp hn with h1 | h2
        · subst h1; exact paragraphOk _ hruns
        · exact hhoist n h2
      · -- h1
        rcases List.mem_cons.mp hn with h1 | h2
        · subst h1; exact hhead 1 (by decide)
        · exact hhoist n h2
      · -- h2
        rcases List.mem_cons.mp hn with h1 | h2
        · subst h1; exact hhead 2 (by decide)
        · exact hhoist n h2
      · -- h3
        rcases List.mem_cons.mp hn with h1 | h2
        · subst h1; exact hhead 3 (by decide)
        · exact hhoist n h2
      · -- h4
        rcases List.mem_cons.mp hn with h1 | h2
        · subst h1; exact hhead 4 (by decide)
        · exact hhoist n h2
      · -- h5
        rcases List.mem_cons.mp hn with h1 | h2
        · subst h1; exact hhead 5 (by decide)
        · exact hhoist n h2
      · -- h6
        rcases List.mem_cons.mp hn with h1 | h2
        · subst h1; exact hhead 6 (by decide)
        · exact hhoist n h2
      · -- blockquote
        rcases List.mem_singleton.mp hn with rfl
        refine contentOk_of_blockValid ?_
        show blockValid (.blockquote
          (if (groupTopLevel f.content).isEmpty then [.paragraph []]
           else groupTopLevel f.content)) = true
        split
        · decide
        · rename_i hne
          have hg : blocksValid (groupTopLevel f.content) = true :=
            groupTopLevel_valid f.content h
          show (!(groupTopLevel f.content).isEmpty &&
            blocksValid (groupTopLevel f.content)) = true
          simp only [Bool.and_eq_true]
          refine ⟨?_, hg⟩
          cases hgl : (groupTopLevel f.content).isEmpty
          · rfl
          · exact absurd hgl hne
      · -- strong
        exact mapAddMark_ok _ _ h n hn
      · -- em
        exact mapAddMark_ok _ _ h n hn
      · -- code
        exact mapAddMark_ok _ _ h n hn
      · -- a
        split at hn
        · exact mapAddMark_ok _ _ h n hn
        · exact h n hn
      · -- ul
        split at hn
        · -- task list
          split at hn
          · simp at hn
          · rename_i hne
            rcases List.mem_singleton.mp hn with rfl
            refine contentOk_of_blockValid ?_
            have hmem : ∀ x ∈ onlyTaskItems f.content, taskItemValid x = true := by
              intro x hx
              simp only [onlyTaskItems] at hx
              exact taskItemValid_of_ok
                (h x (List.mem_of_mem_filter hx)) (List.of_mem_filter hx)
            show (!(onlyTaskItems f.content).isEmpty &&
              taskItemsValid (onlyTaskItems f.content)) = true
            simp only [Bool.and_eq_true]
            refine ⟨?_, (taskItemsValid_iff _).mpr hmem⟩
            cases hc : onlyTaskItems f.content
            · exact absurd hc hne
            · rfl
        · -- bullet list
          split at hn
          · simp at hn
          · rename_i hne
            rcases List.mem_singleton.mp hn with rfl
            refine contentOk_of_blockValid ?_
            have hmem : ∀ x ∈ onlyListItems f.content, itemValid x = true := by
              intro x hx
              simp only [onlyListItems] at hx
              exact itemValid_of_ok
                (h x (List.mem_of_mem_filter hx)) (List.of_mem_filter hx)
            show (!(onlyListItems f.content).isEmpty &&
              itemsValid (onlyListItems f.content)) = true
            simp only [Bool.and_eq_true]
            refine ⟨?_, (itemsValid_iff _).mpr hmem⟩
            cases hc : onlyListItems f.content
            · exact absurd hc hne
            · rfl
      · -- ol
        split at hn
        · simp at hn
        · rename_i hne
          rcases List.mem_singleton.mp hn with rfl
          refine contentOk_of_blockValid ?_
          have hmem : ∀ x ∈ onlyListItems f.content, itemValid x = true := by
            intro x hx
            simp only [onlyListItems] at hx
            exact itemValid_of_ok
              (h x (List.mem_of_mem_filter hx)) (List.of_mem_filter hx)
          show (!(onlyListItems f.content).isEmpty &&
            itemsValid (onlyListItems f.content)) = true
          simp only [Bool.and_eq_true]
          refine ⟨?_, (itemsValid_iff _).mpr hmem⟩
          cases hc : onlyListItems f.content
          · exact absurd hc hne
          · rfl
      · -- li
        split at hn
        split at hn
        · -- task item
          rename_i pr runs blocks heqp hdt
          rw [hparts] at heqp
          injection heqp with e1 e2
          subst e1
          subst e2
          rcases List.mem_singleton.mp hn with rfl
          refine contentOk_of_taskItemValid ?_
          show itemContentValid _ = true
          simp only [itemContentValid, Bool.and_eq_true]
          constructor
          · show (finishRuns _).all isTextNode = true
            exact finishRuns_all _ (fun x hx => List.of_mem_filter hx)
          · exact fixBlocks_valid _ (fun x hx =>
              ⟨h x (List.mem_of_mem_filter hx),
               by simpa using List.of_mem_filter hx⟩)
        · -- list item
          rename_i pr runs blocks heqp hdt
          rw [hparts] at heqp
          injection heqp with e1 e2
          subst e1
          subst e2
          rcases List.mem_singleton.mp hn with rfl
          refine contentOk_of_itemValid ?_
          show itemContentValid _ = true
          simp only [itemContentValid, Bool.and_eq_true]
          constructor
          · show (finishRuns _).all isTextNode = true
            exact finishRuns_all _ (fun x hx => List.of_mem_filter hx)
          · exact fixBlocks_valid _ (fun x hx =>
              ⟨h x (List.mem_of_mem_filter hx),
               by simpa using List.of_mem_filter hx⟩)
      · -- pre
        rcases List.mem_singleton.mp hn with rfl
        refine contentOk_of_blockValid ?_
        show List.all _ isUnmarkedText = true
        split <;> rfl
      · -- hr
        rcases List.mem_singleton.mp hn with rfl
        rfl
      · -- default
        exact h n hn

/-- Appending acceptable nodes preserves the materializer invariant. -/
theorem appendNodes_inv (st : MState) (ns : List PMNode)
    (hst : MInv st) (hns : ∀ n ∈ ns, contentOk n = true) :
    MInv (appendNodes st ns) := by
  obtain ⟨stack, top, mode⟩ := st
  obtain ⟨hstack, htop⟩ := hst
  cases stack with
  | nil =>
    refine ⟨hstack, ?_⟩
    intro n hn
    rcases List.mem_append.mp hn with h1 | h2
    · exact htop n h1
    · exact hns n h2
  | cons f fs =>
    refine ⟨?_, htop⟩
    intro g hg n hn
    rcases List.mem_cons.mp hg with rfl | hg2
    · rcases List.mem_append.mp hn with h1 | h2
      · exact hstack f (List.mem_cons_self f fs) n h1
      · exact hns n h2
    · exact hstack g (List.mem_cons_of_mem f hg2) n hn

/-- Closing the innermost element preserves the invariant. -/
theorem closeOnce_inv (st : MState) (hst : MInv st) : MInv (closeOnce st) := by
  obtain ⟨stack, top, mode⟩ := st
  cases stack with
  | nil => exact hst
  | cons f fs =>
    obtain ⟨hstack, htop⟩ := hst
    refine appendNodes_inv _ _ ⟨?_, htop⟩ ?_
    · intro g hg n hn
      exact hstack g (List.mem_cons_of_mem f hg) n hn
    · exact frameToNodes_ok f (fun n hn => hstack f (List.mem_cons_self f fs) n hn)

/-- Closing up to a named element preserves the invariant. -/
theorem closeUpToF_inv (fuel : Nat) : ∀ (name : String) (st : MState),
    MInv st → MInv (closeUpToF fuel name st) := by
  induction fuel with
  | zero => intro name st h; exact h
  | succ f ih =>
    intro name st h
    obtain ⟨stack, top, mode⟩ := st
    cases stack with
    | nil => exact h
    | cons fr fs =>
      simp only [closeUpToF]
      split
      · exact closeOnce_inv _ h
      · exact ih name _ (closeOnce_inv _ h)

/-- A closing tag preserves the invariant. -/
theorem handleClose_inv (st : MState) (name : String) (h : MInv st) :
    MInv (handleClose st name) := by
  unfold handleClose
  split
  · exact closeUpToF_inv _ _ _ h
  · exact h

/-- An opening tag preserves the invariant. -/
theorem handleOpen_inv (st : MState) (name : String)
    (attrs : List (String × String)) (sc : Bool) (h : MInv st) :
    MInv (handleOpen st name attrs sc) := by
  simp only [handleOpen]
  split
  · refine appendNodes_inv _ _ h ?_
    intro n hn
    rcases List.mem_singleton.mp hn with rfl
    rfl
  · split
    · exact h
    · split
      · refine appendNodes_inv _ _ h ?_
        refine frameToNodes_ok _ ?_
        intro n hn
        simp at hn
      · obtain ⟨hstack, htop⟩ := h
        refine ⟨?_, htop⟩
        intro g hg n hn
        rcases List.mem_cons.mp hg with rfl | hg2
        · simp at hn
        · exact hstack g hg2 n hn

/-- One materializer character step preserves the invariant. -/
theorem mStep_inv (st : MState) (c : Char) (h : MInv st) :
    MInv (mStep st c) := by
  obtain ⟨stack, top, mode⟩ := st
  cases mode with
  | text acc =>
    simp only [mStep]
    split
    · split
      · exact h
      · refine appendNodes_inv _ _ h ?_
        intro n hn
        rcases List.mem_singleton.mp hn with rfl
        rfl
    · exact h
  | tag acc =>
    simp only [mStep]
    split
    · split
      · exact h
      · split
        · exact handleClose_inv _ _ h
        · exact handleOpen_inv _ _ _ _ h
    · split
      · exact h
      · exact h

/-- Running the machine from an invariant state keeps the invariant. -/
theorem foldl_mStep_inv (l : List Char) : ∀ st : MState,
    MInv st → MInv (l.foldl mStep st) := by
  induction l with
  | nil => intro st h; exact h
  | cons c cs ih => intro st h; exact ih _ (mStep_inv st c h)

/-- The initial state satisfies the invariant. -/
theorem mInit_inv : MInv mInit := by
  constructor
  · intro f hf
    simp [mInit] at hf
  · intro n hn
    simp [mInit] at hn

/-- Closing all open elements preserves the invariant. -/
theorem closeAllF_inv (fuel : Nat) : ∀ st : MState,
    MInv st → MInv (closeAllF fuel st) := by
  induction fuel with
  | zero => intro st h; exact h
  | succ f ih =>
    intro st h
    obtain ⟨stack, top, mode⟩ := st
    cases stack with
    | nil => exact h
    | cons fr fs =>
      simp only [closeAllF]
      exact ih _ (closeOnce_inv _ h)

/-- A valid block sequence, filled with an empty paragraph when empty,
is a valid doc content. -/
theorem docValid_if_fill (ns : List PMNode) (hg : blocksValid ns = true) :
    docValid (.doc (if ns.isEmpty then [.paragraph []] else ns)) = true := by
  cases ns with
  | nil => decide
  | cons x xs =>
    show (!(x :: xs).isEmpty && blocksValid (x :: xs)) = true
    simp only [List.isEmpty_cons, Bool.not_false, Bool.true_and]
    exact hg

/-- Finishing an invariant state yields a schema-valid document. -/
theorem machineFinish_valid (st : MState) (h : MInv st) :
    docValid (machineFinish st) = true := by
  have hflush : MInv (match st.mode with
      | MMode.text acc => if acc = [] then st else appendNodes st [.text ⟨acc⟩ []]
      | MMode.tag _ => st) := by
    split
    · split
      · exact h
      · refine appendNodes_inv _ _ h ?_
        intro n hn
        rcases List.mem_singleton.mp hn with rfl
        rfl
    · exact h
  simp only [machineFinish]
  exact docValid_if_fill _ (groupTopLevel_valid _ (closeAllF_inv _ _ hflush).2)

/-- C2: for every input string, `parseMarkdown` is a total function whose
result is always a complete, schema-valid document (never a partial
tree); the failure path (empty or falsy input, and the catch branch of
the source) yields the schema's filled empty document, itself valid. -/
theorem C2_parse_never_partial :
    (∀ s : String, docValid (parseMarkdown s) = true) ∧
      parseMarkdown "" = emptyFilledDoc ∧
      docValid emptyFilledDoc = true := by
  refine ⟨?_, rfl, by decide⟩
  intro s
  unfold parseMarkdown
  split
  · decide
  · exact machineFinish_valid _ (foldl_mStep_inv _ _ mInit_inv)

/-! ### Plain-character facts -/

/-- A plain character is not JS whitespace. -/
theorem plainChar_not_ws (c : Char) (h : plainChar c = true) :
    jsIsWs c = false := by
  have h48 : 48 ≤ c.toNat := by
    simp only [plainChar, Bool.or_eq_true, Bool.and_eq_true,
      decide_eq_true_eq] at h
    rcases h with (⟨h1, h2⟩ | ⟨h1, h2⟩) | ⟨h1, h2⟩ <;> omega
  have hne : ∀ d : Char, d.toNat < 48 → c ≠ d := by
    intro d hd he
    rw [he] at h48
    omega
  simp only [jsIsWs, Bool.or_eq_false_iff, decide_eq_false_iff_not]
  exact ⟨⟨⟨⟨⟨hne ' ' (by decide), hne '\t' (by decide)⟩,
    hne '\n' (by decide)⟩, hne '\r' (by decide)⟩,
    hne '\x0b' (by decide)⟩, hne '\x0c' (by decide)⟩

/-- The tail of a plain core is a plain core. -/
theorem plainCore_tail (c : Char) (l : List Char)
    (h : plainCore (c :: l) = true) : plainCore l = true := by
  cases l with
  | nil => rfl
  | cons d r =>
    simp only [plainCore, Bool.and_eq_true] at h
    exact h.2

/-- Every character of a plain core is plain or a space. -/
theorem plainCore_chars :
    ∀ l : List Char, plainCore l = true →
      ∀ c ∈ l, plainChar c = true ∨ c = ' ' := by
  intro l
  induction l with
  | nil => intro _ c hc; simp at hc
  | cons a r ih =>
    intro h c hc
    rcases List.mem_cons.mp hc with rfl | hc2
    · cases r with
      | nil =>
        left
        simpa [plainCore] using h
      | cons d r2 =>
        simp only [plainCore, Bool.and_eq_true, Bool.or_eq_true,
          decide_eq_true_eq] at h
        rcases h.1 with h1 | h1
        · exact Or.inl h1
        · exact Or.inr h1.1
    · exact ih (plainCore_tail a r h) c hc2

/-- Plain text is nonempty. -/
theorem plainText_ne_nil (l : List Char) (h : plainText l = true) : l ≠ [] := by
  intro he
  subst he
  simp [plainText] at h

/-- Plain text has a plain head. -/
theorem plainText_head (c : Char) (l : List Char)
    (h : plainText (c :: l) = true) : plainChar c = true := by
  simp only [plainText, Bool.and_eq_true] at h
  exact h.1

/-- Plain text is a plain core. -/
theorem plainText_core (l : List Char) (h : plainText l = true) :
    plainCore l = true := by
  cases l with
  | nil => simp [plainText] at h
  | cons c r =>
    simp only [plainText, Bool.and_eq_true] at h
    exact h.2

/-- The last character of a plain core is not whitespace. -/
theorem plainCore_getLast :
    ∀ l : List Char, plainCore l = true →
      ∀ c, l.getLast? = some c → jsIsWs c = false := by
  intro l
  induction l with
  | nil => intro _ c hc; simp at hc
  | cons a r ih =>
    intro h c hc
    cases r with
    | nil =>
      simp only [List.getLast?_singleton, Option.some.injEq] at hc
      subst hc
      exact plainChar_not_ws a (by simpa [plainCore] using h)
    | cons d r2 =>
      rw [List.getLast?_cons_cons] at hc
      exact ih (plainCore_tail a (d :: r2) h) c hc

/-- Characters of plain text avoid a given non-plain, non-space
character. -/
theorem plainText_avoid (l : List Char) (h : plainText l = true) (x : Char)
    (hx : plainChar x = false) (hxs : x ≠ ' ') : ∀ c ∈ l, c ≠ x := by
  intro c hc he
  subst he
  rcases plainCore_chars l (plainText_core l h) c hc with h1 | h1
  · rw [hx] at h1; cases h1
  · exact hxs h1

/-- Dropping leading whitespace does nothing to plain text. -/
theorem dropWhile_plain (l : List Char) (h : plainText l = true) :
    l.dropWhile jsIsWs = l := by
  cases l with
  | nil => rfl
  | cons c r =>
    rw [List.dropWhile_cons, plainChar_not_ws c (plainText_head c r h)]
    simp

/-- `takeWhile`/`dropWhile` through a satisfying prefix up to a failing
character. -/
theorem takeWhile_until {α : Type} (p : α → Bool) :
    ∀ (l : List α), (∀ c ∈ l, p c = true) →
      ∀ (c : α) (r : List α), p c = false →
        (l ++ c :: r).takeWhile p = l ∧ (l ++ c :: r).dropWhile p = c :: r := by
  intro l
  induction l with
  | nil =>
    intro _ c r hc
    constructor
    · simp [List.takeWhile_cons, hc]
    · simp [List.dropWhile_cons, hc]
  | cons a l2 ih =>
    intro h c r hc
    have ha : p a = true := h a (List.mem_cons_self a l2)
    have := ih (fun x hx => h x (List.mem_cons_of_mem a hx)) c r hc
    constructor
    · simp [List.takeWhile_cons, ha, this.1]
    · simp [List.dropWhile_cons, ha, this.2]

/-- Appending text to the end does not change `jsTrim`-stability:
a string whose first and last characters are not whitespace is its own
trim. -/
theorem jsTrim_eq_self (s : String)
    (h1 : ∀ c, s.data.head? = some c → jsIsWs c = false)
    (h2 : ∀ c, s.data.getLast? = some c → jsIsWs c = false) :
    jsTrim s = s := by
  show String.mk (trimEndChars (trimStartChars s.data)) = s
  cases hl : s.data with
  | nil =>
    have : s = "" := by cases s; simp_all
    subst this
    rfl
  | cons c r =>
    have hst : trimStartChars (c :: r) = c :: r := by
      show (c :: r).dropWhile jsIsWs = c :: r
      rw [List.dropWhile_cons, h1 c (by rw [hl]; rfl)]
      simp
    have hrev : (c :: r).reverse ≠ [] := by simp
    have hte : trimEndChars (c :: r) = c :: r := by
      show ((c :: r).reverse.dropWhile jsIsWs).reverse = c :: r
      cases hr : (c :: r).reverse with
      | nil => exact absurd hr hrev
      | cons d t =>
        have hd : (c :: r).getLast? = some d := by
          rw [List.getLast?_eq_head?_reverse, hr]
          rfl
        rw [List.dropWhile_cons, h2 d (by rw [hl]; exact hd)]
        simp only [Bool.false_eq_true, if_false]
        rw [← hr, List.reverse_reverse]
    rw [hst, hte]
    cases s
    simp_all

/-- Trimming the end of a line that ends with one newline after a
non-whitespace character removes exactly the newline. -/
theorem trimEnd_append_nl (l : List Char)
    (h : ∀ c, l.getLast? = some c → jsIsWs c = false) :
    trimEndChars (l ++ ['\n']) = l := by
  show ((l ++ ['\n']).reverse.dropWhile jsIsWs).reverse = l
  rw [List.reverse_append]
  show (('\n' :: l.reverse).dropWhile jsIsWs).reverse = l
  rw [List.dropWhile_cons]
  simp only [show jsIsWs '\n' = true from rfl, if_true]
  cases hr : l.reverse with
  | nil =>
    have : l = [] := by simpa using congrArg List.reverse hr
    simp [this]
  | cons d t =>
    have hd : l.getLast? = some d := by
      rw [List.getLast?_eq_head?_reverse, hr]
      rfl
    rw [List.dropWhile_cons, h d hd]
    simp only [Bool.false_eq_true, if_false]
    rw [← hr, List.reverse_reverse]

/-- `jsTrim` on plain text is the identity (string form). -/
theorem jsTrim_plain (w : String) (h : plainText w.data = true) :
    jsTrim w = w := by
  refine jsTrim_eq_self w ?_ ?_
  · intro c hc
    cases hw : w.data with
    | nil => rw [hw] at hc; cases hc
    | cons a r =>
      rw [hw] at hc
      simp only [List.head?_cons, Option.some.injEq] at hc
      rw [← hc]
      exact plainChar_not_ws a (plainText_head a r (by rw [hw] at h; exact h))
  · intro c hc
    exact plainCore_getLast w.data (plainText_core w.data h) c hc

/-! ### Whitespace collapsing on plain text -/

/-- Collapsing does nothing to a plain core: from any state when the
head is not a space, and from the mid-word state always. -/
theorem collapseChars_core :
    ∀ l : List Char, plainCore l = true →
      collapseChars false l = l ∧
        ((match l with
          | [] => True
          | c :: _ => jsIsWs c = false) → ∀ b, collapseChars b l = l) := by
  intro l
  induction l with
  | nil => exact fun _ => ⟨rfl, fun _ _ => rfl⟩
  | cons c rest ih =>
    intro h
    by_cases hc : jsIsWs c = true
    · -- the head is a space: the previous character was a word character
      have hcp : plainChar c = false := by
        cases hp : plainChar c
        · rfl
        · rw [plainChar_not_ws c hp] at hc; cases hc
      cases rest with
      | nil =>
        exfalso
        simp only [plainCore, hcp] at h
        cases h
      | cons d r2 =>
        have hd : plainChar d = true := by
          simp only [plainCore, Bool.and_eq_true, Bool.or_eq_true, hcp,
            Bool.false_or, decide_eq_true_eq] at h
          exact h.1.2
        have hsp : c = ' ' := by
          simp only [plainCore, Bool.and_eq_true, Bool.or_eq_true, hcp,
            Bool.false_or, decide_eq_true_eq] at h
          exact h.1.1
        have htail := (ih (plainCore_tail c (d :: r2) h)).2
          (by simpa using plainChar_not_ws d hd)
        constructor
        · rw [show collapseChars false (c :: d :: r2)
              = ' ' :: collapseChars true (d :: r2) from by
            rw [collapseChars]
            simp [hc]]
          rw [htail true, hsp]
        · intro hhead
          have hh : jsIsWs c = false := hhead
          rw [hh] at hc
          exact absurd hc (by decide)
    · have hcf : jsIsWs c = false := by
        cases hj : jsIsWs c
        · rfl
        · exact absurd hj hc
      have htail := ih (plainCore_tail c rest h)
      have hrest : collapseChars false rest = rest := htail.1
      constructor
      · simp only [collapseChars, hcf, Bool.false_eq_true, if_false, hrest]
      · intro _ b
        simp only [collapseChars, hcf, Bool.false_eq_true, if_false, hrest]

/-- Finishing a single plain text run leaves it untouched. -/
theorem finishRuns_plain (w : String) (h : plainText w.data = true) :
    finishRuns [.text w []] = [.text w []] := by
  have hcc : collapseChars true w.data = w.data := by
    cases hw : w.data with
    | nil => rfl
    | cons c r =>
      have h2 := (collapseChars_core (c :: r)
        (by rw [← hw]; exact plainText_core w.data h)).2
      exact h2 (by
        simpa using plainChar_not_ws c
          (plainText_head c r (by rw [← hw]; exact h))) true
  have hne : w.data ≠ [] := plainText_ne_nil w.data h
  have hchunks : collapseChunks true [.text w []] = [.text w []] := by
    simp only [collapseChunks, hcc]
    rw [if_neg hne]
    rfl
  have hdrop : dropTrailingSpace [.text w []] = [.text w []] := by
    simp only [dropTrailingSpace]
    split
    · rename_i heq
      exfalso
      have := plainCore_getLast w.data (plainText_core w.data h) ' ' heq
      simp [jsIsWs] at this
    · rfl
  show mergeRunsBase (dropTrailingSpace (collapseChunks true [.text w []]))
    = [.text w []]
  rw [hchunks, hdrop]
  rfl

/-! ### Splitting and joining lines -/

/-- Splitting at a newline appended after newline-free characters. -/
theorem splitNLChars_append :
    ∀ l : List Char, (∀ c ∈ l, c ≠ '\n') → ∀ r : List Char,
      splitNLChars (l ++ '\n' :: r) = l :: splitNLChars r := by
  intro l
  induction l with
  | nil =>
    intro _ r
    simp [splitNLChars]
  | cons c l2 ih =>
    intro h r
    have hc : c ≠ '\n' := h c (List.mem_cons_self c l2)
    rw [List.cons_append]
    simp only [splitNLChars, hc, if_neg, decide_eq_true_eq, ite_false]
    rw [ih (fun x hx => h x (List.mem_cons_of_mem c hx)) r]

/-- Splitting a newline-free character list. -/
theorem splitNLChars_no_nl :
    ∀ l : List Char, (∀ c ∈ l, c ≠ '\n') → splitNLChars l = [l] := by
  intro l
  induction l with
  | nil => intro _; rfl
  | cons c l2 ih =>
    intro h
    have hc : c ≠ '\n' := h c (List.mem_cons_self c l2)
    simp only [splitNLChars, hc, if_neg, decide_eq_true_eq, ite_false]
    rw [ih (fun x hx => h x (List.mem_cons_of_mem c hx))]

/-- Splitting inverts joining for nonempty, newline-free line lists. -/
theorem splitNL_joinNL :
    ∀ ls : List String, ls ≠ [] → (∀ l ∈ ls, ∀ c ∈ l.data, c ≠ '\n') →
      splitNL (joinNL ls) = ls := by
  intro ls
  induction ls with
  | nil => intro h _; exact absurd rfl h
  | cons x xs ih =>
    intro _ h
    cases xs with
    | nil =>
      show (splitNLChars x.data).map String.mk = [x]
      rw [splitNLChars_no_nl x.data (h x (List.mem_cons_self x []))]
      simp
    | cons y ys =>
      have hx : ∀ c ∈ x.data, c ≠ '\n' := h x (List.mem_cons_self x (y :: ys))
      have hjoin : (joinNL (x :: y :: ys)).data =
          x.data ++ '\n' :: (joinNL (y :: ys)).data := by
        show (x ++ "\n" ++ joinNL (y :: ys)).data = _
        simp [String.data_append]
      show (splitNLChars (joinNL (x :: y :: ys)).data).map String.mk = _
      rw [hjoin, splitNLChars_append x.data hx]
      have := ih (by simp) (fun l hl => h l (List.mem_cons_of_mem x hl))
      show String.mk x.data ::
        (splitNLChars (joinNL (y :: ys)).data).map String.mk = _
      rw [show (splitNLChars (joinNL (y :: ys)).data).map String.mk =
        splitNL (joinNL (y :: ys)) from rfl, this]

/-- Joining two nonempty line lists. -/
theorem joinNL_append :
    ∀ xs ys : List String, xs ≠ [] → ys ≠ [] →
      joinNL (xs ++ ys) = joinNL xs ++ "\n" ++ joinNL ys := by
  intro xs
  induction xs with
  | nil => intro ys h _; exact absurd rfl h
  | cons x xs2 ih =>
    intro ys _ hys
    cases xs2 with
    | nil =>
      cases ys with
      | nil => exact absurd rfl hys
      | cons y ys2 => rfl
    | cons x2 xs3 =>
      have hmain := ih ys (by simp) hys
      calc joinNL ((x :: x2 :: xs3) ++ ys)
          = x ++ "\n" ++ joinNL ((x2 :: xs3) ++ ys) := by
            rw [List.cons_append]
            rfl
        _ = x ++ "\n" ++ (joinNL (x2 :: xs3) ++ "\n" ++ joinNL ys) := by
            rw [hmain]
        _ = joinNL (x :: x2 :: xs3) ++ "\n" ++ joinNL ys := by
            show _ = x ++ "\n" ++ joinNL (x2 :: xs3) ++ "\n" ++ joinNL ys
            simp [String.append_assoc]

/-! ### The scan step, per classified line (shared with the C4 analysis) -/

/-- One scan step: the html contributed by the first line is determined
by its classification. -/
theorem buildHtml_step (line : String) (rest : List String) :
    buildHtmlLines (line :: rest) = renderClass line rest (classifyLine line) := by
  simp only [classifyLine, lineRules, firstRuleMatch, buildHtmlLines]
  by_cases c1 : (jsTrim line).data = []
  · have : jsTrim line = "" := by
      cases hh : jsTrim line; simp_all
    simp [this, renderClass, c1]
  · have hns : ¬(jsTrim line = "") := by
      intro hh; rw [hh] at c1; exact c1 rfl
    simp only [if_neg hns, if_neg c1]
    by_cases c2 : isHeadingLine (jsTrim line).data
    · simp [c1, c2, renderClass, headingHtml]
    · simp only [c2, Bool.false_eq_true, if_false]
      by_cases c3 : jsStartsWith (jsTrim line) "```"
      · have c3' : isPrefixChars "```".data (jsTrim line).data = true := c3
        simp only [c3, c3', if_true, ite_true]
        rw [fenceScan_split]
        simp [c1, renderClass]
      · have c3' : ¬(isPrefixChars "```".data (jsTrim line).data = true) := c3
        simp only [c3, c3', Bool.false_eq_true, if_false, ite_false]
        by_cases c4 : (taskUncheckedStrip (jsTrim line).data).isSome
        · simp [c1, c4, renderClass]
        · simp only [c4, Bool.false_eq_true, if_false, ite_false]
          by_cases c5 : (taskCheckedStrip (jsTrim line).data).isSome
          · simp [c1, c5, renderClass]
          · simp only [c5, Bool.false_eq_true, if_false, ite_false]
            by_cases c6 : (orderedStrip (jsTrim line).data).isSome
            · simp [c1, c6, renderClass]
            · simp only [c6, Bool.false_eq_true, if_false, ite_false]
              by_cases c7 : (bulletStrip (jsTrim line).data).isSome
              · simp [c1, c7, renderClass]
              · simp only [c7, Bool.false_eq_true, if_false, ite_false]
                by_cases c8 : (blockquoteStrip (jsTrim line).data).isSome
                · simp [c1, c8, renderClass]
                · simp only [c8, Bool.false_eq_true, if_false, ite_false]
                  by_cases c9 : isHrLine (jsTrim line).data
                  · simp [c1, c9, renderClass]
                  · simp [c1, c9, renderClass]

/-! ### Small helpers for classifying plain lines -/

/-- A plain character differs from any non-plain character. -/
theorem plainChar_ne (d : Char) (h : plainChar d = true) (x : Char)
    (hx : plainChar x = false) : d ≠ x := by
  intro he
  rw [he, hx] at h
  cases h

/-- The last element of an append with nonempty right part. -/
theorem getLast_append_ne {α : Type} (l1 l2 : List α) (h : l2 ≠ []) :
    (l1 ++ l2).getLast? = l2.getLast? := by
  induction l1 with
  | nil => rfl
  | cons a t ih =>
    cases hl : l2 with
    | nil => exact absurd hl h
    | cons b r =>
      rw [hl] at ih
      cases hm : t ++ b :: r with
      | nil => exact absurd hm (by simp)
      | cons u v =>
        rw [List.cons_append, hm, List.getLast?_cons_cons, ← hm, ih]

/-- Plain text contains no backtick (code point 96). -/
theorem plain_no_btick (w : String) (h : plainText w.data = true) :
    ∀ c ∈ w.data, c ≠ btick :=
  plainText_avoid w.data h btick (by decide) (by decide)

/-- Plain text contains no inline trigger character. -/
theorem plain_noInlineTrigger (w : String) (h : plainText w.data = true) :
    noInlineTrigger w = true := by
  refine List.all_eq_true.mpr ?_
  intro c hc
  have h1 := plainText_avoid w.data h '[' (by decide) (by decide) c hc
  have h2 := plainText_avoid w.data h '*' (by decide) (by decide) c hc
  have h3 := plainText_avoid w.data h '_' (by decide) (by decide) c hc
  have h4 := plain_no_btick w h c hc
  simp [h1, h2, h3, h4]

/-- Inline processing leaves plain text alone. -/
theorem processInline_plain (w : String) (h : plainText w.data = true) :
    processInlineMarkdown w = w :=
  processInlineMarkdown_id w (plain_noInlineTrigger w h)

/-- Dropping whitespace through one leading space of plain text. -/
theorem dropWhile_space_plain (w : String) (h : plainText w.data = true) :
    List.dropWhile jsIsWs (' ' :: w.data) = w.data := by
  rw [List.dropWhile_cons]
  simp only [show jsIsWs ' ' = true from rfl, if_true]
  exact dropWhile_plain w.data h

/-- A string without backticks does not open or close a fence. -/
theorem no_btick_not_fence (s : String) (h : ∀ c ∈ s.data, c ≠ btick) :
    jsStartsWith (jsTrim s) "```" = false := by
  have hsub : ∀ c ∈ (jsTrim s).data, c ≠ btick := by
    intro c hc
    apply h
    have h1 : c ∈ trimStartChars s.data := by
      have : (jsTrim s).data = trimEndChars (trimStartChars s.data) := rfl
      rw [this] at hc
      have hs : trimEndChars (trimStartChars s.data) ⊆
          trimStartChars s.data := by
        intro x hx
        show x ∈ trimStartChars s.data
        have hrev : x ∈ (trimStartChars s.data).reverse.dropWhile jsIsWs := by
          simpa [trimEndChars] using hx
        have := (List.dropWhile_sublist jsIsWs).subset hrev
        simpa using this
      exact hs hc
    exact (List.dropWhile_sublist jsIsWs).subset h1
  show isPrefixChars "```".data (jsTrim s).data = false
  cases hd : (jsTrim s).data with
  | nil => rfl
  | cons c r =>
    have hc : c ≠ btick := hsub c (by rw [hd]; exact List.mem_cons_self c r)
    show (decide (btick = c) && isPrefixChars _ r) = false
    have : (btick = c) = False := by
      simp only [eq_iff_iff, iff_false]
      exact fun he => hc he.symm
    simp [this]

/-- The trimmed line of a plain word line is itself (prefix + plain word
shape, with a non-whitespace head character). -/
theorem jsTrim_prefix_plain (pre : List Char) (w : String)
    (hw : plainText w.data = true)
    (hhead : ∀ c, (pre ++ w.data).head? = some c → jsIsWs c = false) :
    jsTrim ⟨pre ++ w.data⟩ = ⟨pre ++ w.data⟩ := by
  refine jsTrim_eq_self _ hhead ?_
  intro c hc
  rw [show (String.mk (pre ++ w.data)).data = pre ++ w.data from rfl,
    getLast_append_ne pre w.data (plainText_ne_nil w.data hw)] at hc
  exact plainCore_getLast w.data (plainText_core w.data hw) c hc

/-! ### Classification of plain lines -/

/-- Trim-stability of a non-whitespace-headed prefix plus a plain word. -/
theorem jsTrim_cons_plain (a : Char) (pre : List Char) (w : String)
    (ha : jsIsWs a = false) (hw : plainText w.data = true) :
    jsTrim ⟨a :: (pre ++ w.data)⟩ = ⟨a :: (pre ++ w.data)⟩ := by
  refine jsTrim_eq_self _ ?_ ?_
  · intro c hc
    have hc2 : some a = some c := hc
    injection hc2 with he
    rw [← he]
    exact ha
  · intro c hc
    have hc2 : ((a :: pre) ++ w.data).getLast? = some c := by
      simpa using hc
    rw [getLast_append_ne _ _ (plainText_ne_nil w.data hw)] at hc2
    exact plainCore_getLast w.data (plainText_core w.data hw) c hc2

/-- Dropping the length of a replicated prefix. -/
theorem drop_replicate {α : Type} (a : α) :
    ∀ (n : Nat) (l : List α), (List.replicate n a ++ l).drop n = l := by
  intro n
  induction n with
  | zero => intro l; rfl
  | succ m ih =>
    intro l
    rw [List.replicate_succ, List.cons_append, List.drop_succ_cons, ih]

/-- A heading line classifies as a heading of its hash count. -/
theorem classify_heading (k : Nat) (w : String) (h1 : 1 ≤ k) (h2 : k ≤ 6)
    (hw : plainText w.data = true) :
    classifyLine (hashes k ++ " " ++ w) = .headingL k ⟨w.data⟩ := by
  obtain ⟨k0, rfl⟩ : ∃ k0, k = k0 + 1 := ⟨k - 1, by omega⟩
  have hdata : (hashes (k0 + 1) ++ " " ++ w).data
      = List.replicate (k0 + 1) '#' ++ ' ' :: w.data := by
    show (List.replicate (k0 + 1) '#' ++ [' ']) ++ w.data = _
    simp
  have htrim : jsTrim (hashes (k0 + 1) ++ " " ++ w)
      = hashes (k0 + 1) ++ " " ++ w := by
    refine jsTrim_eq_self _ ?_ ?_
    · intro c hc
      rw [hdata, List.replicate_succ, List.cons_append, List.head?_cons] at hc
      injection hc with he
      rw [← he]
      decide
    · intro c hc
      rw [hdata,
        show List.replicate (k0 + 1) '#' ++ ' ' :: w.data
          = (List.replicate (k0 + 1) '#' ++ [' ']) ++ w.data by simp,
        getLast_append_ne _ _ (plainText_ne_nil w.data hw)] at hc
      exact plainCore_getLast w.data (plainText_core w.data hw) c hc
  have hcount : countHashes (List.replicate (k0 + 1) '#' ++ ' ' :: w.data)
      = k0 + 1 := by
    show (List.takeWhile _ _).length = _
    rw [(takeWhile_until _ (List.replicate (k0 + 1) '#')
      (by
        intro c hc
        have := List.eq_of_mem_replicate hc
        simp [this]) ' ' w.data (by decide)).1]
    exact List.length_replicate _ _
  have hdrop : (List.replicate (k0 + 1) '#' ++ ' ' :: w.data).drop
      (countHashes (List.replicate (k0 + 1) '#' ++ ' ' :: w.data))
      = ' ' :: w.data := by
    rw [hcount]
    exact drop_replicate '#' (k0 + 1) (' ' :: w.data)
  have hhl : isHeadingLine (List.replicate (k0 + 1) '#' ++ ' ' :: w.data)
      = true := by
    simp only [isHeadingLine, hcount, hdrop]
    simp [Nat.succ_le_succ, h2, show jsIsWs ' ' = true from rfl]
  have htext : headingText (List.replicate (k0 + 1) '#' ++ ' ' :: w.data)
      = w.data := by
    simp only [headingText, hdrop]
    exact dropWhile_space_plain w hw
  have hne : List.replicate (k0 + 1) '#' ++ ' ' :: w.data ≠ [] := by
    rw [List.replicate_succ]
    simp
  show firstRuleMatch lineRules (jsTrim (hashes (k0 + 1) ++ " " ++ w)).data = _
  rw [htrim, hdata]
  simp only [lineRules, firstRuleMatch, hne, hhl, hcount, htext,
    Nat.min_eq_left h2]
  simp [hne]

/-- An unchecked task line classifies as an unchecked task item. -/
theorem classify_taskU (w : String) (hw : plainText w.data = true) :
    classifyLine ("- [ ] " ++ w) = .taskU ⟨w.data⟩ := by
  have htrim : jsTrim ("- [ ] " ++ w) = "- [ ] " ++ w :=
    jsTrim_cons_plain '-' [' ', '[', ' ', ']', ' '] w rfl hw
  show firstRuleMatch lineRules (jsTrim ("- [ ] " ++ w)).data = _
  rw [htrim]
  have hdata : ("- [ ] " ++ w).data
      = '-' :: ' ' :: '[' :: ' ' :: ']' :: ' ' :: w.data := rfl
  rw [hdata]
  have hne : ('-' :: ' ' :: '[' :: ' ' :: ']' :: ' ' :: w.data : List Char)
      ≠ [] := by simp
  have hhl : isHeadingLine
      ('-' :: ' ' :: '[' :: ' ' :: ']' :: ' ' :: w.data) = false := rfl
  have hfs : isPrefixChars "```".data
      ('-' :: ' ' :: '[' :: ' ' :: ']' :: ' ' :: w.data) = false := rfl
  have htu : taskUncheckedStrip
      ('-' :: ' ' :: '[' :: ' ' :: ']' :: ' ' :: w.data)
      = some (w.data.dropWhile jsIsWs) := rfl
  simp only [lineRules, firstRuleMatch, hne, hhl, hfs, htu,
    dropWhile_plain w.data hw]
  simp [hne]

/-- A checked task line classifies as a checked task item. -/
theorem classify_taskC (w : String) (hw : plainText w.data = true) :
    classifyLine ("- [x] " ++ w) = .taskC ⟨w.data⟩ := by
  have htrim : jsTrim ("- [x] " ++ w) = "- [x] " ++ w :=
    jsTrim_cons_plain '-' [' ', '[', 'x', ']', ' '] w rfl hw
  show firstRuleMatch lineRules (jsTrim ("- [x] " ++ w)).data = _
  rw [htrim]
  have hdata : ("- [x] " ++ w).data
      = '-' :: ' ' :: '[' :: 'x' :: ']' :: ' ' :: w.data := rfl
  rw [hdata]
  have hne : ('-' :: ' ' :: '[' :: 'x' :: ']' :: ' ' :: w.data : List Char)
      ≠ [] := by simp
  have hhl : isHeadingLine
      ('-' :: ' ' :: '[' :: 'x' :: ']' :: ' ' :: w.data) = false := rfl
  have hfs : isPrefixChars "```".data
      ('-' :: ' ' :: '[' :: 'x' :: ']' :: ' ' :: w.data) = false := rfl
  have htu : taskUncheckedStrip
      ('-' :: ' ' :: '[' :: 'x' :: ']' :: ' ' :: w.data) = none := rfl
  have htc : taskCheckedStrip
      ('-' :: ' ' :: '[' :: 'x' :: ']' :: ' ' :: w.data)
      = some (w.data.dropWhile jsIsWs) := rfl
  simp only [lineRules, firstRuleMatch, hne, hhl, hfs, htu, htc,
    dropWhile_plain w.data hw]
  simp [hne]

/-- An ordered line numbered 1 classifies as an ordered item. -/
theorem classify_ordered (w : String) (hw : plainText w.data = true) :
    classifyLine ("1. " ++ w) = .orderedL ⟨w.data⟩ := by
  have htrim : jsTrim ("1. " ++ w) = "1. " ++ w :=
    jsTrim_cons_plain '1' ['.', ' '] w rfl hw
  show firstRuleMatch lineRules (jsTrim ("1. " ++ w)).data = _
  rw [htrim]
  have hdata : ("1. " ++ w).data = '1' :: '.' :: ' ' :: w.data := rfl
  rw [hdata]
  have hne : ('1' :: '.' :: ' ' :: w.data : List Char) ≠ [] := by simp
  have hhl : isHeadingLine ('1' :: '.' :: ' ' :: w.data) = false := rfl
  have hfs : isPrefixChars "```".data ('1' :: '.' :: ' ' :: w.data)
      = false := rfl
  have htu : taskUncheckedStrip ('1' :: '.' :: ' ' :: w.data) = none := rfl
  have htc : taskCheckedStrip ('1' :: '.' :: ' ' :: w.data) = none := rfl
  have hord : orderedStrip ('1' :: '.' :: ' ' :: w.data)
      = some (w.data.dropWhile jsIsWs) := rfl
  simp only [lineRules, firstRuleMatch, hne, hhl, hfs, htu, htc, hord,
    dropWhile_plain w.data hw]
  simp [hne]

/-- A blockquote line classifies as a blockquote. -/
theorem classify_quote (w : String) (hw : plainText w.data = true) :
    classifyLine ("> " ++ w) = .bqL ⟨w.data⟩ := by
  have htrim : jsTrim ("> " ++ w) = "> " ++ w :=
    jsTrim_cons_plain '>' [' '] w rfl hw
  show firstRuleMatch lineRules (jsTrim ("> " ++ w)).data = _
  rw [htrim]
  have hdata : ("> " ++ w).data = '>' :: ' ' :: w.data := rfl
  rw [hdata]
  have hne : ('>' :: ' ' :: w.data : List Char) ≠ [] := by simp
  have hhl : isHeadingLine ('>' :: ' ' :: w.data) = false := rfl
  have hfs : isPrefixChars "```".data ('>' :: ' ' :: w.data) = false := rfl
  have htu : taskUncheckedStrip ('>' :: ' ' :: w.data) = none := rfl
  have htc : taskCheckedStrip ('>' :: ' ' :: w.data) = none := rfl
  have hord : orderedStrip ('>' :: ' ' :: w.data) = none := rfl
  have hbul : bulletStrip ('>' :: ' ' :: w.data) = none := rfl
  have hbq : blockquoteStrip ('>' :: ' ' :: w.data)
      = some (w.data.dropWhile jsIsWs) := rfl
  simp only [lineRules, firstRuleMatch, hne, hhl, hfs, htu, htc, hord, hbul,
    hbq, dropWhile_plain w.data hw]
  simp [hne]

/-- The task strips reject a plain bullet line. -/
theorem taskStrips_bullet (w : String) (hw : plainText w.data = true) :
    taskUncheckedStrip ('-' :: ' ' :: w.data) = none ∧
      taskCheckedStrip ('-' :: ' ' :: w.data) = none := by
  obtain ⟨d, r, hdr⟩ : ∃ d r, w.data = d :: r := by
    cases hw2 : w.data with
    | nil => exact absurd hw2 (plainText_ne_nil w.data hw)
    | cons d r => exact ⟨d, r, rfl⟩
  have hd : plainChar d = true :=
    plainText_head d r (by rw [← hdr]; exact hw)
  have hdrop : List.dropWhile jsIsWs (' ' :: w.data) = d :: r := by
    rw [dropWhile_space_plain w hw, hdr]
  constructor
  · unfold taskUncheckedStrip
    split
    · rename_i r1 heq
      injection heq with he1 he2
      rw [← he2, hdrop]
      split
      · rename_i r2 heq2
        injection heq2 with he3 he4
        exact absurd he3 (plainChar_ne d hd '[' (by decide))
      · rfl
    · rfl
  · unfold taskCheckedStrip
    split
    · rename_i r1 heq
      injection heq with he1 he2
      rw [← he2, hdrop]
      split
      · rename_i x r3 heq2
        injection heq2 with he3 he4
        exact absurd he3 (plainChar_ne d hd '[' (by decide))
      · rfl
    · rfl

/-- A bullet line classifies as an unordered item. -/
theorem classify_bullet (w : String) (hw : plainText w.data = true) :
    classifyLine ("- " ++ w) = .bulletL ⟨w.data⟩ := by
  have htrim : jsTrim ("- " ++ w) = "- " ++ w :=
    jsTrim_cons_plain '-' [' '] w rfl hw
  show firstRuleMatch lineRules (jsTrim ("- " ++ w)).data = _
  rw [htrim]
  have hdata : ("- " ++ w).data = '-' :: ' ' :: w.data := rfl
  rw [hdata]
  have hne : ('-' :: ' ' :: w.data : List Char) ≠ [] := by simp
  have hhl : isHeadingLine ('-' :: ' ' :: w.data) = false := rfl
  have hfs : isPrefixChars "```".data ('-' :: ' ' :: w.data) = false := rfl
  have htu := (taskStrips_bullet w hw).1
  have htc := (taskStrips_bullet w hw).2
  have hord : orderedStrip ('-' :: ' ' :: w.data) = none := rfl
  have hbul : bulletStrip ('-' :: ' ' :: w.data)
      = some (w.data.dropWhile jsIsWs) := rfl
  simp only [lineRules, firstRuleMatch, hne, hhl, hfs, htu, htc, hord, hbul,
    dropWhile_plain w.data hw]
  simp [hne]

/-- A fence opener line classifies as a fence with its info string. -/
theorem classify_fence (lang : String)
    (hl : lang.data.all plainChar = true) :
    classifyLine ("```" ++ lang) = .fenceOpen ⟨lang.data⟩ := by
  have htrim : jsTrim ("```" ++ lang) = "```" ++ lang := by
    refine jsTrim_eq_self _ ?_ ?_
    · intro c hc
      have hc2 : some btick = some c := hc
      injection hc2 with he
      rw [← he]
      decide
    · intro c hc
      cases hlang : lang.data with
      | nil =>
        have hc2 : ("```" ++ lang).data = "```".data := by
          show "```".data ++ lang.data = _
          rw [hlang]
          simp
        rw [hc2] at hc
        have hc3 : some btick = some c := hc
        injection hc3 with he
        rw [← he]
        decide
      | cons d t =>
        have hc2 : ("```".data ++ lang.data).getLast? = some c := hc
        rw [getLast_append_ne _ _ (by rw [hlang]; simp)] at hc2
        have hmem : c ∈ lang.data := by
          rw [hlang] at hc2 ⊢
          have hne2 : (d :: t : List Char) ≠ [] := by simp
          rw [List.getLast?_eq_getLast _ hne2] at hc2
          injection hc2 with he
          rw [← he]
          exact List.getLast_mem hne2
        exact plainChar_not_ws c (List.all_eq_true.mp hl c hmem)
  show firstRuleMatch lineRules (jsTrim ("```" ++ lang)).data = _
  rw [htrim]
  have hdata : ("```" ++ lang).data = "```".data ++ lang.data := rfl
  rw [hdata]
  have hne : ("```".data ++ lang.data : List Char) ≠ [] := by simp
  have hhl : isHeadingLine ("```".data ++ lang.data) = false := rfl
  have hfs : isPrefixChars "```".data ("```".data ++ lang.data) = true := rfl
  have hdrop3 : ("```".data ++ lang.data).drop 3 = lang.data := rfl
  simp only [lineRules, firstRuleMatch, hne, hhl, hfs, hdrop3]
  simp [hne]

/-- A plain word line classifies as a paragraph. -/
theorem classify_para (w : String) (hw : plainText w.data = true) :
    classifyLine w = .para := by
  have htrim : jsTrim w = w := jsTrim_plain w hw
  show firstRuleMatch lineRules (jsTrim w).data = _
  rw [htrim]
  obtain ⟨d, r, hdr⟩ : ∃ d r, w.data = d :: r := by
    cases hw2 : w.data with
    | nil => exact absurd hw2 (plainText_ne_nil w.data hw)
    | cons d r => exact ⟨d, r, rfl⟩
  have hd : plainChar d = true :=
    plainText_head d r (by rw [← hdr]; exact hw)
  have hdws : List.dropWhile jsIsWs w.data = w.data := dropWhile_plain w.data hw
  have hne : w.data ≠ [] := plainText_ne_nil w.data hw
  have hhl : isHeadingLine w.data = false := by
    rw [hdr]
    simp [isHeadingLine, countHashes, List.takeWhile_cons,
      plainChar_ne d hd '#' (by decide)]
  have hfs : isPrefixChars "```".data w.data = false := by
    rw [hdr]
    show (decide (btick = d) && isPrefixChars _ r) = false
    have : (btick = d) = False := by
      simp only [eq_iff_iff, iff_false]
      exact fun he => (plainChar_ne d hd btick (by decide)) he.symm
    simp [this]
  have htu : taskUncheckedStrip w.data = none := by
    rw [hdr]
    unfold taskUncheckedStrip
    split
    · rename_i r1 heq
      injection heq with he1 he2
      exact absurd he1 (plainChar_ne d hd '-' (by decide))
    · rfl
  have htc : taskCheckedStrip w.data = none := by
    rw [hdr]
    unfold taskCheckedStrip
    split
    · rename_i r1 heq
      injection heq with he1 he2
      exact absurd he1 (plainChar_ne d hd '-' (by decide))
    · rfl
  have hord : orderedStrip w.data = none := by
    unfold orderedStrip
    rw [hdws]
    by_cases hds : w.data.takeWhile Char.isDigit = []
    · simp [hds]
    · simp only [hds, Bool.false_eq_true, if_neg, ite_false]
      cases hdw : w.data.dropWhile Char.isDigit with
      | nil => simp
      | cons c r2 =>
        have hcm : c ∈ w.data := by
          have : c ∈ w.data.dropWhile Char.isDigit := by
            rw [hdw]
            exact List.mem_cons_self c r2
          exact (List.dropWhile_sublist Char.isDigit).subset this
        have hcne : c ≠ '.' := by
          rcases plainCore_chars w.data (plainText_core w.data hw) c hcm
            with h1 | h1
          · exact plainChar_ne c h1 '.' (by decide)
          · rw [h1]; decide
        split
        · rename_i r1 heq
          injection heq with he1 he2
          exact absurd he1 hcne
        · rfl
  have hbul : bulletStrip w.data = none := by
    unfold bulletStrip
    rw [hdws, hdr]
    have h1 : d ≠ '-' := plainChar_ne d hd '-' (by decide)
    have h2 : d ≠ '*' := plainChar_ne d hd '*' (by decide)
    have h3 : d ≠ '+' := plainChar_ne d hd '+' (by decide)
    simp [h1, h2, h3]
  have hbq : blockquoteStrip w.data = none := by
    rw [hdr]
    unfold blockquoteStrip
    split
    · rename_i r1 heq
      injection heq with he1 he2
      exact absurd he1 (plainChar_ne d hd '>' (by decide))
    · rfl
  have hhr : isHrLine w.data = false := by
    rw [hdr]
    simp [isHrLine, List.all_cons, plainChar_ne d hd '-' (by decide)]
  simp only [lineRules, firstRuleMatch, hne, hhl, hfs, htu, htc, hord, hbul,
    hbq, hhr]
  simp [hne]

/-! ### The html contributed by one plain block -/

/-- The fence loop consumes exactly the plain code lines and resumes
after the closing fence. -/
theorem fenceLines (code : List String) (hc : code.all codeLineOk = true)
    (rest : List String) :
    fenceBody (code ++ "```" :: rest) = code ∧
      fenceRest (code ++ "```" :: rest) = rest := by
  have hpred : ∀ l ∈ code, (!(jsStartsWith (jsTrim l) "```")) = true := by
    intro l hl
    have hok := List.all_eq_true.mp hc l hl
    have hbt : ∀ c ∈ l.data, c ≠ btick := by
      intro c hcm
      have := List.all_eq_true.mp hok c hcm
      simp only [Bool.and_eq_true, decide_eq_true_eq] at this
      exact this.2
    rw [no_btick_not_fence l hbt]
    rfl
  have hclose : (!(jsStartsWith (jsTrim "```") "```")) = false := by decide
  have h1 := takeWhile_until (fun l => !(jsStartsWith (jsTrim l) "```"))
    code hpred "```" rest hclose
  constructor
  · exact h1.1
  · show ((code ++ "```" :: rest).dropWhile _).drop 1 = rest
    rw [h1.2]
    rfl

/-- The html of the first block of the line stream. -/
theorem build_block (b : PlainBlock) (hb : blockOk b = true)
    (restLines : List String) :
    buildHtmlLines (renderBlock b ++ restLines)
      = blockHtml b ++ buildHtmlLines restLines := by
  cases b with
  | blank =>
    show buildHtmlLines ("" :: restLines) = _
    rw [buildHtml_step]
    rfl
  | hrB =>
    show buildHtmlLines ("---" :: restLines) = _
    rw [buildHtml_step]
    rfl
  | headingB k w =>
    simp only [blockOk, Bool.and_eq_true, decide_eq_true_eq] at hb
    show buildHtmlLines ((hashes k ++ " " ++ w) :: restLines) = _
    rw [buildHtml_step, classify_heading k w hb.1.1 hb.1.2 hb.2]
    show "<h" ++ natStr k ++ ">" ++ processInlineMarkdown w ++ "</h" ++
      natStr k ++ ">" ++ buildHtmlLines restLines = _
    rw [processInline_plain w hb.2]
    rfl
  | paraB w =>
    show buildHtmlLines (w :: restLines) = _
    rw [buildHtml_step, classify_para w hb]
    show "<p>" ++ processInlineMarkdown w ++ "</p>" ++
      buildHtmlLines restLines = _
    rw [processInline_plain w hb]
    rfl
  | taskU w =>
    show buildHtmlLines (("- [ ] " ++ w) :: restLines) = _
    rw [buildHtml_step, classify_taskU w hb]
    rfl
  | taskC w =>
    show buildHtmlLines (("- [x] " ++ w) :: restLines) = _
    rw [buildHtml_step, classify_taskC w hb]
    rfl
  | orderedB w =>
    show buildHtmlLines (("1. " ++ w) :: restLines) = _
    rw [buildHtml_step, classify_ordered w hb]
    show "<ol><li>" ++ processInlineMarkdown w ++ "</li></ol>" ++
      buildHtmlLines restLines = _
    rw [processInline_plain w hb]
    rfl
  | bulletB w =>
    show buildHtmlLines (("- " ++ w) :: restLines) = _
    rw [buildHtml_step, classify_bullet w hb]
    show "<ul><li>" ++ processInlineMarkdown w ++ "</li></ul>" ++
      buildHtmlLines restLines = _
    rw [processInline_plain w hb]
    rfl
  | quoteB w =>
    show buildHtmlLines (("> " ++ w) :: restLines) = _
    rw [buildHtml_step, classify_quote w hb]
    show "<blockquote>" ++ processInlineMarkdown w ++ "</blockquote>" ++
      buildHtmlLines restLines = _
    rw [processInline_plain w hb]
    rfl
  | fenceB lang code =>
    simp only [blockOk, Bool.and_eq_true] at hb
    have hlist : renderBlock (.fenceB lang code) ++ restLines
        = ("```" ++ lang) :: (code ++ "```" :: restLines) := by
      show (("```" ++ lang) :: (code ++ ["```"])) ++ restLines = _
      simp
    rw [hlist, buildHtml_step, classify_fence lang hb.1.1]
    show fenceHtml ⟨lang.data⟩ (fenceBody (code ++ "```" :: restLines)) ++
      buildHtmlLines (fenceRest (code ++ "```" :: restLines)) = _
    rw [(fenceLines code hb.2 restLines).1, (fenceLines code hb.2 restLines).2]
    rfl

/-! ### Machine runs over text and tag characters -/

/-- Text mode accumulates characters other than the tag opener. -/
theorem foldl_text (cs : List Char) :
    ∀ (_ : ∀ c ∈ cs, c ≠ '<') (stack : List MFrame) (T : List PMNode)
      (acc : List Char),
      List.foldl mStep ⟨stack, T, .text acc⟩ cs
        = ⟨stack, T, .text (acc ++ cs)⟩ := by
  induction cs with
  | nil => intro _ stack T acc; simp
  | cons c cs2 ih =>
    intro h stack T acc
    rw [List.foldl_cons]
    have hc : c ≠ '<' := h c (List.mem_cons_self c cs2)
    have hstep : mStep ⟨stack, T, .text acc⟩ c
        = ⟨stack, T, .text (acc ++ [c])⟩ := by
      simp [mStep, hc]
    rw [hstep, ih (fun x hx => h x (List.mem_cons_of_mem c hx)) stack T
      (acc ++ [c])]
    simp

/-- Tag mode accumulates characters other than the tag closer. -/
theorem foldl_tag (cs : List Char) :
    ∀ (_ : ∀ c ∈ cs, c ≠ '>') (stack : List MFrame) (T : List PMNode)
      (acc : List Char) (_ : acc ≠ []),
      List.foldl mStep ⟨stack, T, .tag acc⟩ cs
        = ⟨stack, T, .tag (acc ++ cs)⟩ := by
  induction cs with
  | nil => intro _ stack T acc _; simp
  | cons c cs2 ih =>
    intro h stack T acc hacc
    rw [List.foldl_cons]
    have hc : c ≠ '>' := h c (List.mem_cons_self c cs2)
    have hstep : mStep ⟨stack, T, .tag acc⟩ c
        = ⟨stack, T, .tag (acc ++ [c])⟩ := by
      simp [mStep, hc, hacc]
    rw [hstep, ih (fun x hx => h x (List.mem_cons_of_mem c hx)) stack T
      (acc ++ [c]) (by simp)]
    simp

/-- The tag opener flushes accumulated nonempty text. -/
theorem mStep_flush (stack : List MFrame) (T : List PMNode) (acc : List Char)
    (hacc : acc ≠ []) :
    mStep ⟨stack, T, .text acc⟩ '<'
      = { appendNodes ⟨stack, T, .text acc⟩ [.text ⟨acc⟩ []]
          with mode := .tag [] } := by
  simp [mStep, hacc]

/-! ### Attribute parsing of the fence tag -/

/-- The attribute parser returns nothing on an empty remainder, with any
fuel. -/
theorem parseAttrsF_nil : ∀ f : Nat, parseAttrsF f [] = [] := by
  intro f
  cases f with
  | zero => rfl
  | succ g => rfl

/-- The attribute parser on the fence tag's remainder: exactly the
`data-language` attribute. -/
theorem parseAttrsF_dataLang (lang : String)
    (hl : ∀ c ∈ lang.data, c ≠ '"') (f : Nat) :
    parseAttrsF (f + 1) (" data-language=\"".data ++ (lang.data ++ ['"']))
      = [("data-language", lang)] := by
  have ht := takeWhile_until (fun c : Char => c ≠ '"') lang.data
    (fun c hc => by simpa using hl c hc) '"' [] (by simp)
  have e : parseAttrsF (f + 1) (" data-language=\"".data ++ (lang.data ++ ['"']))
      = ("data-language",
          ⟨(lang.data ++ ['"']).takeWhile (fun c => c ≠ '"')⟩) ::
        parseAttrsF f
          (((lang.data ++ ['"']).dropWhile (fun c => c ≠ '"')).drop 1) := rfl
  rw [e, ht.1, ht.2]
  show _ :: parseAttrsF f [] = _
  rw [parseAttrsF_nil]

/-- Parsing the opening fence tag's contents. -/
theorem parseTagContent_pre (lang : String)
    (hl : ∀ c ∈ lang.data, c ≠ '"') :
    parseTagContent ("pre data-language=\"".data ++ (lang.data ++ ['"']))
      = { isClose := false, name := "pre",
          attrs := [("data-language", lang)], selfClose := false } := by
  have e : parseTagContent ("pre data-language=\"".data ++ (lang.data ++ ['"']))
      = { isClose := false, name := "pre",
          attrs := parseAttrsF
            ((" data-language=\"".data ++ (lang.data ++ ['"'])).length + 1)
            (" data-language=\"".data ++ (lang.data ++ ['"'])),
          selfClose := decide
            (("pre data-language=\"".data ++ (lang.data ++ ['"'])).getLast?
              = some '/') } := rfl
  rw [e, parseAttrsF_dataLang lang hl]
  have hgl : ("pre data-language=\"".data ++ (lang.data ++ ['"'])).getLast?
      = some '"' := by
    rw [getLast_append_ne _ _ (by simp), getLast_append_ne _ _ (by simp)]
    rfl
  rw [hgl]
  rfl

/-- The joined code lines contain no tag opener. -/
theorem joinNL_no_lt (ls : List String)
    (h : ∀ l ∈ ls, ∀ c ∈ l.data, c ≠ '<') :
    ∀ c ∈ (joinNL ls).data, c ≠ '<' := by
  induction ls with
  | nil => intro c hc; simp [joinNL] at hc
  | cons x xs ih =>
    intro c hc
    cases xs with
    | nil => exact h x (List.mem_cons_self x []) c hc
    | cons y ys =>
      have hd : (joinNL (x :: y :: ys)).data
          = x.data ++ '\n' :: (joinNL (y :: ys)).data := by
        show (x ++ "\n" ++ joinNL (y :: ys)).data = _
        simp [String.data_append]
      rw [hd] at hc
      rcases List.mem_append.mp hc with h1 | h2
      · exact h x (List.mem_cons_self x (y :: ys)) c h1
      · rcases List.mem_cons.mp h2 with rfl | h3
        · decide
        · exact ih (fun l hl => h l (List.mem_cons_of_mem x hl)) c h3

/-! ### The machine on one block's html -/

/-- Plain text contains no tag opener. -/
theorem plain_no_lt (w : String) (hw : plainText w.data = true) :
    ∀ c ∈ w.data, c ≠ '<' :=
  plainText_avoid w.data hw '<' (by decide) (by decide)

/-- The machine materializes an unchecked task item from its html. -/
theorem machine_taskU (w : String) (hw : plainText w.data = true)
    (T : List PMNode) :
    List.foldl mStep ⟨[], T, .text []⟩ (blockHtml (.taskU w)).data
      = ⟨[], T ++ [blockNode (.taskU w)], .text []⟩ := by
  have hpi : processInlineMarkdown ⟨w.data⟩ = w := processInline_plain w hw
  have hform : blockHtml (.taskU w)
      = "<ul data-type=\"taskList\"><li data-type=\"taskItem\" data-checked=\"false\""
        ++ " class=\"task-item-unchecked\">"
        ++ processInlineMarkdown ⟨w.data⟩ ++ "</li></ul>" := rfl
  rw [hform, hpi]
  have hd : ("<ul data-type=\"taskList\"><li data-type=\"taskItem\" data-checked=\"false\""
        ++ " class=\"task-item-unchecked\">" ++ w ++ "</li></ul>").data
      = "<ul data-type=\"taskList\"><li data-type=\"taskItem\" data-checked=\"false\" class=\"task-item-unchecked\">".data
        ++ (w.data ++ "</li></ul>".data) := by
    simp only [String.data_append, List.append_assoc]
    rfl
  rw [hd, List.foldl_append, List.foldl_append]
  have h1 : List.foldl mStep ⟨[], T, .text []⟩
      "<ul data-type=\"taskList\"><li data-type=\"taskItem\" data-checked=\"false\" class=\"task-item-unchecked\">".data
      = ⟨[⟨"li", [("data-type", "taskItem"), ("data-checked", "false"),
            ("class", "task-item-unchecked")], true, false, []⟩,
          ⟨"ul", [("data-type", "taskList")], true, false, []⟩],
         T, .text []⟩ := rfl
  rw [h1]
  have h2 : List.foldl mStep
      (⟨[⟨"li", [("data-type", "taskItem"), ("data-checked", "false"),
            ("class", "task-item-unchecked")], true, false, []⟩,
          ⟨"ul", [("data-type", "taskList")], true, false, []⟩],
         T, .text []⟩ : MState) w.data
      = ⟨[⟨"li", [("data-type", "taskItem"), ("data-checked", "false"),
            ("class", "task-item-unchecked")], true, false, []⟩,
          ⟨"ul", [("data-type", "taskList")], true, false, []⟩],
         T, .text w.data⟩ := by
    have := foldl_text w.data (plain_no_lt w hw)
      [⟨"li", [("data-type", "taskItem"), ("data-checked", "false"),
          ("class", "task-item-unchecked")], true, false, []⟩,
        ⟨"ul", [("data-type", "taskList")], true, false, []⟩] T []
    simpa using this
  rw [h2]
  have h3 : List.foldl mStep
      (⟨[⟨"li", [("data-type", "taskItem"), ("data-checked", "false"),
            ("class", "task-item-unchecked")], true, false, []⟩,
          ⟨"ul", [("data-type", "taskList")], true, false, []⟩],
         T, .text w.data⟩ : MState) "</li></ul>".data
      = ⟨[], T ++ [.task_list [.task_list_item false
            [.paragraph (finishRuns [.text ⟨w.data⟩ []])]]], .text []⟩ := by
    rw [show ("</li></ul>".data : List Char) = '<' :: "/li></ul>".data from rfl,
      List.foldl_cons, mStep_flush _ _ _ (plainText_ne_nil w.data hw)]
    rfl
  rw [h3, show finishRuns [.text ⟨w.data⟩ []] = [.text w []] from
    finishRuns_plain w hw]
  rfl

/-! ### Machine lemmas per block form -/

/-- The machine materializes the blank paragraph. -/

theorem machine_blank (T : List PMNode) :
    List.foldl mStep ⟨[], T, .text []⟩ (blockHtml .blank).data
      = ⟨[], T ++ [blockNode .blank], .text []⟩ := rfl

/-- The machine materializes the horizontal rule. -/

theorem machine_hr (T : List PMNode) :
    List.foldl mStep ⟨[], T, .text []⟩ (blockHtml .hrB).data
      = ⟨[], T ++ [blockNode .hrB], .text []⟩ := rfl

/-- The machine materializes the `paraB` block from its html. -/
theorem machine_para (w : String) (hw : plainText w.data = true)
    (T : List PMNode) :
    List.foldl mStep ⟨[], T, .text []⟩ (blockHtml (.paraB w)).data
      = ⟨[], T ++ [blockNode (.paraB w)], .text []⟩ := by
  have hd : (blockHtml (.paraB w)).data
      = "<p>".data ++ (w.data ++ "</p>".data) := by
    simp only [blockHtml, String.data_append, List.append_assoc]
  rw [hd, List.foldl_append, List.foldl_append]
  have h1 : List.foldl mStep ⟨[], T, .text []⟩
      "<p>".data
      = ⟨[⟨"p", [], true, false, []⟩], T, .text []⟩ := rfl
  rw [h1]
  have h2 : List.foldl mStep
      (⟨[⟨"p", [], true, false, []⟩], T, .text []⟩ : MState) w.data
      = ⟨[⟨"p", [], true, false, []⟩], T, .text w.data⟩ := by
    have := foldl_text w.data (plain_no_lt w hw)
      [⟨"p", [], true, false, []⟩] T []
    simpa using this
  rw [h2]
  have h3 : List.foldl mStep
      (⟨[⟨"p", [], true, false, []⟩], T, .text w.data⟩ : MState) "</p>".data
      = ⟨[], T ++ [.paragraph (finishRuns [.text ⟨w.data⟩ []])], .text []⟩ := by
    rw [show ("</p>".data : List Char) = '<' :: "/p>".data from rfl,
      List.foldl_cons, mStep_flush _ _ _ (plainText_ne_nil w.data hw)]
    rfl
  rw [h3, show finishRuns [.text ⟨w.data⟩ []] = [.text w []] from
    finishRuns_plain w hw]
  rfl

/-- The machine materializes the `bulletB` block from its html. -/
theorem machine_bullet (w : String) (hw : plainText w.data = true)
    (T : List PMNode) :
    List.foldl mStep ⟨[], T, .text []⟩ (blockHtml (.bulletB w)).data
      = ⟨[], T ++ [blockNode (.bulletB w)], .text []⟩ := by
  have hd : (blockHtml (.bulletB w)).data
      = "<ul><li>".data ++ (w.data ++ "</li></ul>".data) := by
    simp only [blockHtml, String.data_append, List.append_assoc]
  rw [hd, List.foldl_append, List.foldl_append]
  have h1 : List.foldl mStep ⟨[], T, .text []⟩
      "<ul><li>".data
      = ⟨[⟨"li", [], true, false, []⟩, ⟨"ul", [], true, false, []⟩], T, .text []⟩ := rfl
  rw [h1]
  have h2 : List.foldl mStep
      (⟨[⟨"li", [], true, false, []⟩, ⟨"ul", [], true, false, []⟩], T, .text []⟩ : MState) w.data
      = ⟨[⟨"li", [], true, false, []⟩, ⟨"ul", [], true, false, []⟩], T, .text w.data⟩ := by
    have := foldl_text w.data (plain_no_lt w hw)
      [⟨"li", [], true, false, []⟩, ⟨"ul", [], true, false, []⟩] T []
    simpa using this
  rw [h2]
  have h3 : List.foldl mStep
      (⟨[⟨"li", [], true, false, []⟩, ⟨"ul", [], true, false, []⟩], T, .text w.data⟩ : MState) "</li></ul>".data
      = ⟨[], T ++ [.bullet_list [.list_item [.paragraph (finishRuns [.text ⟨w.data⟩ []])]]], .text []⟩ := by
    rw [show ("</li></ul>".data : List Char) = '<' :: "/li></ul>".data from rfl,
      List.foldl_cons, mStep_flush _ _ _ (plainText_ne_nil w.data hw)]
    rfl
  rw [h3, show finishRuns [.text ⟨w.data⟩ []] = [.text w []] from
    finishRuns_plain w hw]
  rfl

/-- The machine materializes the `orderedB` block from its html. -/
theorem machine_ordered (w : String) (hw : plainText w.data = true)
    (T : List PMNode) :
    List.foldl mStep ⟨[], T, .text []⟩ (blockHtml (.orderedB w)).data
      = ⟨[], T ++ [blockNode (.orderedB w)], .text []⟩ := by
  have hd : (blockHtml (.orderedB w)).data
      = "<ol><li>".data ++ (w.data ++ "</li></ol>".data) := by
    simp only [blockHtml, String.data_append, List.append_assoc]
  rw [hd, List.foldl_append, List.foldl_append]
  have h1 : List.foldl mStep ⟨[], T, .text []⟩
      "<ol><li>".data
      = ⟨[⟨"li", [], true, false, []⟩, ⟨"ol", [], true, false, []⟩], T, .text []⟩ := rfl
  rw [h1]
  have h2 : List.foldl mStep
      (⟨[⟨"li", [], true, false, []⟩, ⟨"ol", [], true, false, []⟩], T, .text []⟩ : MState) w.data
      = ⟨[⟨"li", [], true, false, []⟩, ⟨"ol", [], true, false, []⟩], T, .text w.data⟩ := by
    have := foldl_text w.data (plain_no_lt w hw)
      [⟨"li", [], true, false, []⟩, ⟨"ol", [], true, false, []⟩] T []
    simpa using this
  rw [h2]
  have h3 : List.foldl mStep
      (⟨[⟨"li", [], true, false, []⟩, ⟨"ol", [], true, false, []⟩], T, .text w.data⟩ : MState) "</li></ol>".data
      = ⟨[], T ++ [.ordered_list 1 [.list_item [.paragraph (finishRuns [.text ⟨w.data⟩ []])]]], .text []⟩ := by
    rw [show ("</li></ol>".data : List Char) = '<' :: "/li></ol>".data from rfl,
      List.foldl_cons, mStep_flush _ _ _ (plainText_ne_nil w.data hw)]
    rfl
  rw [h3, show finishRuns [.text ⟨w.data⟩ []] = [.text w []] from
    finishRuns_plain w hw]
  rfl

/-- The machine materializes the `quoteB` block from its html. -/
theorem machine_quote (w : String) (hw : plainText w.data = true)
    (T : List PMNode) :
    List.foldl mStep ⟨[], T, .text []⟩ (blockHtml (.quoteB w)).data
      = ⟨[], T ++ [blockNode (.quoteB w)], .text []⟩ := by
  have hd : (blockHtml (.quoteB w)).data
      = "<blockquote>".data ++ (w.data ++ "</blockquote>".data) := by
    simp only [blockHtml, String.data_append, List.append_assoc]
  rw [hd, List.foldl_append, List.foldl_append]
  have h1 : List.foldl mStep ⟨[], T, .text []⟩
      "<blockquote>".data
      = ⟨[⟨"blockquote", [], true, false, []⟩], T, .text []⟩ := rfl
  rw [h1]
  have h2 : List.foldl mStep
      (⟨[⟨"blockquote", [], true, false, []⟩], T, .text []⟩ : MState) w.data
      = ⟨[⟨"blockquote", [], true, false, []⟩], T, .text w.data⟩ := by
    have := foldl_text w.data (plain_no_lt w hw)
      [⟨"blockquote", [], true, false, []⟩] T []
    simpa using this
  rw [h2]
  have h3 : List.foldl mStep
      (⟨[⟨"blockquote", [], true, false, []⟩], T, .text w.data⟩ : MState) "</blockquote>".data
      = ⟨[], T ++ [.blockquote (if (groupTopLevel [.text ⟨w.data⟩ []]).isEmpty = true then [.paragraph []] else groupTopLevel [.text ⟨w.data⟩ []])], .text []⟩ := by
    rw [show ("</blockquote>".data : List Char) = '<' :: "/blockquote>".data from rfl,
      List.foldl_cons, mStep_flush _ _ _ (plainText_ne_nil w.data hw)]
    rfl
  have hfr : finishRuns [.text ⟨w.data⟩ []] = [.text w []] :=
    finishRuns_plain w hw
  have hg : groupTopLevel [.text ⟨w.data⟩ []]
      = [.paragraph [.text w []]] := by
    show (match finishRuns [.text ⟨w.data⟩ []] with
      | [] => ([] : List PMNode)
      | r => [.paragraph r]) = _
    rw [hfr]
  rw [h3, hg]
  rfl

/-- The machine materializes the `taskC` block from its html. -/
theorem machine_taskC (w : String) (hw : plainText w.data = true)
    (T : List PMNode) :
    List.foldl mStep ⟨[], T, .text []⟩ (blockHtml (.taskC w)).data
      = ⟨[], T ++ [blockNode (.taskC w)], .text []⟩ := by
  have hpi : processInlineMarkdown ⟨w.data⟩ = w := processInline_plain w hw
  have hform : blockHtml (.taskC w)
      = "<ul data-type=\"taskList\"><li data-type=\"taskItem\" data-checked=\"true\""
        ++ " class=\"task-item-checked\">"
        ++ processInlineMarkdown ⟨w.data⟩ ++ "</li></ul>" := rfl
  rw [hform, hpi]
  have hd : ("<ul data-type=\"taskList\"><li data-type=\"taskItem\" data-checked=\"true\""
        ++ " class=\"task-item-checked\">"
        ++ w ++ "</li></ul>").data
      = "<ul data-type=\"taskList\"><li data-type=\"taskItem\" data-checked=\"true\" class=\"task-item-checked\">".data
        ++ (w.data ++ "</li></ul>".data) := by
    simp only [String.data_append, List.append_assoc]
    rfl
  rw [hd, List.foldl_append, List.foldl_append]
  have h1 : List.foldl mStep ⟨[], T, .text []⟩
      "<ul data-type=\"taskList\"><li data-type=\"taskItem\" data-checked=\"true\" class=\"task-item-checked\">".data
      = ⟨[⟨"li", [("data-type", "taskItem"), ("data-checked", "true"),
          ("class", "task-item-checked")], true, false, []⟩,
        ⟨"ul", [("data-type", "taskList")], true, false, []⟩], T, .text []⟩ := rfl
  rw [h1]
  have h2 : List.foldl mStep
      (⟨[⟨"li", [("data-type", "taskItem"), ("data-checked", "true"),
          ("class", "task-item-checked")], true, false, []⟩,
        ⟨"ul", [("data-type", "taskList")], true, false, []⟩], T, .text []⟩ : MState) w.data
      = ⟨[⟨"li", [("data-type", "taskItem"), ("data-checked", "true"),
          ("class", "task-item-checked")], true, false, []⟩,
        ⟨"ul", [("data-type", "taskList")], true, false, []⟩], T, .text w.data⟩ := by
    have := foldl_text w.data (plain_no_lt w hw)
      [⟨"li", [("data-type", "taskItem"), ("data-checked", "true"),
          ("class", "task-item-checked")], true, false, []⟩,
        ⟨"ul", [("data-type", "taskList")], true, false, []⟩] T []
    simpa using this
  rw [h2]
  have h3 : List.foldl mStep
      (⟨[⟨"li", [("data-type", "taskItem"), ("data-checked", "true"),
          ("class", "task-item-checked")], true, false, []⟩,
        ⟨"ul", [("data-type", "taskList")], true, false, []⟩], T, .text w.data⟩ : MState) "</li></ul>".data
      = ⟨[], T ++ [.task_list [.task_list_item true [.paragraph (finishRuns [.text ⟨w.data⟩ []])]]], .text []⟩ := by
    rw [show ("</li></ul>".data : List Char) = '<' :: "/li></ul>".data from rfl,
      List.foldl_cons, mStep_flush _ _ _ (plainText_ne_nil w.data hw)]
    rfl
  rw [h3, show finishRuns [.text ⟨w.data⟩ []] = [.text w []] from
    finishRuns_plain w hw]
  rfl

/-- The machine materializes the `headingB 1` block from its html. -/
theorem machine_h1 (w : String) (hw : plainText w.data = true)
    (T : List PMNode) :
    List.foldl mStep ⟨[], T, .text []⟩ (blockHtml (.headingB 1 w)).data
      = ⟨[], T ++ [blockNode (.headingB 1 w)], .text []⟩ := by
  have hd : (blockHtml (.headingB 1 w)).data
      = "<h1>".data ++ (w.data ++ "</h1>".data) := by
    simp only [blockHtml, String.data_append, List.append_assoc]
    rfl
  rw [hd, List.foldl_append, List.foldl_append]
  have h1 : List.foldl mStep ⟨[], T, .text []⟩
      "<h1>".data
      = ⟨[⟨"h1", [], true, false, []⟩], T, .text []⟩ := rfl
  rw [h1]
  have h2 : List.foldl mStep
      (⟨[⟨"h1", [], true, false, []⟩], T, .text []⟩ : MState) w.data
      = ⟨[⟨"h1", [], true, false, []⟩], T, .text w.data⟩ := by
    have := foldl_text w.data (plain_no_lt w hw)
      [⟨"h1", [], true, false, []⟩] T []
    simpa using this
  rw [h2]
  have h3 : List.foldl mStep
      (⟨[⟨"h1", [], true, false, []⟩], T, .text w.data⟩ : MState) "</h1>".data
      = ⟨[], T ++ [.heading 1 (finishRuns [.text ⟨w.data⟩ []])], .text []⟩ := by
    rw [show ("</h1>".data : List Char) = '<' :: "/h1>".data from rfl,
      List.foldl_cons, mStep_flush _ _ _ (plainText_ne_nil w.data hw)]
    rfl
  rw [h3, show finishRuns [.text ⟨w.data⟩ []] = [.text w []] from
    finishRuns_plain w hw]
  rfl

/-- The machine materializes the `headingB 2` block from its html. -/
theorem machine_h2 (w : String) (hw : plainText w.data = true)
    (T : List PMNode) :
    List.foldl mStep ⟨[], T, .text []⟩ (blockHtml (.headingB 2 w)).data
      = ⟨[], T ++ [blockNode (.headingB 2 w)], .text []⟩ := by
  have hd : (blockHtml (.headingB 2 w)).data
      = "<h2>".data ++ (w.data ++ "</h2>".data) := by
    simp only [blockHtml, String.data_append, List.append_assoc]
    rfl
  rw [hd, List.foldl_append, List.foldl_append]
  have h1 : List.foldl mStep ⟨[], T, .text []⟩
      "<h2>".data
      = ⟨[⟨"h2", [], true, false, []⟩], T, .text []⟩ := rfl
  rw [h1]
  have h2 : List.foldl mStep
      (⟨[⟨"h2", [], true, false, []⟩], T, .text []⟩ : MState) w.data
      = ⟨[⟨"h2", [], true, false, []⟩], T, .text w.data⟩ := by
    have := foldl_text w.data (plain_no_lt w hw)
      [⟨"h2", [], true, false, []⟩] T []
    simpa using this
  rw [h2]
  have h3 : List.foldl mStep
      (⟨[⟨"h2", [], true, false, []⟩], T, .text w.data⟩ : MState) "</h2>".data
      = ⟨[], T ++ [.heading 2 (finishRuns [.text ⟨w.data⟩ []])], .text []⟩ := by
    rw [show ("</h2>".data : List Char) = '<' :: "/h2>".data from rfl,
      List.foldl_cons, mStep_flush _ _ _ (plainText_ne_nil w.data hw)]
    rfl
  rw [h3, show finishRuns [.text ⟨w.data⟩ []] = [.text w []] from
    finishRuns_plain w hw]
  rfl

/-- The machine materializes the `headingB 3` block from its html. -/
theorem machine_h3 (w : String) (hw : plainText w.data = true)
    (T : List PMNode) :
    List.foldl mStep ⟨[], T, .text []⟩ (blockHtml (.headingB 3 w)).data
      = ⟨[], T ++ [blockNode (.headingB 3 w)], .text []⟩ := by
  have hd : (blockHtml (.headingB 3 w)).data
      = "<h3>".data ++ (w.data ++ "</h3>".data) := by
    simp only [blockHtml, String.data_append, List.append_assoc]
    rfl
  rw [hd, List.foldl_append, List.foldl_append]
  have h1 : List.foldl mStep ⟨[], T, .text []⟩
      "<h3>".data
      = ⟨[⟨"h3", [], true, false, []⟩], T, .text []⟩ := rfl
  rw [h1]
  have h2 : List.foldl mStep
      (⟨[⟨"h3", [], true, false, []⟩], T, .text []⟩ : MState) w.data
      = ⟨[⟨"h3", [], true, false, []⟩], T, .text w.data⟩ := by
    have := foldl_text w.data (plain_no_lt w hw)
      [⟨"h3", [], true, false, []⟩] T []
    simpa using this
  rw [h2]
  have h3 : List.foldl mStep
      (⟨[⟨"h3", [], true, false, []⟩], T, .text w.data⟩ : MState) "</h3>".data
      = ⟨[], T ++ [.heading 3 (finishRuns [.text ⟨w.data⟩ []])], .text []⟩ := by
    rw [show ("</h3>".data : List Char) = '<' :: "/h3>".data from rfl,
      List.foldl_cons, mStep_flush _ _ _ (plainText_ne_nil w.data hw)]
    rfl
  rw [h3, show finishRuns [.text ⟨w.data⟩ []] = [.text w []] from
    finishRuns_plain w hw]
  rfl

/-- The machine materializes the `headingB 4` block from its html. -/
theorem machine_h4 (w : String) (hw : plainText w.data = true)
    (T : List PMNode) :
    List.foldl mStep ⟨[], T, .text []⟩ (blockHtml (.headingB 4 w)).data
      = ⟨[], T ++ [blockNode (.headingB 4 w)], .text []⟩ := by
  have hd : (blockHtml (.headingB 4 w)).data
      = "<h4>".data ++ (w.data ++ "</h4>".data) := by
    simp only [blockHtml, String.data_append, List.append_assoc]
    rfl
  rw [hd, List.foldl_append, List.foldl_append]
  have h1 : List.foldl mStep ⟨[], T, .text []⟩
      "<h4>".data
      = ⟨[⟨"h4", [], true, false, []⟩], T, .text []⟩ := rfl
  rw [h1]
  have h2 : List.foldl mStep
      (⟨[⟨"h4", [], true, false, []⟩], T, .text []⟩ : MState) w.data
      = ⟨[⟨"h4", [], true, false, []⟩], T, .text w.data⟩ := by
    have := foldl_text w.data (plain_no_lt w hw)
      [⟨"h4", [], true, false, []⟩] T []
    simpa using this
  rw [h2]
  have h3 : List.foldl mStep
      (⟨[⟨"h4", [], true, false, []⟩], T, .text w.data⟩ : MState) "</h4>".data
      = ⟨[], T ++ [.heading 4 (finishRuns [.text ⟨w.data⟩ []])], .text []⟩ := by
    rw [show ("</h4>".data : List Char) = '<' :: "/h4>".data from rfl,
      List.foldl_cons, mStep_flush _ _ _ (plainText_ne_nil w.data hw)]
    rfl
  rw [h3, show finishRuns [.text ⟨w.data⟩ []] = [.text w []] from
    finishRuns_plain w hw]
  rfl

/-- The machine materializes the `headingB 5` block from its html. -/
theorem machine_h5 (w : String) (hw : plainText w.data = true)
    (T : List PMNode) :
    List.foldl mStep ⟨[], T, .text []⟩ (blockHtml (.headingB 5 w)).data
      = ⟨[], T ++ [blockNode (.headingB 5 w)], .text []⟩ := by
  have hd : (blockHtml (.headingB 5 w)).data
      = "<h5>".data ++ (w.data ++ "</h5>".data) := by
    simp only [blockHtml, String.data_append, List.append_assoc]
    rfl
  rw [hd, List.foldl_append, List.foldl_append]
  have h1 : List.foldl mStep ⟨[], T, .text []⟩
      "<h5>".data
      = ⟨[⟨"h5", [], true, false, []⟩], T, .text []⟩ := rfl
  rw [h1]
  have h2 : List.foldl mStep
      (⟨[⟨"h5", [], true, false, []⟩], T, .text []⟩ : MState) w.data
      = ⟨[⟨"h5", [], true, false, []⟩], T, .text w.data⟩ := by
    have := foldl_text w.data (plain_no_lt w hw)
      [⟨"h5", [], true, false, []⟩] T []
    simpa using this
  rw [h2]
  have h3 : List.foldl mStep
      (⟨[⟨"h5", [], true, false, []⟩], T, .text w.data⟩ : MState) "</h5>".data
      = ⟨[], T ++ [.heading 5 (finishRuns [.text ⟨w.data⟩ []])], .text []⟩ := by
    rw [show ("</h5>".data : List Char) = '<' :: "/h5>".data from rfl,
      List.foldl_cons, mStep_flush _ _ _ (plainText_ne_nil w.data hw)]
    rfl
  rw [h3, show finishRuns [.text ⟨w.data⟩ []] = [.text w []] from
    finishRuns_plain w hw]
  rfl

/-- The machine materializes the `headingB 6` block from its html. -/
theorem machine_h6 (w : String) (hw : plainText w.data = true)
    (T : List PMNode) :
    List.foldl mStep ⟨[], T, .text []⟩ (blockHtml (.headingB 6 w)).data
      = ⟨[], T ++ [blockNode (.headingB 6 w)], .text []⟩ := by
  have hd : (blockHtml (.headingB 6 w)).data
      = "<h6>".data ++ (w.data ++ "</h6>".data) := by
    simp only [blockHtml, String.data_append, List.append_assoc]
    rfl
  rw [hd, List.foldl_append, List.foldl_append]
  have h1 : List.foldl mStep ⟨[], T, .text []⟩
      "<h6>".data
      = ⟨[⟨"h6", [], true, false, []⟩], T, .text []⟩ := rfl
  rw [h1]
  have h2 : List.foldl mStep
      (⟨[⟨"h6", [], true, false, []⟩], T, .text []⟩ : MState) w.data
      = ⟨[⟨"h6", [], true, false, []⟩], T, .text w.data⟩ := by
    have := foldl_text w.data (plain_no_lt w hw)
      [⟨"h6", [], true, false, []⟩] T []
    simpa using this
  rw [h2]
  have h3 : List.foldl mStep
      (⟨[⟨"h6", [], true, false, []⟩], T, .text w.data⟩ : MState) "</h6>".data
      = ⟨[], T ++ [.heading 6 (finishRuns [.text ⟨w.data⟩ []])], .text []⟩ := by
    rw [show ("</h6>".data : List Char) = '<' :: "/h6>".data from rfl,
      List.foldl_cons, mStep_flush _ _ _ (plainText_ne_nil w.data hw)]
    rfl
  rw [h3, show finishRuns [.text ⟨w.data⟩ []] = [.text w []] from
    finishRuns_plain w hw]
  rfl

/-! ### The machine on a fence's html -/

/-- The machine materializes a code block from the fence html. -/
theorem machine_fence (lang : String) (code : List String)
    (hl : lang.data.all plainChar = true)
    (hc : code.all codeLineOk = true) (T : List PMNode) :
    List.foldl mStep ⟨[], T, .text []⟩ (blockHtml (.fenceB lang code)).data
      = ⟨[], T ++ [blockNode (.fenceB lang code)], .text []⟩ := by
  have hnolt : ∀ c ∈ (joinNL code).data, c ≠ '<' := by
    refine joinNL_no_lt code ?_
    intro l hl2 c hcm
    have := List.all_eq_true.mp (List.all_eq_true.mp hc l hl2) c hcm
    simp only [Bool.and_eq_true, decide_eq_true_eq] at this
    exact this.1.1
  by_cases hle : lang = ""
  · subst hle
    have hd : (blockHtml (.fenceB "" code)).data
        = "<pre><code>".data
          ++ ((joinNL code).data ++ "</code></pre>".data) := by
      show (fenceHtml "" code).data = _
      simp only [fenceHtml]
      rw [if_neg (by simp)]
      show ("<pre" ++ "" ++ "><code>" ++ joinNL code ++ "</code></pre>").data = _
      simp only [String.data_append, List.append_assoc]
      rfl
    rw [hd, List.foldl_append, List.foldl_append]
    have h1 : List.foldl mStep ⟨[], T, .text []⟩ "<pre><code>".data
        = ⟨[⟨"code", [], true, false, []⟩, ⟨"pre", [], true, false, []⟩],
            T, .text []⟩ := rfl
    rw [h1]
    have h2 : List.foldl mStep
        (⟨[⟨"code", [], true, false, []⟩, ⟨"pre", [], true, false, []⟩],
            T, .text []⟩ : MState) (joinNL code).data
        = ⟨[⟨"code", [], true, false, []⟩, ⟨"pre", [], true, false, []⟩],
            T, .text (joinNL code).data⟩ := by
      have := foldl_text (joinNL code).data hnolt
        [⟨"code", [], true, false, []⟩, ⟨"pre", [], true, false, []⟩] T []
      simpa using this
    rw [h2]
    by_cases hjc : (joinNL code).data = []
    · rw [hjc]
      have h3 : List.foldl mStep
          (⟨[⟨"code", [], true, false, []⟩, ⟨"pre", [], true, false, []⟩],
              T, .text []⟩ : MState) "</code></pre>".data
          = ⟨[], T ++ [.code_block "" []], .text []⟩ := rfl
      rw [h3]
      have hjs : joinNL code = "" := congrArg String.mk hjc
      rw [show blockNode (.fenceB "" code) = .code_block "" [] from by
        simp only [blockNode]
        rw [if_pos hjs]]
    · have h3 : List.foldl mStep
          (⟨[⟨"code", [], true, false, []⟩, ⟨"pre", [], true, false, []⟩],
              T, .text (joinNL code).data⟩ : MState) "</code></pre>".data
          = ⟨[], T ++ [.code_block ""
              (if (⟨(joinNL code).data⟩ ++ "" : String) = "" then []
               else [.text (⟨(joinNL code).data⟩ ++ "") []])], .text []⟩ := by
        rw [show ("</code></pre>".data : List Char)
            = '<' :: "/code></pre>".data from rfl,
          List.foldl_cons, mStep_flush _ _ _ hjc]
        rfl
      rw [h3]
      have hraw : (⟨(joinNL code).data⟩ ++ "" : String) = joinNL code := by
        show joinNL code ++ "" = joinNL code
        simp
      rw [hraw]
      have hjs : ¬(joinNL code = "") := by
        intro he
        rw [he] at hjc
        exact hjc rfl
      rw [if_neg hjs]
      rw [show blockNode (.fenceB "" code)
          = .code_block "" [.text (joinNL code) []] from by
        simp only [blockNode]
        rw [if_neg hjs]]
  · have hq : ∀ c ∈ lang.data, c ≠ '"' := by
      intro c hcm he
      have := List.all_eq_true.mp hl c hcm
      rw [he] at this
      exact absurd this (by decide)
    have hgt : ∀ c ∈ lang.data, c ≠ '>' := by
      intro c hcm he
      have := List.all_eq_true.mp hl c hcm
      rw [he] at this
      exact absurd this (by decide)
    have hd : (blockHtml (.fenceB lang code)).data
        = "<pre data-language=\"".data ++ (lang.data ++ ("\"><code>".data
            ++ ((joinNL code).data ++ "</code></pre>".data))) := by
      show (fenceHtml lang code).data = _
      simp only [fenceHtml]
      rw [if_pos hle]
      simp only [String.data_append, List.append_assoc]
      rfl
    rw [hd, List.foldl_append, List.foldl_append, List.foldl_append,
      List.foldl_append]
    have h1 : List.foldl mStep ⟨[], T, .text []⟩ "<pre data-language=\"".data
        = ⟨[], T, .tag "pre data-language=\"".data⟩ := rfl
    rw [h1]
    have h2 : List.foldl mStep
        (⟨[], T, .tag "pre data-language=\"".data⟩ : MState) lang.data
        = ⟨[], T, .tag ("pre data-language=\"".data ++ lang.data)⟩ :=
      foldl_tag lang.data hgt [] T "pre data-language=\"".data (by decide)
    rw [h2]
    have hacc1 : ("pre data-language=\"".data ++ lang.data) ≠ [] := by
      rw [show "pre data-language=\"".data
          = 'p' :: "re data-language=\"".data from rfl]
      simp
    have hacc2 : ("pre data-language=\"".data ++ (lang.data ++ ['"'])) ≠ [] := by
      rw [show "pre data-language=\"".data
          = 'p' :: "re data-language=\"".data from rfl]
      simp
    have hstep1 : mStep
        (⟨[], T, .tag ("pre data-language=\"".data ++ lang.data)⟩ : MState) '"'
        = ⟨[], T, .tag ("pre data-language=\"".data ++ (lang.data ++ ['"']))⟩ := by
      simp [mStep, hacc1, List.append_assoc]
    have hstep2 : mStep
        (⟨[], T, .tag ("pre data-language=\"".data ++ (lang.data ++ ['"']))⟩ :
          MState) '>'
        = ⟨[⟨"pre", [("data-language", lang)], true, false, []⟩],
            T, .text []⟩ := by
      simp only [mStep]
      rw [if_neg hacc2, parseTagContent_pre lang hq]
      rfl
    have h3 : List.foldl mStep
        (⟨[], T, .tag ("pre data-language=\"".data ++ lang.data)⟩ : MState)
        "\"><code>".data
        = ⟨[⟨"code", [], true, false, []⟩,
            ⟨"pre", [("data-language", lang)], true, false, []⟩],
            T, .text []⟩ := by
      rw [show ("\"><code>".data : List Char)
          = '"' :: '>' :: "<code>".data from rfl,
        List.foldl_cons, hstep1, List.foldl_cons, hstep2]
      rfl
    rw [h3]
    have h4 : List.foldl mStep
        (⟨[⟨"code", [], true, false, []⟩,
            ⟨"pre", [("data-language", lang)], true, false, []⟩],
            T, .text []⟩ : MState) (joinNL code).data
        = ⟨[⟨"code", [], true, false, []⟩,
            ⟨"pre", [("data-language", lang)], true, false, []⟩],
            T, .text (joinNL code).data⟩ := by
      have := foldl_text (joinNL code).data hnolt
        [⟨"code", [], true, false, []⟩,
          ⟨"pre", [("data-language", lang)], true, false, []⟩] T []
      simpa using this
    rw [h4]
    by_cases hjc : (joinNL code).data = []
    · rw [hjc]
      have h5 : List.foldl mStep
          (⟨[⟨"code", [], true, false, []⟩,
              ⟨"pre", [("data-language", lang)], true, false, []⟩],
              T, .text []⟩ : MState) "</code></pre>".data
          = ⟨[], T ++ [.code_block lang []], .text []⟩ := rfl
      rw [h5]
      have hjs : joinNL code = "" := congrArg String.mk hjc
      rw [show blockNode (.fenceB lang code) = .code_block lang [] from by
        simp only [blockNode]
        rw [if_pos hjs]]
    · have h5 : List.foldl mStep
          (⟨[⟨"code", [], true, false, []⟩,
              ⟨"pre", [("data-language", lang)], true, false, []⟩],
              T, .text (joinNL code).data⟩ : MState) "</code></pre>".data
          = ⟨[], T ++ [.code_block lang
              (if (⟨(joinNL code).data⟩ ++ "" : String) = "" then []
               else [.text (⟨(joinNL code).data⟩ ++ "") []])], .text []⟩ := by
        rw [show ("</code></pre>".data : List Char)
            = '<' :: "/code></pre>".data from rfl,
          List.foldl_cons, mStep_flush _ _ _ hjc]
        rfl
      rw [h5]
      have hraw : (⟨(joinNL code).data⟩ ++ "" : String) = joinNL code := by
        show joinNL code ++ "" = joinNL code
        simp
      rw [hraw]
      have hjs : ¬(joinNL code = "") := by
        intro he
        rw [he] at hjc
        exact hjc rfl
      rw [if_neg hjs]
      rw [show blockNode (.fenceB lang code)
          = .code_block lang [.text (joinNL code) []] from by
        simp only [blockNode]
        rw [if_neg hjs]]

/-- The machine on any plain block's html. -/
theorem machine_block (b : PlainBlock) (hb : blockOk b = true)
    (T : List PMNode) :
    List.foldl mStep ⟨[], T, .text []⟩ (blockHtml b).data
      = ⟨[], T ++ [blockNode b], .text []⟩ := by
  cases b with
  | blank => exact machine_blank T
  | hrB => exact machine_hr T
  | paraB w => exact machine_para w hb T
  | bulletB w => exact machine_bullet w hb T
  | orderedB w => exact machine_ordered w hb T
  | quoteB w => exact machine_quote w hb T
  | taskU w => exact machine_taskU w hb T
  | taskC w => exact machine_taskC w hb T
  | headingB k w =>
    simp only [blockOk, Bool.and_eq_true, decide_eq_true_eq] at hb
    obtain ⟨⟨hk1, hk2⟩, hw⟩ := hb
    interval_cases k
    · exact machine_h1 w hw T
    · exact machine_h2 w hw T
    · exact machine_h3 w hw T
    · exact machine_h4 w hw T
    · exact machine_h5 w hw T
    · exact machine_h6 w hw T
  | fenceB lang code =>
    simp only [blockOk, Bool.and_eq_true] at hb
    exact machine_fence lang code hb.1.1 hb.2 T

/-! ### Parsing a plain document -/

/-- Every block renders at least one line. -/
theorem renderBlock_ne_nil (b : PlainBlock) : renderBlock b ≠ [] := by
  cases b <;> simp [renderBlock]

/-- No rendered line contains a newline. -/
theorem renderBlock_no_nl (b : PlainBlock) (hb : blockOk b = true) :
    ∀ l ∈ renderBlock b, ∀ c ∈ l.data, c ≠ '\n' := by
  have hplain : ∀ (w : String), plainText w.data = true →
      ∀ c ∈ w.data, c ≠ '\n' := by
    intro w hw
    exact plainText_avoid w.data hw '\n' (by decide) (by decide)
  have hpre : ∀ (pre : List Char), (∀ c ∈ pre, c ≠ '\n') →
      ∀ (w : String), plainText w.data = true →
      ∀ c ∈ pre ++ w.data, c ≠ '\n' := by
    intro pre hp w hw c hc
    rcases List.mem_append.mp hc with h1 | h2
    · exact hp c h1
    · exact hplain w hw c h2
  cases b with
  | blank =>
    intro l hl c hc
    rcases List.mem_singleton.mp hl with rfl
    simp at hc
  | hrB =>
    intro l hl c hc
    rcases List.mem_singleton.mp hl with rfl
    have : c ∈ ("---" : String).data := hc
    fin_cases this <;> decide
  | headingB k w =>
    simp only [blockOk, Bool.and_eq_true, decide_eq_true_eq] at hb
    intro l hl c hc
    rcases List.mem_singleton.mp hl with rfl
    have hdc : (hashes k ++ " " ++ w).data
        = (List.replicate k '#' ++ [' ']) ++ w.data := by
      show (List.replicate k '#' ++ [' ']) ++ w.data = _
      rfl
    rw [hdc] at hc
    refine hpre _ ?_ w hb.2 c hc
    intro x hx
    rcases List.mem_append.mp hx with h1 | h2
    · rw [List.eq_of_mem_replicate h1]
      decide
    · rcases List.mem_singleton.mp h2 with rfl
      decide
  | taskU w =>
    intro l hl c hc
    rcases List.mem_singleton.mp hl with rfl
    exact hpre ['-', ' ', '[', ' ', ']', ' '] (by decide) w hb c hc
  | taskC w =>
    intro l hl c hc
    rcases List.mem_singleton.mp hl with rfl
    exact hpre ['-', ' ', '[', 'x', ']', ' '] (by decide) w hb c hc
  | orderedB w =>
    intro l hl c hc
    rcases List.mem_singleton.mp hl with rfl
    exact hpre ['1', '.', ' '] (by decide) w hb c hc
  | bulletB w =>
    intro l hl c hc
    rcases List.mem_singleton.mp hl with rfl
    exact hpre ['-', ' '] (by decide) w hb c hc
  | quoteB w =>
    intro l hl c hc
    rcases List.mem_singleton.mp hl with rfl
    exact hpre ['>', ' '] (by decide) w hb c hc
  | paraB w =>
    intro l hl c hc
    rcases List.mem_singleton.mp hl with rfl
    exact hplain l hb c hc
  | fenceB lang code =>
    simp only [blockOk, Bool.and_eq_true] at hb
    intro l hl c hc
    rcases List.mem_cons.mp hl with rfl | hl2
    · have hd2 : (("```" : String) ++ lang).data = "```".data ++ lang.data := rfl
      rw [hd2] at hc
      rcases List.mem_append.mp hc with h1 | h2
      · fin_cases h1 <;> decide
      · intro he
        have := List.all_eq_true.mp hb.1.1 c h2
        rw [he] at this
        exact absurd this (by decide)
    · rcases List.mem_append.mp hl2 with h3 | h4
      · have := List.all_eq_true.mp hb.2 l h3
        have h5 := List.all_eq_true.mp this c hc
        simp only [Bool.and_eq_true, decide_eq_true_eq] at h5
        exact h5.1.2
      · rcases List.mem_singleton.mp h4 with rfl
        fin_cases hc <;> decide

/-- The nodes the machine leaves for the document builder. -/
theorem machine_blocks :
    ∀ bs : List PlainBlock, bs.all blockOk = true → ∀ T : List PMNode,
      List.foldl mStep ⟨[], T, .text []⟩
        (buildHtmlLines (bs.flatMap renderBlock)).data
        = ⟨[], T ++ bs.map blockNode, .text []⟩ := by
  intro bs
  induction bs with
  | nil =>
    intro _ T
    simp [buildHtmlLines]
  | cons b rest ih =>
    intro h T
    simp only [List.all_cons, Bool.and_eq_true] at h
    rw [show (b :: rest).flatMap renderBlock
        = renderBlock b ++ rest.flatMap renderBlock from rfl,
      build_block b h.1 (rest.flatMap renderBlock),
      show (blockHtml b ++ buildHtmlLines (rest.flatMap renderBlock)).data
        = (blockHtml b).data
          ++ (buildHtmlLines (rest.flatMap renderBlock)).data from rfl,
      List.foldl_append, machine_block b h.1 T,
      ih h.2 (T ++ [blockNode b])]
    simp

/-- Block nodes are not text runs. -/
theorem blockNode_not_text (b : PlainBlock) :
    isTextNode (blockNode b) = false := by
  cases b <;> rfl

/-- Grouping leaves a list of block nodes untouched. -/
theorem groupTopLevel_map_blockNode :
    ∀ bs : List PlainBlock,
      groupTopLevel (bs.map blockNode) = bs.map blockNode := by
  intro bs
  induction bs with
  | nil => rfl
  | cons b rest ih =>
    cases b <;> exact congrArg (List.cons _) ih

/-- Parsing a nonempty plain document yields exactly its block nodes. -/
theorem parse_plain (bs : List PlainBlock) (h : bs.all blockOk = true)
    (hne : renderDoc bs ≠ "") :
    parseMarkdown (renderDoc bs) = .doc (bs.map blockNode) := by
  rw [parseMarkdown, if_neg hne]
  have hlines : splitNL (renderDoc bs) = bs.flatMap renderBlock := by
    refine splitNL_joinNL _ ?_ ?_
    · intro he
      cases bs with
      | nil => exact hne rfl
      | cons b rest =>
        rw [show (b :: rest).flatMap renderBlock
            = renderBlock b ++ rest.flatMap renderBlock from rfl] at he
        rcases List.append_eq_nil.mp he with ⟨h1, _⟩
        exact renderBlock_ne_nil b h1
    · intro l hl c hc
      rcases List.mem_flatMap.mp hl with ⟨b, hb1, hb2⟩
      exact renderBlock_no_nl b (List.all_eq_true.mp h b hb1) l hb2 c hc
  rw [hlines]
  show machineFinish
    ((buildHtmlLines (bs.flatMap renderBlock)).data.foldl mStep mInit) = _
  rw [show (buildHtmlLines (bs.flatMap renderBlock)).data.foldl mStep mInit
      = ⟨[], [] ++ bs.map blockNode, .text []⟩ from machine_blocks bs h []]
  show PMNode.doc
      (if (groupTopLevel ([] ++ bs.map blockNode)).isEmpty
       then [PMNode.paragraph []]
       else groupTopLevel ([] ++ bs.map blockNode)) = _
  rw [List.nil_append, groupTopLevel_map_blockNode]
  cases bs with
  | nil => exact absurd rfl hne
  | cons b rest => rfl

/-! ### Serializing the plain block nodes -/

/-- The serializer loop over a whole document, as a newline join (shared
with the C8 analysis). -/
theorem serializeDoc_joinNL (children : List PMNode) :
    serializeToMarkdown (.doc children)
      = joinNL (children.map serializeNode) := by
  show serializeChildren children true = _
  cases children with
  | nil => rfl
  | cons n rest =>
    rw [serializeChildren_cons, serializeChildren_false_eq, List.map_cons,
      joinNL_eq_foldr]
    simp

/-- Rendering a single unmarked text child. -/
theorem childrenText_single (w : String) : childrenText [.text w []] = w := by
  show w ++ "" = w
  simp

/-- Inline text of a one-run paragraph. -/
theorem nodeToText_para (w : String) :
    nodeToText (.paragraph [.text w []]) = w :=
  childrenText_single w

/-- The accumulated item text of a one-paragraph list item. -/
theorem itemText_single (w : String) :
    listItemText (.list_item [.paragraph [.text w []]]) = w := by
  show nodeToText (.paragraph [.text w []]) ++ "" = w
  rw [nodeToText_para]
  simp

/-- The accumulated item text of a one-paragraph task item. -/
theorem taskText_single (w : String) :
    taskItemChildrenText [.paragraph [.text w []]] = w := by
  show nodeToText (.paragraph [.text w []]) ++ "" = w
  rw [nodeToText_para]
  simp

/-- A plain word is not the empty string. -/
theorem plain_ne_empty (w : String) (hw : plainText w.data = true) :
    ¬(w = "") := by
  intro he
  rw [he] at hw
  exact absurd hw (by decide)

/-- Trimming the end after the serializer's item newline. -/
theorem jsTrimEnd_item (pre : String) (w : String)
    (hw : plainText w.data = true) (s : String)
    (hs : s.data = (pre.data ++ w.data) ++ ['\n']) :
    jsTrimEnd s = pre ++ w := by
  show String.mk (trimEndChars s.data) = pre ++ w
  rw [hs, trimEnd_append_nl _ (by
    intro c hcg
    rw [getLast_append_ne _ _ (plainText_ne_nil w.data hw)] at hcg
    exact plainCore_getLast w.data (plainText_core w.data hw) c hcg)]
  rfl

/-- One block node serializes back to its source lines. -/
theorem serialize_block (b : PlainBlock) (hb : blockOk b = true) :
    serializeNode (blockNode b) = joinNL (renderBlock b) := by
  cases b with
  | blank => rfl
  | hrB => rfl
  | headingB k w =>
    simp only [blockOk, Bool.and_eq_true, decide_eq_true_eq] at hb
    show hashes k ++ " " ++ nodeToText (.heading k [.text w []]) = _
    rw [show nodeToText (.heading k [.text w []]) = w from
      childrenText_single w]
    rfl
  | paraB w =>
    show nodeToText (.paragraph [.text w []]) = _
    rw [nodeToText_para]
    rfl
  | quoteB w =>
    show "> " ++ nodeToText (.blockquote [.paragraph [.text w []]]) = _
    rw [show nodeToText (.blockquote [.paragraph [.text w []]]) = w from by
      show nodeToText (.paragraph [.text w []]) ++ "" = w
      rw [nodeToText_para]
      simp]
    rfl
  | fenceB lang code =>
    simp only [blockOk, Bool.and_eq_true] at hb
    obtain ⟨c0, code2, rfl⟩ : ∃ c0 code2, code = c0 :: code2 := by
      cases hcc : code with
      | nil => rw [hcc] at hb; simp at hb
      | cons c0 code2 => exact ⟨c0, code2, rfl⟩
    have htc : textContent (.code_block lang
        (if joinNL (c0 :: code2) = "" then []
         else [.text (joinNL (c0 :: code2)) []])) = joinNL (c0 :: code2) := by
      by_cases hj : joinNL (c0 :: code2) = ""
      · rw [if_pos hj, hj]
        rfl
      · rw [if_neg hj]
        show joinNL (c0 :: code2) ++ "" = _
        simp
    show "```" ++ lang ++ "\n" ++ textContent (.code_block lang
      (if joinNL (c0 :: code2) = "" then []
       else [.text (joinNL (c0 :: code2)) []])) ++ "\n```" = _
    rw [htc]
    have hrhs : joinNL (("```" ++ lang) :: (c0 :: code2 ++ ["```"]))
        = ("```" ++ lang) ++ "\n" ++ (joinNL (c0 :: code2) ++ "\n" ++ "```") := by
      show ("```" ++ lang) ++ "\n" ++ joinNL (c0 :: code2 ++ ["```"]) = _
      rw [show (c0 :: code2 ++ ["```"] : List String)
          = (c0 :: code2) ++ ["```"] from rfl,
        joinNL_append (c0 :: code2) ["```"] (by simp) (by simp)]
      rfl
    rw [show renderBlock (.fenceB lang (c0 :: code2))
        = ("```" ++ lang) :: (c0 :: code2 ++ ["```"]) from rfl, hrhs]
    simp only [String.append_assoc]
    rfl
  | bulletB w =>
    have hjt : jsTrim (listItemText (.list_item [.paragraph [.text w []]]))
        = w := by
      rw [itemText_single]
      exact jsTrim_plain w hb
    have e1 : serializeListItems "-" 1 [.list_item [.paragraph [.text w []]]]
        = "-" ++ " " ++ w ++ "\n" ++ "" := by
      simp only [serializeListItems, hjt]
      rw [if_pos (plain_ne_empty w hb)]
      rfl
    show serializeList [.list_item [.paragraph [.text w []]]] "-" none = _
    show jsTrimEnd (serializeListItems "-" 1
      [.list_item [.paragraph [.text w []]]]) = _
    rw [e1, jsTrimEnd_item "- " w hb _ (by
      simp only [String.data_append, List.append_nil, List.append_assoc]
      rfl)]
    rfl
  | orderedB w =>
    have hjt : jsTrim (listItemText (.list_item [.paragraph [.text w []]]))
        = w := by
      rw [itemText_single]
      exact jsTrim_plain w hb
    have e1 : serializeListItems "1." 1 [.list_item [.paragraph [.text w []]]]
        = toString 1 ++ "." ++ " " ++ w ++ "\n" ++ "" := by
      simp only [serializeListItems, hjt]
      rw [if_pos (plain_ne_empty w hb)]
      rfl
    show serializeList [.list_item [.paragraph [.text w []]]] "1."
      (some (if (1 : Nat) = 0 then 1 else 1)) = _
    show jsTrimEnd (serializeListItems "1." 1
      [.list_item [.paragraph [.text w []]]]) = _
    rw [e1, jsTrimEnd_item "1. " w hb _ (by
      simp only [String.data_append, List.append_nil, List.append_assoc]
      rfl)]
    rfl
  | taskU w =>
    have hjt : jsTrim (taskItemChildrenText [.paragraph [.text w []]])
        = w := by
      rw [taskText_single]
      exact jsTrim_plain w hb
    have e1 : serializeTaskListItems
        [.task_list_item false [.paragraph [.text w []]]]
        = "- " ++ "[ ]" ++ " " ++ w ++ "\n" ++ "" := by
      simp only [serializeTaskListItems, hjt]
      rw [if_pos (plain_ne_empty w hb)]
      rfl
    show serializeTaskList [.task_list_item false [.paragraph [.text w []]]]
      = _
    show jsTrimEnd (serializeTaskListItems
      [.task_list_item false [.paragraph [.text w []]]]) = _
    rw [e1, jsTrimEnd_item "- [ ] " w hb _ (by
      simp only [String.data_append, List.append_nil, List.append_assoc]
      rfl)]
    rfl
  | taskC w =>
    have hjt : jsTrim (taskItemChildrenText [.paragraph [.text w []]])
        = w := by
      rw [taskText_single]
      exact jsTrim_plain w hb
    have e1 : serializeTaskListItems
        [.task_list_item true [.paragraph [.text w []]]]
        = "- " ++ "[x]" ++ " " ++ w ++ "\n" ++ "" := by
      simp only [serializeTaskListItems, hjt]
      rw [if_pos (plain_ne_empty w hb)]
      rfl
    show serializeTaskList [.task_list_item true [.paragraph [.text w []]]]
      = _
    show jsTrimEnd (serializeTaskListItems
      [.task_list_item true [.paragraph [.text w []]]]) = _
    rw [e1, jsTrimEnd_item "- [x] " w hb _ (by
      simp only [String.data_append, List.append_nil, List.append_assoc]
      rfl)]
    rfl

/-- Serializing the parsed plain nodes reproduces the source. -/
theorem serialize_blocks :
    ∀ bs : List PlainBlock, bs.all blockOk = true →
      serializeToMarkdown (.doc (bs.map blockNode)) = renderDoc bs := by
  intro bs
  induction bs with
  | nil => intro _; rfl
  | cons b rest ih =>
    intro h
    simp only [List.all_cons, Bool.and_eq_true] at h
    rw [serializeDoc_joinNL] at ih ⊢
    cases rest with
    | nil =>
      show joinNL [serializeNode (blockNode b)] = _
      rw [show joinNL [serializeNode (blockNode b)]
          = serializeNode (blockNode b) from rfl, serialize_block b h.1]
      show _ = joinNL (renderBlock b ++ [])
      rw [List.append_nil]
    | cons b2 rest2 =>
      have hjcons : joinNL (List.map serializeNode
            (List.map blockNode (b :: b2 :: rest2)))
          = serializeNode (blockNode b) ++ "\n"
            ++ joinNL (List.map serializeNode
              (List.map blockNode (b2 :: rest2))) := rfl
      rw [hjcons, serialize_block b h.1, ih h.2]
      show _ = joinNL (renderBlock b ++ (b2 :: rest2).flatMap renderBlock)
      rw [joinNL_append (renderBlock b) ((b2 :: rest2).flatMap renderBlock)
        (renderBlock_ne_nil b)
        (by
          rw [show ((b2 :: rest2).flatMap renderBlock : List String)
              = renderBlock b2 ++ rest2.flatMap renderBlock from rfl]
          intro he
          rcases List.append_eq_nil.mp he with ⟨h1, _⟩
          exact renderBlock_ne_nil b2 h1)]
      rfl

/-- Serialization inverts parsing on plain documents. -/
theorem roundtrip_plain (bs : List PlainBlock) (h : bs.all blockOk = true) :
    serializeToMarkdown (parseMarkdown (renderDoc bs)) = renderDoc bs := by
  by_cases hre : renderDoc bs = ""
  · rw [hre]
    rfl
  · rw [parse_plain bs h hre]
    exact serialize_blocks bs h

/-- C1 counterexample: the round trip is not exact for all
parser-producible trees.  Parsing `*a**b**c*` yields a paragraph whose
serialization `*a****b****c*` reparses as plain `*abc*` (the `**`
delimiters of the serialized nested emphasis are swallowed as empty
strong pairs), so serialize-parse-serialize differs from serialize on
the tree parsed from `*a**b**c*`. -/
theorem C1_roundtrip_counterexample :
    serializeToMarkdown (parseMarkdown "*a**b**c*") = "*a****b****c*" ∧
      serializeToMarkdown (parseMarkdown "*a****b****c*") = "*abc*" ∧
      serializeToMarkdown (parseMarkdown (serializeToMarkdown
          (parseMarkdown "*a**b**c*")))
        ≠ serializeToMarkdown (parseMarkdown "*a**b**c*") := by
  refine ⟨by decide, by decide, by decide⟩

/-- C1 amended: on documents parsed from the plain fragment (blank
lines, headings, fenced code with alphanumeric info strings, task
items, `1.`-numbered ordered items, `-` bullets, blockquotes, `---`
rules and paragraphs over single-spaced alphanumeric words),
serialization is an exact inverse of parsing, so the
serialize-parse-serialize round trip is the identity on such trees;
outside the fragment the round trip can differ (see the
counterexample). -/
theorem C1_roundtrip_amended (D : PMNode) (bs : List PlainBlock)
    (hbs : bs.all blockOk = true)
    (hD : D = parseMarkdown (renderDoc bs)) :
    serializeToMarkdown (parseMarkdown (serializeToMarkdown D))
      = serializeToMarkdown D := by
  subst hD
  have hfix := roundtrip_plain bs hbs
  rw [hfix]
  exact hfix

/-- C1 witness: the amended round trip at a concrete plain document
exercising every block form. -/
theorem C1_roundtrip_amended_witness :
    ([.headingB 2 "Title", .blank, .bulletB "item one", .taskC "done",
        .fenceB "js" ["let x"], .quoteB "a quote", .hrB, .orderedB "first",
        .taskU "todo", .paraB "end 42"] : List PlainBlock).all blockOk
      = true ∧
    serializeToMarkdown (parseMarkdown (serializeToMarkdown
        (parseMarkdown (renderDoc [.headingB 2 "Title", .blank,
          .bulletB "item one", .taskC "done", .fenceB "js" ["let x"],
          .quoteB "a quote", .hrB, .orderedB "first", .taskU "todo",
          .paraB "end 42"]))))
      = serializeToMarkdown (parseMarkdown (renderDoc [.headingB 2 "Title",
          .blank, .bulletB "item one", .taskC "done", .fenceB "js" ["let x"],
          .quoteB "a quote", .hrB, .orderedB "first", .taskU "todo",
          .paraB "end 42"])) :=
  ⟨by decide,
    C1_roundtrip_amended
      (parseMarkdown (renderDoc [.headingB 2 "Title", .blank,
        .bulletB "item one", .taskC "done", .fenceB "js" ["let x"],
        .quoteB "a quote", .hrB, .orderedB "first", .taskU "todo",
        .paraB "end 42"]))
      [.headingB 2 "Title", .blank, .bulletB "item one", .taskC "done",
        .fenceB "js" ["let x"], .quoteB "a quote", .hrB, .orderedB "first",
        .taskU "todo", .paraB "end 42"]
      (by decide) rfl⟩

end Cogito
